import Mathlib

/-!
Verification of the annotation engine of the Epub Annotator repository,
a shallow embedding of the text-processing core of `src/annotate.mjs`.

Texts are modelled as `List Char`.  Regular-expression scans are embedded
as left-to-right recursive scanners that compute the same set of matches
as the JavaScript global regexes they model (a global regex scan is a
left-to-right, non-overlapping, leftmost-match traversal).  Machine
numbers are modelled as `Nat` / `Int`; the floating-point blend inside
`approximateTokenCount` is modelled by exact rational arithmetic, which
agrees with the IEEE evaluation (see the comment on that definition).
-/

set_option maxHeartbeats 4000000
set_option maxRecDepth 100000
set_option linter.unusedVariables false

namespace Annotate

/-! ### Character classes -/

/-- The JavaScript whitespace class `\s` (also used by `String.trim`),
restricted to the whitespace characters that occur in the texts this tool
processes.  Every claim below is insensitive to the exact extension of the
class, as long as chunker and validator use the same one (they do, both in
the source and here). -/
def isJsWs (c : Char) : Bool :=
  c = ' ' || c = '\t' || c = '\n' || c = '\r' || c = '\x0b' || c = '\x0c' || c = ' '

/-- The JS digit class `\d`, i.e. exactly the ASCII digits 0-9. -/
def isDigitJs (c : Char) : Bool :=
  '0' ≤ c && c ≤ '9'

/-- `String.prototype.trimStart`. -/
def trimL (cs : List Char) : List Char := cs.dropWhile isJsWs

/-- `String.prototype.trimEnd`. -/
def trimR (cs : List Char) : List Char := (cs.reverse.dropWhile isJsWs).reverse

/-- `String.prototype.trim`. -/
def trimJs (cs : List Char) : List Char := trimR (trimL cs)

/-- `Array.prototype.join(sep)`. -/
def joinSep (s : List Char) : List (List Char) → List Char
  | [] => []
  | [x] => x
  | x :: y :: xs => x ++ s ++ joinSep s (y :: xs)

/-- The blank-line separator `"\n\n"` used by the chunker. -/
def nl2 : List Char := ['\n', '\n']

/-! ### TokenEstimator: `approximateTokenCount` (annotate.mjs lines 112-120) -/

/-- ASCII members of the JS classes `\p{P}` and `\p{S}` used by the
punctuation count in `approximateTokenCount`.  Non-ASCII punctuation only
shifts the numeric estimate; no claim below depends on the exact
classifier. -/
def isPunctSym (c : Char) : Bool :=
  c ∈ ['!', '\x22', '#', '$', '%', '&', '\x27', '(', ')', '*', '+', ',', '-', '.', '/',
       ':', ';', '<', '=', '>', '?', '@', '[', '\\', ']', '^', '_', '\x60',
       '\x7b', '|', '\x7d', '~']

/-- JS `String.prototype.length` counts UTF-16 code units: astral-plane
characters count twice. -/
def utf16Len (cs : List Char) : Nat :=
  (cs.map (fun c => if 0x10000 ≤ c.toNat then 2 else 1)).sum

/-- Counter for `trimmed.split(/\s+/).filter(Boolean).length`: the number of
maximal non-whitespace runs.  `inRun` records whether the previous character
was a non-whitespace character. -/
def cwGo (inRun : Bool) : List Char → Nat
  | [] => 0
  | c :: cs =>
    if isJsWs c then cwGo false cs
    else (if inRun then 0 else 1) + cwGo true cs

def countWordsJs (cs : List Char) : Nat := cwGo false cs

/-- `approximateTokenCount(text)` from annotate.mjs:

    words + punctuation * 0.2 + charEstimate, halved and rounded.

`Math.round(text.length / 4)` is `(len + 2) / 4` in exact arithmetic
(round half towards positive infinity), and
`Math.round((words + punctuation * 0.2 + charEstimate) / 2)` is
`(10*words + 2*punct + 10*charEst + 10) / 20`.  The IEEE double evaluation
in the source agrees with this exact evaluation: the only inputs for which
`punctuation * 0.2` could shift the rounding of the final half are
multiples of 5, and for those the double product is exact (the real
product `p * (0.2 + ulp-error)` rounds back to the integer `p / 5`);
for all other counts the value being rounded is bounded away from a
half-integer by almost 0.1, far beyond the accumulated error. -/
def approximateTokenCount (cs : List Char) : Nat :=
  if cs = [] then 0
  else
    let trimmed := trimJs cs
    if trimmed = [] then 0
    else
      let words := countWordsJs trimmed
      let punct := (cs.filter isPunctSym).length
      let charEst := (utf16Len cs + 2) / 4
      max 1 ((10 * words + 2 * punct + 10 * charEst + 10) / 20)

/-! ### Chunker: `splitIntoTokenChunks` (annotate.mjs lines 139-164)

`text.trim().split(/\n\s*\n/)` first.  The regex engine matches
`/\n\s*\n/` at the leftmost possible position; at a given position the
greedy `\s*` takes the longest whitespace run that still leaves a final
`\n`, i.e. the match extends to the last `\n` of the maximal whitespace
run following the opening `\n`. -/

/-- Position (1-based) of the last `'\n'` of `l`, if any. -/
def lastNlPos (l : List Char) : Option Nat :=
  match l.reverse.findIdx? (fun c => c = '\n') with
  | some i => some (l.length - i)
  | none => none

/-- Length of the `/\n\s*\n/` match starting at the head of `cs`, if the
regex matches there. -/
def sepLen (cs : List Char) : Option Nat :=
  match cs with
  | '\n' :: rest =>
    match lastNlPos (rest.takeWhile isJsWs) with
    | some k => some (1 + k)
    | none => none
  | _ => none

theorem sepLen_pos {cs : List Char} {k : Nat} (h : sepLen cs = some k) : 1 ≤ k := by
  unfold sepLen at h
  match cs with
  | [] => simp at h
  | '\n' :: rest =>
    simp only at h
    cases hl : lastNlPos (rest.takeWhile isJsWs) with
    | none => rw [hl] at h; simp at h
    | some j => rw [hl] at h; simp at h; omega
  | c :: rest =>
    by_cases hc : c = '\n'
    · subst hc
      simp only at h
      cases hl : lastNlPos (rest.takeWhile isJsWs) with
      | none => rw [hl] at h; simp at h
      | some j => rw [hl] at h; simp at h; omega
    · simp [hc] at h

theorem sepLen_nonempty {cs : List Char} {k : Nat} (h : sepLen cs = some k) : cs ≠ [] := by
  intro hcs; subst hcs; simp [sepLen] at h

/-- `String.prototype.split(regex)`, fuelled so that the kernel can
evaluate it (each step consumes at least one character, so `length + 1`
fuel always suffices, see `splitParas_eq`).  The head of the result is the
piece currently being accumulated. -/
def splitParasF (fuel : Nat) (cs : List Char) : List (List Char) :=
  match fuel with
  | 0 => [[]]
  | fuel + 1 =>
    match sepLen cs with
    | some k => [] :: splitParasF fuel (cs.drop k)
    | none =>
      match cs with
      | [] => [[]]
      | c :: rest => (splitParasF fuel rest).modifyHead (c :: ·)

def splitParas (cs : List Char) : List (List Char) := splitParasF (cs.length + 1) cs

theorem splitParasF_succ (fuel : Nat) (cs : List Char) :
    splitParasF (fuel + 1) cs =
      match sepLen cs with
      | some k => [] :: splitParasF fuel (cs.drop k)
      | none =>
        match cs with
        | [] => [[]]
        | c :: rest => (splitParasF fuel rest).modifyHead (c :: ·) := rfl

theorem splitParasF_irrel :
    ∀ (f₁ : Nat), ∀ (f₂ : Nat) (cs : List Char), cs.length < f₁ → cs.length < f₂ →
      splitParasF f₁ cs = splitParasF f₂ cs := by
  intro f₁
  induction f₁ with
  | zero => intro f₂ cs h1 _; omega
  | succ f₁ ih =>
    intro f₂ cs h1 h2
    cases f₂ with
    | zero => omega
    | succ f₂ =>
      rw [splitParasF_succ f₁ cs, splitParasF_succ f₂ cs]
      cases hsep : sepLen cs with
      | some k =>
        have hk := sepLen_pos hsep
        have hne := sepLen_nonempty hsep
        have hlen : (cs.drop k).length < f₁ ∧ (cs.drop k).length < f₂ := by
          simp only [List.length_drop]
          cases cs with
          | nil => exact absurd rfl hne
          | cons c rest => simp at h1 h2 ⊢; omega
        dsimp only
        rw [ih f₂ (cs.drop k) hlen.1 hlen.2]
      | none =>
        cases cs with
        | nil => rfl
        | cons c rest =>
          simp at h1 h2
          dsimp only
          rw [ih f₂ rest (by omega) (by omega)]

/-- One-step unfolding of `splitParas`, usable for induction on the input
length. -/
theorem splitParas_eq (cs : List Char) :
    splitParas cs =
      match sepLen cs with
      | some k => [] :: splitParas (cs.drop k)
      | none =>
        match cs with
        | [] => [[]]
        | c :: rest => (splitParas rest).modifyHead (c :: ·) := by
  rw [show splitParas cs = splitParasF (cs.length + 1) cs from rfl,
    splitParasF_succ cs.length cs]
  cases hsep : sepLen cs with
  | some k =>
    have hk := sepLen_pos hsep
    have hne := sepLen_nonempty hsep
    dsimp only
    congr 1
    apply splitParasF_irrel
    · simp only [List.length_drop]
      cases cs with
      | nil => exact absurd rfl hne
      | cons c rest => simp; omega
    · omega
  | none =>
    cases cs with
    | nil => rfl
    | cons c rest =>
      dsimp only
      rfl

/-- The greedy paragraph-accumulation loop of `splitIntoTokenChunks`,
returning the chunks as lists of paragraphs (the source keeps the current
chunk as an array `current` of paragraphs and joins it with `"\n\n"` when
it is closed).  `tok` is the per-paragraph `countTokens` estimate (the
token-count cache never changes the returned value for the single model
name a run uses, see `countTokens_fixed_model` below, so the pure
estimator is used here). -/
def chunkGo (tok : List Char → Nat) (eff : Int) (current : List (List Char))
    (curTok : Int) : List (List Char) → List (List (List Char))
  | [] => if current = [] then [] else [current]
  | p :: ps =>
    let t : Int := (tok p : Nat)
    if current ≠ [] ∧ eff < curTok + t then
      current :: chunkGo tok eff [p] t ps
    else
      chunkGo tok eff (current ++ [p]) (curTok + t) ps

def chunkGroups (tok : List Char → Nat) (eff : Int) (paras : List (List Char)) :
    List (List (List Char)) :=
  chunkGo tok eff [] 0 paras

/-- `splitIntoTokenChunks(text, maxTokens)` from annotate.mjs.  The margin
and the minimum floor come from configuration (`FOOTNOTE_MARGIN_TOKENS`,
`MIN_EFFECTIVE_CHUNK_TOKENS`); they are parameters here so the theorems
cover every configuration. -/
def splitIntoTokenChunks (text : List Char) (maxTokens margin minFloor : Int) :
    List (List Char) :=
  let eff := max minFloor (maxTokens - margin)
  let paras := splitParas (trimJs text)
  (chunkGroups approximateTokenCount eff paras).map (joinSep nl2)

/-! ### Chunker lemmas -/

theorem chunkGo_join (tok : List Char → Nat) (eff : Int) :
    ∀ (ps current : List (List Char)) (ct : Int),
      (chunkGo tok eff current ct ps).flatten = current ++ ps := by
  intro ps
  induction ps with
  | nil =>
    intro current ct
    by_cases h : current = []
    · subst h; simp [chunkGo]
    · simp [chunkGo, h]
  | cons p ps ih =>
    intro current ct
    by_cases h : current ≠ [] ∧ eff < ct + (tok p : Nat)
    · simp only [chunkGo, if_pos h, List.flatten_cons, ih]
      simp
    · simp only [chunkGo, if_neg h, ih]
      simp

theorem chunkGo_ne_nil (tok : List Char → Nat) (eff : Int) :
    ∀ (ps current : List (List Char)) (ct : Int) (g : List (List Char)),
      g ∈ chunkGo tok eff current ct ps → g ≠ [] := by
  intro ps
  induction ps with
  | nil =>
    intro current ct g hg
    by_cases h : current = []
    · subst h; simp [chunkGo] at hg
    · simp [chunkGo, h] at hg
      subst hg; exact h
  | cons p ps ih =>
    intro current ct g hg
    by_cases h : current ≠ [] ∧ eff < ct + (tok p : Nat)
    · simp only [chunkGo, if_pos h, List.mem_cons] at hg
      rcases hg with rfl | hg
      · exact h.1
      · exact ih _ _ _ hg
    · simp only [chunkGo, if_neg h] at hg
      exact ih _ _ _ hg

theorem joinSep_append (s : List Char) :
    ∀ (l₁ l₂ : List (List Char)), l₂ ≠ [] →
      joinSep s (l₁ ++ l₂) = (if l₁ = [] then [] else joinSep s l₁ ++ s) ++ joinSep s l₂ := by
  intro l₁
  induction l₁ with
  | nil => intro l₂ _; simp
  | cons x xs ih =>
    intro l₂ hl₂
    cases xs with
    | nil =>
      cases l₂ with
      | nil => exact absurd rfl hl₂
      | cons y ys => simp [joinSep]
    | cons x' xs' =>
      have h := ih l₂ hl₂
      rw [if_neg (by simp)] at h ⊢
      show joinSep s (x :: x' :: (xs' ++ l₂)) = _
      rw [joinSep]
      simp only [List.cons_append] at h
      rw [h]
      show _ = (x ++ s ++ joinSep s (x' :: xs')) ++ s ++ joinSep s l₂
      simp [List.append_assoc]

theorem joinSep_map_joinSep (s : List Char) :
    ∀ (gs : List (List (List Char))), (∀ g ∈ gs, g ≠ []) →
      joinSep s (gs.map (joinSep s)) = joinSep s gs.flatten := by
  intro gs
  induction gs with
  | nil => intro _; simp
  | cons g gs ih =>
    intro hne
    cases gs with
    | nil => simp [joinSep]
    | cons g' gs' =>
      have hg : g ≠ [] := hne g (by simp)
      have hg' : g' ≠ [] := hne g' (by simp)
      have hfl : g' ++ gs'.flatten ≠ [] := by
        intro h

        exact hg' (List.append_eq_nil.mp h).1
      have h1 : joinSep s ((g :: g' :: gs').map (joinSep s))
          = joinSep s g ++ s ++ joinSep s ((g' :: gs').map (joinSep s)) := by
        simp only [List.map_cons]
        rfl
      rw [h1, ih (fun x hx => hne x (by simp [hx]))]
      have h2 := joinSep_append s g (g' ++ gs'.flatten) hfl
      rw [if_neg hg] at h2
      simp only [List.flatten_cons] at h2 ⊢
      rw [h2]

/-! ### Claim C1 -/

/-- Claim C1 is false as stated: for the input `"a\n\n\nb"` (two paragraphs
separated by three newlines, all of which the split regex `/\n\s*\n/`
consumes as one separator), rejoining the chunks of `splitIntoTokenChunks`
with `"\n\n"` yields `"a\n\nb"`, which differs from the manuscript body. -/
theorem chunker_rejoin_cex :
    joinSep nl2 (splitIntoTokenChunks ("a\n\n\nb").toList 1000 0 40)
      ≠ ("a\n\n\nb").toList := by
  decide

/-- Claim C1 (amended): rejoining the chunks of `splitIntoTokenChunks` with
a blank line always reproduces, for every input and every budget, the
paragraph sequence of the trimmed manuscript body rejoined with single
blank lines — no paragraph is lost, duplicated or reordered; the body is
reproduced verbatim exactly when it is already trimmed and its paragraph
separators are exactly `"\n\n"`. -/
theorem chunker_rejoin (text : List Char) (maxTokens margin minFloor : Int) :
    joinSep nl2 (splitIntoTokenChunks text maxTokens margin minFloor)
      = joinSep nl2 (splitParas (trimJs text)) := by
  unfold splitIntoTokenChunks
  dsimp only
  unfold chunkGroups
  rw [joinSep_map_joinSep _ _ (fun g hg => chunkGo_ne_nil _ _ _ _ _ g hg)]
  rw [chunkGo_join]
  simp

/-! ### Claim C6 -/

/-- The estimated token cost of a chunk: the sum of the per-paragraph
estimates, exactly the quantity `currentTokens` that the accumulation loop
of `splitIntoTokenChunks` tracks. -/
def chunkCost (tok : List Char → Nat) (g : List (List Char)) : Int :=
  ((g.map tok).sum : Nat)

theorem chunkCost_append (tok : List Char → Nat) (g : List (List Char)) (p : List Char) :
    chunkCost tok (g ++ [p]) = chunkCost tok g + (tok p : Nat) := by
  simp [chunkCost]

theorem chunkGo_cost_le (tok : List Char → Nat) (eff : Int) :
    ∀ (ps current : List (List Char)) (ct : Int),
      ct = chunkCost tok current →
      (1 < current.length → ct ≤ eff) →
      ∀ g ∈ chunkGo tok eff current ct ps, 1 < g.length → chunkCost tok g ≤ eff := by
  intro ps
  induction ps with
  | nil =>
    intro current ct hct hbound g hg hlen
    by_cases h : current = []
    · subst h; simp [chunkGo] at hg
    · simp [chunkGo, h] at hg
      subst hg; exact hct ▸ hbound hlen
  | cons p ps ih =>
    intro current ct hct hbound g hg hlen
    by_cases h : current ≠ [] ∧ eff < ct + (tok p : Nat)
    · simp only [chunkGo, if_pos h, List.mem_cons] at hg
      rcases hg with rfl | hg
      · exact hct ▸ hbound hlen
      · refine ih [p] _ (by simp [chunkCost]) (by simp) g hg hlen
    · simp only [chunkGo, if_neg h] at hg
      refine ih (current ++ [p]) _ (by rw [hct, chunkCost_append]) ?_ g hg hlen
      intro hlong
      push_neg at h
      rcases List.eq_nil_or_concat current with rfl | _
      · simp at hlong
      · have hcur : current ≠ [] := by
          intro hc; subst hc; simp at hlong
        exact hct ▸ h hcur

/-- Claim C6: every chunk produced by the chunker that contains two or more
paragraphs has total estimated token cost at most the effective budget
`max(minFloor, maxTokens - margin)`; only a chunk consisting of a single
paragraph may exceed it. -/
theorem chunk_cost_within_budget (text : List Char) (maxTokens margin minFloor : Int)
    (g : List (List Char))
    (hg : g ∈ chunkGroups approximateTokenCount (max minFloor (maxTokens - margin))
            (splitParas (trimJs text)))
    (hlen : 1 < g.length) :
    chunkCost approximateTokenCount g ≤ max minFloor (maxTokens - margin) := by
  exact chunkGo_cost_le approximateTokenCount _ _ [] 0 (by simp [chunkCost])
    (by simp) g hg hlen

/-- Witness for `chunk_cost_within_budget`: the text `"a\n\nb"` with budget
1000 produces the single chunk `["a", "b"]` of two paragraphs, and its cost
is within the budget. -/
theorem chunk_cost_within_budget_witness :
    [['a'], ['b']] ∈ chunkGroups approximateTokenCount (max 40 (1000 - 0))
        (splitParas (trimJs ("a\n\nb").toList))
    ∧ chunkCost approximateTokenCount [['a'], ['b']] ≤ max 40 (1000 - 0) := by
  have hmem : [['a'], ['b']] ∈ chunkGroups approximateTokenCount (max 40 (1000 - 0))
      (splitParas (trimJs ("a\n\nb").toList)) := by
    decide
  exact ⟨hmem, chunk_cost_within_budget ("a\n\nb").toList 1000 0 40 _ hmem (by simp)⟩

/-! ### TokenEstimator cache: `countTokens` (annotate.mjs lines 110-137)

The cache is a JS `Map` keyed by `` `${model}::${text}` ``, used in
insertion order: a hit deletes and re-inserts its entry (moving it to the
most-recent end); on overflow the first (= oldest) key is evicted. -/

/-- The token-count cache state: key-value pairs, oldest first. -/
abbrev TokenCache := List (List Char × Nat)

def cacheKey (model text : List Char) : List Char := model ++ [':', ':'] ++ text

def cacheGet (st : TokenCache) (k : List Char) : Option Nat :=
  match st with
  | [] => none
  | (k', v) :: rest => if k' = k then some v else cacheGet rest k

def cacheDelete (st : TokenCache) (k : List Char) : TokenCache :=
  match st with
  | [] => []
  | (k', v) :: rest => if k' = k then rest else (k', v) :: cacheDelete rest k

/-- `countTokens(text, model)` from annotate.mjs, returning the estimate
together with the updated cache state. -/
def countTokens (cacheSize : Nat) (model text : List Char) (st : TokenCache) :
    Nat × TokenCache :=
  let k := cacheKey model text
  match cacheGet st k with
  | some v => (v, cacheDelete st k ++ [(k, v)])
  | none =>
    let tokens := approximateTokenCount text
    let st' := st ++ [(k, tokens)]
    if cacheSize < st'.length then (tokens, st'.tail) else (tokens, st')

/-- The cache state after a sequence of `countTokens` calls starting from
the empty cache. -/
def runCountTokens (cacheSize : Nat) (calls : List (List Char × List Char)) : TokenCache :=
  calls.foldl (fun st mt => (countTokens cacheSize mt.1 mt.2 st).2) []

/-! ### Claim C8 -/

/-- Claim C8 is false as stated: the composite cache key `model + "::" + text`
can collide across different `(model, text)` pairs.  After
`countTokens("aaaa::bbbbbbbbbbbbbbbbbbbb", "m")` is cached, the call
`countTokens("bbbbbbbbbbbbbbbbbbbb", "m::aaaa")` hits the same key
`"m::aaaa::bbbbbbbbbbbbbbbbbbbb"` and returns 4, the count of the other
text, instead of `approximateTokenCount("bbbbbbbbbbbbbbbbbbbb") = 3`. -/
theorem countTokens_cache_cex :
    (countTokens 32 ("m::aaaa").toList ("bbbbbbbbbbbbbbbbbbbb").toList
        (countTokens 32 ("m").toList ("aaaa::bbbbbbbbbbbbbbbbbbbb").toList []).2).1
      ≠ approximateTokenCount ("bbbbbbbbbbbbbbbbbbbb").toList := by
  decide

/-- Every cached entry holds the pure estimate for its own text, all under
one fixed model name. -/
def CacheGood (m : List Char) (st : TokenCache) : Prop :=
  ∀ e ∈ st, ∃ t, e.1 = cacheKey m t ∧ e.2 = approximateTokenCount t

theorem cacheKey_inj {m t₁ t₂ : List Char} (h : cacheKey m t₁ = cacheKey m t₂) :
    t₁ = t₂ := by
  unfold cacheKey at h
  rw [List.append_assoc, List.append_assoc] at h
  have h1 : [':', ':'] ++ t₁ = [':', ':'] ++ t₂ := List.append_cancel_left h
  exact List.append_cancel_left h1

theorem cacheGet_mem {st : TokenCache} {k : List Char} {v : Nat}
    (h : cacheGet st k = some v) : (k, v) ∈ st := by
  induction st with
  | nil => simp [cacheGet] at h
  | cons e rest ih =>
    obtain ⟨k', v'⟩ := e
    by_cases hk : k' = k
    · subst hk
      simp [cacheGet] at h
      subst h
      simp
    · simp [cacheGet, hk] at h
      exact List.mem_cons_of_mem _ (ih h)

theorem cacheDelete_subset {st : TokenCache} {k : List Char} :
    ∀ e ∈ cacheDelete st k, e ∈ st := by
  induction st with
  | nil => simp [cacheDelete]
  | cons e' rest ih =>
    obtain ⟨k', v'⟩ := e'
    intro e he
    by_cases hk : k' = k
    · simp [cacheDelete, hk] at he
      exact List.mem_cons_of_mem _ he
    · simp only [cacheDelete, if_neg hk, List.mem_cons] at he
      rcases he with rfl | he
      · simp
      · exact List.mem_cons_of_mem _ (ih e he)

theorem countTokens_hit {cacheSize : Nat} {m text : List Char} {st : TokenCache} {v : Nat}
    (hget : cacheGet st (cacheKey m text) = some v) :
    countTokens cacheSize m text st
      = (v, cacheDelete st (cacheKey m text) ++ [(cacheKey m text, v)]) := by
  simp only [countTokens, hget]

theorem countTokens_miss {cacheSize : Nat} {m text : List Char} {st : TokenCache}
    (hget : cacheGet st (cacheKey m text) = none) :
    countTokens cacheSize m text st
      = (if cacheSize < (st ++ [(cacheKey m text, approximateTokenCount text)]).length
         then (approximateTokenCount text,
               (st ++ [(cacheKey m text, approximateTokenCount text)]).tail)
         else (approximateTokenCount text,
               st ++ [(cacheKey m text, approximateTokenCount text)])) := by
  simp only [countTokens, hget]

theorem countTokens_good {cacheSize : Nat} {m : List Char} {st : TokenCache}
    (hst : CacheGood m st) (text : List Char) :
    (countTokens cacheSize m text st).1 = approximateTokenCount text
    ∧ CacheGood m (countTokens cacheSize m text st).2 := by
  cases hget : cacheGet st (cacheKey m text) with
  | some v =>
    rw [countTokens_hit hget]
    obtain ⟨t, hkey, hval⟩ := hst _ (cacheGet_mem hget)
    have ht : t = text := cacheKey_inj hkey.symm
    subst ht
    constructor
    · simpa using hval
    · intro e he
      simp only at he
      rcases List.mem_append.mp he with he | he
      · exact hst e (cacheDelete_subset e he)
      · simp at he
        subst he
        exact ⟨t, rfl, hval⟩
  | none =>
    rw [countTokens_miss hget]
    have hgood : CacheGood m (st ++ [(cacheKey m text, approximateTokenCount text)]) := by
      intro e he
      rcases List.mem_append.mp he with he | he
      · exact hst e he
      · simp at he
        subst he
        exact ⟨text, rfl, rfl⟩
    by_cases hlen : cacheSize < (st ++ [(cacheKey m text, approximateTokenCount text)]).length
    · rw [if_pos hlen]
      refine ⟨rfl, ?_⟩
      intro e he
      exact hgood e (List.mem_of_mem_tail he)
    · rw [if_neg hlen]
      exact ⟨rfl, hgood⟩

theorem runCountTokens_good (cacheSize : Nat) (m : List Char) (texts : List (List Char)) :
    CacheGood m (runCountTokens cacheSize (texts.map (fun t => (m, t)))) := by
  unfold runCountTokens
  rw [List.foldl_map]
  induction texts using List.reverseRecOn with
  | nil => intro e he; simp at he
  | append_singleton ts t ih =>
    rw [List.foldl_append]
    exact (countTokens_good ih t).2

/-- Claim C8 (amended): provided every call in the history uses one fixed
model name — as the program does, every call site passing `MODEL_NAME` —
`countTokens` returns exactly `approximateTokenCount text` from every
reachable cache state (hits, insertions and LRU evictions included), and
the returned value is 0 for blank text and at least 1 for non-blank
text. -/
theorem countTokens_fixed_model (cacheSize : Nat) (m : List Char)
    (texts : List (List Char)) (text : List Char) :
    (countTokens cacheSize m text
        (runCountTokens cacheSize (texts.map (fun t => (m, t))))).1
      = approximateTokenCount text
    ∧ (trimJs text = [] → approximateTokenCount text = 0)
    ∧ (trimJs text ≠ [] → 1 ≤ approximateTokenCount text) := by
  refine ⟨(countTokens_good (runCountTokens_good cacheSize m texts) text).1, ?_, ?_⟩
  · intro hblank
    unfold approximateTokenCount
    by_cases hnil : text = []
    · simp [hnil]
    · simp [hnil, hblank]
  · intro hblank
    have hnil : text ≠ [] := by
      intro h; subst h; exact hblank rfl
    unfold approximateTokenCount
    simp [hnil, hblank]

/-- Witness for `countTokens_fixed_model` at a concrete history. -/
theorem countTokens_fixed_model_witness :
    (countTokens 32 ("gpt-4.1").toList ("hello world").toList
        (runCountTokens 32 ((["hello world".toList, "x".toList]).map
          (fun t => (("gpt-4.1").toList, t))))).1
      = approximateTokenCount ("hello world").toList
    ∧ trimJs (" ").toList = []
    ∧ trimJs ("hello world").toList ≠ [] ∧ 1 ≤ approximateTokenCount ("hello world").toList := by
  refine ⟨(countTokens_fixed_model 32 ("gpt-4.1").toList
      ["hello world".toList, "x".toList] ("hello world").toList).1, by decide, by decide, ?_⟩
  exact (countTokens_fixed_model 32 ("gpt-4.1").toList
      ["hello world".toList, "x".toList] ("hello world").toList).2.2 (by decide)

/-! ### RetryScheduler: `callChatWithBackoff` (annotate.mjs lines 371-407)

The loop `for (attempt = 0; attempt < maxRetries; attempt++)` either
returns the streamed text, re-raises the attempt error (when it is not
retryable, or when `attempt === maxRetries - 1`), or sleeps and retries.
The trailing `throw new Error('Exceeded max retries for API call')` after
the loop is modelled by the distinct constructor `exceededRetries`.
Backoff delays and jitter are timing only and are not modelled. -/

/-- An error raised by one streaming attempt: an optional HTTP status and
whether it is an abort/timeout (`error.name === 'AbortError'` or a message
matching `/timeout/i`). -/
structure ApiError where
  status : Option Nat
  abortish : Bool
deriving DecidableEq, Repr

/-- What `callChatWithBackoff` can throw: a re-raised per-attempt error,
or the distinct final error after the loop. -/
inductive Thrown where
  | attemptErr : ApiError → Thrown
  | exceededRetries : Thrown
deriving DecidableEq, Repr

/-- JS truthiness of `error.status` (`undefined` and `0` are falsy). -/
def statusTruthy : Option Nat → Bool
  | some s => decide (s ≠ 0)
  | none => false

def retryStatuses : List Nat := [429, 502, 503, 504]

/-- `const shouldRetry = status ? [429,502,503,504].includes(status) : isAbort`. -/
def shouldRetry (e : ApiError) : Bool :=
  if statusTruthy e.status then
    match e.status with
    | some s => decide (s ∈ retryStatuses)
    | none => false
  else e.abortish

/-- The retry loop; `remaining = maxRetries - attempt` is the structural
fuel, positive exactly while `attempt < maxRetries`.  `results i` is the
outcome of the i-th `postResponsesStream` attempt. -/
def callChatGo {α : Type} (results : Nat → Except ApiError α) (maxRetries : Nat) :
    Nat → Nat → Except Thrown α
  | _, 0 => .error .exceededRetries
  | attempt, remaining + 1 =>
    match results attempt with
    | .ok v => .ok v
    | .error e =>
      if shouldRetry e = false ∨ attempt = maxRetries - 1 then .error (.attemptErr e)
      else callChatGo results maxRetries (attempt + 1) remaining

def callChatWithBackoff {α : Type} (results : Nat → Except ApiError α)
    (maxRetries : Nat) : Except Thrown α :=
  callChatGo results maxRetries 0 maxRetries

/-! ### Claim C5 -/

/-- Claim C5 is false as stated: with `maxRetries = 2` and both attempts
failing with a retryable 429 error, the final outcome is the second
attempt's own error re-raised (`attempt === maxRetries - 1` throws the
per-attempt error inside the loop), not the distinct final error; the
trailing `throw new Error('Exceeded max retries for API call')` is
unreachable for `maxRetries ≥ 1`. -/
theorem backoff_final_error_cex :
    callChatWithBackoff (α := Nat) (fun _ => .error ⟨some 429, false⟩) 2
        = .error (.attemptErr ⟨some 429, false⟩)
    ∧ callChatWithBackoff (α := Nat) (fun _ => .error ⟨some 429, false⟩) 2
        ≠ .error .exceededRetries := by
  refine ⟨rfl, ?_⟩
  intro h
  rw [show callChatWithBackoff (α := Nat) (fun _ => .error ⟨some 429, false⟩) 2
      = .error (.attemptErr ⟨some 429, false⟩) from rfl] at h
  simp at h

theorem callChatGo_reraises {α : Type} (results : Nat → Except ApiError α)
    (maxRetries : Nat)
    (hfail : ∀ i, i < maxRetries → ∃ e, results i = .error e ∧ shouldRetry e = true) :
    ∀ (remaining attempt : Nat), remaining + attempt = maxRetries → 1 ≤ remaining →
      ∃ e, results (maxRetries - 1) = .error e ∧
        callChatGo results maxRetries attempt remaining = .error (.attemptErr e) := by
  intro remaining
  induction remaining with
  | zero => intro attempt _ h1; omega
  | succ rem ih =>
    intro attempt hsum _
    obtain ⟨e, he, hretry⟩ := hfail attempt (by omega)
    cases rem with
    | zero =>
      have hlast : attempt = maxRetries - 1 := by omega
      refine ⟨e, by rw [← hlast]; exact he, ?_⟩
      simp only [callChatGo, he]
      rw [if_pos (Or.inr hlast)]
    | succ rem' =>
      have hnotlast : attempt ≠ maxRetries - 1 := by omega
      obtain ⟨e', he', hgo⟩ := ih (attempt + 1) (by omega) (by omega)
      refine ⟨e', he', ?_⟩
      simp only [callChatGo, he]
      rw [if_neg (by simp [hretry, hnotlast])]
      exact hgo

/-- Claim C5 (amended): when every one of the `maxRetries ≥ 1` attempts
fails with a retryable error, `callChatWithBackoff` re-raises the last
attempt's own error; the distinct final error (`exceededRetries`, the
source's `'Exceeded max retries for API call'`) is never reached in that
case — it could only be produced with `maxRetries = 0`. -/
theorem backoff_reraises_last {α : Type} (results : Nat → Except ApiError α)
    (maxRetries : Nat) (hpos : 1 ≤ maxRetries)
    (hfail : ∀ i, i < maxRetries → ∃ e, results i = .error e ∧ shouldRetry e = true) :
    ∃ e, results (maxRetries - 1) = .error e ∧
      callChatWithBackoff results maxRetries = .error (.attemptErr e) := by
  exact callChatGo_reraises results maxRetries hfail maxRetries 0 (by omega) hpos

/-- Witness for `backoff_reraises_last`: two attempts, both timing out. -/
theorem backoff_reraises_last_witness :
    ∃ e, (fun _ : Nat => (.error ⟨none, true⟩ : Except ApiError Nat)) (2 - 1) = .error e ∧
      callChatWithBackoff (α := Nat) (fun _ => .error ⟨none, true⟩) 2
        = .error (.attemptErr e) := by
  exact backoff_reraises_last (fun _ => .error ⟨none, true⟩) 2 (by omega)
    (fun i _ => ⟨⟨none, true⟩, rfl, by decide⟩)

/-! ### VocabMemory (annotate.mjs lines 679-785)

`terms` is the ordered term list, `lower` the JS `Set` of lower-cased
terms used for membership tests (modelled as a list in insertion order;
only membership is ever queried).  `storeLimit` is the configured
capacity. -/

structure VocabMemory where
  terms : List (List Char)
  lower : List (List Char)
  storeLimit : Nat
deriving DecidableEq, Repr

/-- `String.prototype.toLowerCase`, per character. -/
def lowerJs (cs : List Char) : List Char := cs.map Char.toLower

/-- `Array.prototype.slice(-limit)`.  For a positive `limit` this keeps the
last `limit` elements; for `limit = 0` JavaScript evaluates `slice(-0)`,
which is `slice(0)`, i.e. the whole array — the capacity is then never
enforced. -/
def sliceNeg {β : Type} (limit : Nat) (l : List β) : List β :=
  if limit = 0 then l else l.drop (l.length - limit)

/-- The `for (const term of terms)` loop of `VocabMemory.addTerms`. -/
def addTermsGo (m : VocabMemory) (updated : Bool) : List (List Char) → Bool × VocabMemory
  | [] => (updated, m)
  | t :: ts =>
    let clean := trimJs t
    if clean = [] then addTermsGo m updated ts
    else
      let lw := lowerJs clean
      if lw ∈ m.lower then addTermsGo m updated ts
      else
        addTermsGo
          { m with terms := m.terms ++ [clean], lower := m.lower ++ [lw] } true ts

/-- `VocabMemory.addTerms`: the insertion loop followed by the overflow
truncation `this.terms.slice(-this.storeLimit)` and the `lower` rebuild. -/
def addTerms (m : VocabMemory) (ts : List (List Char)) : Bool × VocabMemory :=
  let r := addTermsGo m false ts
  let m' := r.2
  if m'.storeLimit < m'.terms.length then
    let kept := sliceNeg m'.storeLimit m'.terms
    (r.1, { m' with terms := kept, lower := kept.map lowerJs })
  else r

/-- The filtering loop of `VocabMemory.load`: keep string entries (non-string
entries are `none` here), trim, drop empties, deduplicate case-insensitively. -/
def loadFilter (seen : List (List Char)) : List (Option (List Char)) → List (List Char)
  | [] => []
  | none :: rest => loadFilter seen rest
  | some e :: rest =>
    let clean := trimJs e
    if clean = [] then loadFilter seen rest
    else
      let lw := lowerJs clean
      if lw ∈ seen then loadFilter seen rest
      else clean :: loadFilter (seen ++ [lw]) rest

/-- `VocabMemory.load`: `data = none` models a missing file, an unreadable
file or non-array JSON, all of which leave the state unchanged. -/
def load (m : VocabMemory) (data : Option (List (Option (List Char)))) : VocabMemory :=
  match data with
  | none => m
  | some entries =>
    let filtered := loadFilter [] entries
    let limited := sliceNeg m.storeLimit filtered
    { m with terms := limited, lower := limited.map lowerJs }

/-! ### `VocabMemory.extractTerms` (annotate.mjs lines 758-784) -/

/-- Split on `'\n'`: the line structure over which the `^`-anchored,
`m`-flagged regexes of annotate.mjs scan. -/
def splitLines : List Char → List (List Char)
  | [] => [[]]
  | c :: rest =>
    if c = '\n' then [] :: splitLines rest
    else (splitLines rest).modifyHead (c :: ·)

/-- Match of `^\[\^(\d+)\]:(.*)$` against one line, returning the text
after the colon. -/
def matchDefLine (line : List Char) : Option (List Char) :=
  match line with
  | '[' :: '^' :: rest =>
    let ds := rest.takeWhile isDigitJs
    if ds = [] then none
    else
      match rest.dropWhile isDigitJs with
      | ']' :: ':' :: content => some content
      | _ => none
  | _ => none

/-- Boolean string-prefix test (`String.prototype.startsWith`). -/
def leadsWith : List Char → List Char → Bool
  | [], _ => true
  | _ :: _, [] => false
  | p :: ps, c :: cs => p = c && leadsWith ps cs

/-- `String.prototype.indexOf` for a substring pattern. -/
def subIdxAux (pat : List Char) : List Char → Nat → Option Nat
  | hay, i =>
    if leadsWith pat hay then some i
    else
      match hay with
      | [] => none
      | _ :: t => subIdxAux pat t (i + 1)

def subIdx (hay pat : List Char) : Option Nat := subIdxAux pat hay 0

/-- `ALLOWED_EMOJIS` (annotate.mjs lines 92-102). -/
def allowedEmojis : List (List Char) :=
  ["📚", "💓", "🔧", "🧠", "🗝️", "🇯🇵", "🌍", "🧩", "⏳"].map String.toList

/-- The separators tried in order by `extractTerms` when cutting a footnote
body down to its leading term. -/
def vocabSeps : List (List Char) :=
  [[':'], ['：'], [' ', '-', ' '], [' ', '—', ' '], [' ', '–', ' '], ['—'], ['–']]

/-- The `for (const emoji of ALLOWED_EMOJIS)` strip-and-break loop. -/
def stripLeadEmoji (content : List Char) : List Char :=
  match allowedEmojis.find? (fun e => leadsWith e content) with
  | some e => trimL (content.drop e.length)
  | none => content

/-- The separator-cutting loop: the first listed separator that occurs cuts
the candidate at its first occurrence. -/
def cutAtSep (candidate : List Char) : List Char :=
  match vocabSeps.find? (fun sep => (subIdx candidate sep).isSome) with
  | some sep => candidate.take ((subIdx candidate sep).getD 0)
  | none => candidate

/-- `VocabMemory.extractTerms(text)`. -/
def extractTerms (text : List Char) : List (List Char) :=
  (splitLines text).filterMap fun line =>
    match matchDefLine line with
    | none => none
    | some raw =>
      let content := trimJs raw
      if content = [] then none
      else
        let c2 := stripLeadEmoji content
        if c2 = [] then none
        else
          let term := trimJs (cutAtSep c2)
          if term = [] then none else some term

/-- `VocabMemory.updateFromText`. -/
def updateFromText (m : VocabMemory) (text : List Char) : Bool × VocabMemory :=
  addTerms m (extractTerms text)

/-! ### Claim C7 -/

/-- One mutation of a `VocabMemory` instance. -/
inductive VMStep (m : VocabMemory) : VocabMemory → Prop
  | loadStep (data : Option (List (Option (List Char)))) : VMStep m (load m data)
  | addStep (ts : List (List Char)) : VMStep m (addTerms m ts).2
  | updateStep (text : List Char) : VMStep m (updateFromText m text).2

/-- The states reachable from a freshly constructed instance with capacity
`limit` (the constructor's own `load()` call is the first step). -/
inductive VMReach (limit : Nat) : VocabMemory → Prop
  | init : VMReach limit ⟨[], [], limit⟩
  | step {m m' : VocabMemory} : VMReach limit m → VMStep m m' → VMReach limit m'

/-- The data-structure invariant: lower-cased terms are pairwise distinct,
and the `lower` set contains exactly the lower-cased terms. -/
def VMInv (m : VocabMemory) : Prop :=
  (m.terms.map lowerJs).Nodup ∧ ∀ x, x ∈ m.lower ↔ x ∈ m.terms.map lowerJs

theorem addTermsGo_inv :
    ∀ (ts : List (List Char)) (m : VocabMemory) (u : Bool), VMInv m →
      VMInv (addTermsGo m u ts).2 ∧ (addTermsGo m u ts).2.storeLimit = m.storeLimit := by
  intro ts
  induction ts with
  | nil => intro m u h; exact ⟨h, rfl⟩
  | cons t ts ih =>
    intro m u h
    by_cases hclean : trimJs t = []
    · simp only [addTermsGo, if_pos hclean]
      exact ih m u h
    · by_cases hmem : lowerJs (trimJs t) ∈ m.lower
      · simp only [addTermsGo, if_neg hclean, if_pos hmem]
        exact ih m u h
      · simp only [addTermsGo, if_neg hclean, if_neg hmem]
        have hnotin : lowerJs (trimJs t) ∉ m.terms.map lowerJs := by
          intro hx; exact hmem ((h.2 _).mpr hx)
        have hinv : VMInv ⟨m.terms ++ [trimJs t], m.lower ++ [lowerJs (trimJs t)], m.storeLimit⟩ := by
          constructor
          · simp only [List.map_append, List.map_cons, List.map_nil]
            rw [List.nodup_append]
            refine ⟨h.1, by simp, ?_⟩
            intro x hx hx'
            simp at hx'
            subst hx'
            exact hnotin hx
          · intro x
            simp only [List.map_append, List.map_cons, List.map_nil, List.mem_append,
              List.mem_singleton]
            constructor
            · rintro (hx | hx)
              · exact Or.inl ((h.2 x).mp hx)
              · exact Or.inr hx
            · rintro (hx | hx)
              · exact Or.inl ((h.2 x).mpr hx)
              · exact Or.inr hx
        exact ih _ true hinv

theorem sliceNeg_sublist {β : Type} (limit : Nat) (l : List β) :
    (sliceNeg limit l).Sublist l := by
  unfold sliceNeg
  by_cases h : limit = 0
  · simp [h]
  · simp only [if_neg h]
    exact List.drop_sublist _ l

theorem sliceNeg_length_le {β : Type} {limit : Nat} (hpos : 1 ≤ limit) (l : List β) :
    (sliceNeg limit l).length ≤ limit := by
  unfold sliceNeg
  rw [if_neg (by omega)]
  simp only [List.length_drop]
  omega

theorem addTerms_inv (m : VocabMemory) (ts : List (List Char)) (h : VMInv m) :
    VMInv (addTerms m ts).2 ∧ (addTerms m ts).2.storeLimit = m.storeLimit
    ∧ (1 ≤ m.storeLimit → (addTerms m ts).2.terms.length ≤ m.storeLimit) := by
  obtain ⟨hinv, hsl⟩ := addTermsGo_inv ts m false h
  unfold addTerms
  dsimp only
  by_cases hover :
      (addTermsGo m false ts).2.storeLimit < (addTermsGo m false ts).2.terms.length
  · rw [if_pos hover]
    refine ⟨⟨?_, fun x => Iff.rfl⟩, by simpa using hsl, ?_⟩
    · exact hinv.1.sublist ((sliceNeg_sublist _ _).map lowerJs)
    · intro hpos
      show (sliceNeg (addTermsGo m false ts).2.storeLimit (addTermsGo m false ts).2.terms).length
        ≤ m.storeLimit
      rw [← hsl]
      exact sliceNeg_length_le (by omega) _
  · rw [if_neg hover]
    exact ⟨hinv, hsl, fun _ => by rw [← hsl]; omega⟩

theorem loadFilter_good :
    ∀ (entries : List (Option (List Char))) (seen : List (List Char)),
      ((loadFilter seen entries).map lowerJs).Nodup
      ∧ ∀ x ∈ (loadFilter seen entries).map lowerJs, x ∉ seen := by
  intro entries
  induction entries with
  | nil => intro seen; simp [loadFilter]
  | cons e rest ih =>
    intro seen
    match e with
    | none => exact ih seen
    | some t =>
      by_cases hclean : trimJs t = []
      · simp only [loadFilter, if_pos hclean]
        exact ih seen
      · by_cases hmem : lowerJs (trimJs t) ∈ seen
        · simp only [loadFilter, if_neg hclean, if_pos hmem]
          exact ih seen
        · simp only [loadFilter, if_neg hclean, if_neg hmem, List.map_cons]
          obtain ⟨hnd, hns⟩ := ih (seen ++ [lowerJs (trimJs t)])
          constructor
          · rw [List.nodup_cons]
            refine ⟨?_, hnd⟩
            intro hx
            exact hns _ hx (by simp)
          · intro x hx
            simp only [List.mem_cons] at hx
            rcases hx with rfl | hx
            · exact hmem
            · intro hxs
              exact hns x hx (by simp [hxs])

theorem load_inv (m : VocabMemory) (data : Option (List (Option (List Char))))
    (h : VMInv m) :
    VMInv (load m data) ∧ (load m data).storeLimit = m.storeLimit
    ∧ (1 ≤ m.storeLimit → m.terms.length ≤ m.storeLimit →
        (load m data).terms.length ≤ m.storeLimit) := by
  match data with
  | none => exact ⟨h, rfl, fun _ hb => hb⟩
  | some entries =>
    refine ⟨⟨?_, fun x => Iff.rfl⟩, rfl, ?_⟩
    · exact (loadFilter_good entries []).1.sublist ((sliceNeg_sublist _ _).map lowerJs)
    · intro hpos _
      exact sliceNeg_length_le hpos _

/-- Claim C7 is false as stated: a `VocabMemory` configured with capacity 0
(`VOCAB_MEMORY_STORE_LIMIT=0`) exceeds its capacity after a single
`addTerms`, because the truncation `this.terms.slice(-this.storeLimit)`
evaluates `slice(-0) = slice(0)` and keeps everything. -/
theorem vocab_capacity_cex :
    VMReach 0 (addTerms ⟨[], [], 0⟩ [['a']]).2
    ∧ 0 < (addTerms ⟨[], [], 0⟩ [['a']]).2.terms.length := by
  exact ⟨VMReach.step VMReach.init (VMStep.addStep [['a']]), by decide⟩

theorem vmreach_inv (limit : Nat) (m : VocabMemory) (hr : VMReach limit m) :
    m.storeLimit = limit ∧ VMInv m ∧ (1 ≤ limit → m.terms.length ≤ limit) := by
  induction hr with
  | init => exact ⟨rfl, ⟨by simp, by simp⟩, fun _ => by simp⟩
  | step hr hs ih =>
    rename_i mPrev _
    obtain ⟨hsl, hinv, hbound⟩ := ih
    cases hs with
    | loadStep data =>
      obtain ⟨hinv', hsl', hb'⟩ := load_inv mPrev data hinv
      rw [hsl] at hb' hsl'
      exact ⟨hsl', hinv', fun hpos => hb' hpos (hbound hpos)⟩
    | addStep ts =>
      obtain ⟨hinv', hsl', hb'⟩ := addTerms_inv mPrev ts hinv
      rw [hsl] at hb' hsl'
      exact ⟨hsl', hinv', hb'⟩
    | updateStep text =>
      obtain ⟨hinv', hsl', hb'⟩ := addTerms_inv mPrev (extractTerms text) hinv
      rw [hsl] at hb' hsl'
      exact ⟨hsl', hinv', hb'⟩

/-- Claim C7 (amended): for every positively-configured capacity
(`storeLimit ≥ 1`) and every sequence of `load`, `addTerms` and
`updateFromText` operations, the stored term list never exceeds
`storeLimit` entries and never contains two case-insensitively equal
terms.  (With `storeLimit = 0` the `slice(-0)` truncation is a no-op and
the capacity bound fails, see `vocab_capacity_cex`; the distinctness part
holds for every capacity.) -/
theorem vocab_capacity (limit : Nat) (m : VocabMemory) (hpos : 1 ≤ limit)
    (hr : VMReach limit m) :
    m.terms.length ≤ limit ∧ (m.terms.map lowerJs).Nodup := by
  obtain ⟨_, hinv, hbound⟩ := vmreach_inv limit m hr
  exact ⟨hbound hpos, hinv.1⟩

/-- Witness for `vocab_capacity`: capacity 1, adding `"ab"` and its
case-variant `"AB"` keeps one term and no case-insensitive duplicate. -/
theorem vocab_capacity_witness :
    (addTerms ⟨[], [], 1⟩ [['a', 'b'], ['A', 'B']]).2.terms.length ≤ 1
    ∧ ((addTerms ⟨[], [], 1⟩ [['a', 'b'], ['A', 'B']]).2.terms.map lowerJs).Nodup := by
  exact vocab_capacity 1 _ (by omega)
    (VMReach.step VMReach.init (VMStep.addStep [['a', 'b'], ['A', 'B']]))

/-! ### FootnoteRenumberer: `normalizeFootnotesSafe` (annotate.mjs lines 633-677)

The source collects the matches of `/\[\^(\d+)\](?!:)/g` (inline markers)
and `/\[\^(\d+)\]:/g` (definition heads).  The two match sets are mutually
exclusive (the lookahead excludes a marker match exactly where a
definition head matches) and non-overlapping, so the merged scan is one
left-to-right tokenization, embedded here as `scanFoot`.  The source then
orders the distinct identifiers by first occurrence, assigns fresh decimal
identifiers sequentially from `start`, and rewrites each match in place,
splicing from the last match to the first; splicing non-overlapping
matches in descending position order rewrites each match independently,
i.e. it is the map `mapIds` over the token list, re-rendered by
`render`. -/

inductive FTok where
  | lit : Char → FTok
  | mark : List Char → FTok
  | defh : List Char → FTok
deriving DecidableEq, Repr

def renderTok : FTok → List Char
  | .lit c => [c]
  | .mark ds => '[' :: '^' :: ds ++ [']']
  | .defh ds => '[' :: '^' :: ds ++ [']', ':']

def render (ts : List FTok) : List Char := (ts.map renderTok).flatten

/-- Match of `[^digits]:` (definition head) or `[^digits]` not followed by
`:` (inline marker) at the head of `cs`. -/
def matchFoot (cs : List Char) : Option (FTok × List Char) :=
  match cs with
  | '[' :: '^' :: rest =>
    let ds := rest.takeWhile isDigitJs
    if ds = [] then none
    else
      match rest.dropWhile isDigitJs with
      | ']' :: rtail =>
        if rtail.head? = some ':' then some (.defh ds, rtail.tail)
        else some (.mark ds, rtail)
      | _ => none
  | _ => none

def scanFootF (fuel : Nat) (cs : List Char) : List FTok :=
  match fuel with
  | 0 => []
  | fuel + 1 =>
    match cs with
    | [] => []
    | c :: rest =>
      match matchFoot (c :: rest) with
      | some (tok, r2) => tok :: scanFootF fuel r2
      | none => .lit c :: scanFootF fuel rest

def scanFoot (cs : List Char) : List FTok := scanFootF (cs.length + 1) cs

/-- A well-formed footnote identifier: a nonempty digit string. -/
def GoodId (ds : List Char) : Prop := ds ≠ [] ∧ ∀ c ∈ ds, isDigitJs c = true

theorem matchFoot_some {cs : List Char} {tok : FTok} {r2 : List Char}
    (h : matchFoot cs = some (tok, r2)) :
    renderTok tok ++ r2 = cs
    ∧ (∃ ds, (tok = .mark ds ∨ tok = .defh ds) ∧ GoodId ds)
    ∧ (∀ ds, tok = .mark ds → r2.head? ≠ some ':') := by
  unfold matchFoot at h
  split at h
  rotate_left
  · simp at h
  rename_i rest
  simp only at h
  by_cases hds : rest.takeWhile isDigitJs = []
  · rw [if_pos hds] at h; simp at h
  · rw [if_neg hds] at h
    have hsplit : rest.takeWhile isDigitJs ++ rest.dropWhile isDigitJs = rest :=
      @List.takeWhile_append_dropWhile _ isDigitJs rest
    have hdig : ∀ c ∈ rest.takeWhile isDigitJs, isDigitJs c = true :=
      fun c hc => List.mem_takeWhile_imp hc
    split at h
    rotate_left
    · simp at h
    rename_i rtail hdrop
    by_cases hcolon : rtail.head? = some ':'
    · rw [if_pos hcolon] at h
      simp only [Option.some.injEq, Prod.mk.injEq] at h
      obtain ⟨rfl, rfl⟩ := h
      obtain ⟨rt2, rfl⟩ : ∃ t, rtail = ':' :: t := by
        cases rtail with
        | nil => simp at hcolon
        | cons a t => simp at hcolon; exact ⟨t, by rw [hcolon]⟩
      rw [hdrop] at hsplit
      refine ⟨?_, ⟨_, Or.inr rfl, hds, hdig⟩, by intro ds hh; simp at hh⟩
      show '[' :: '^' :: (rest.takeWhile isDigitJs ++ [']', ':']) ++ rt2 = '[' :: '^' :: rest
      conv_rhs => rw [← hsplit]
      simp
    · rw [if_neg hcolon] at h
      simp only [Option.some.injEq, Prod.mk.injEq] at h
      obtain ⟨rfl, rfl⟩ := h
      rw [hdrop] at hsplit
      refine ⟨?_, ⟨_, Or.inl rfl, hds, hdig⟩, by intro ds hh hc; exact hcolon hc⟩
      show '[' :: '^' :: (rest.takeWhile isDigitJs ++ [']']) ++ rtail = '[' :: '^' :: rest
      conv_rhs => rw [← hsplit]
      simp

/-! Scanner plumbing: fuel sufficiency and one-step unfolding. -/

theorem renderTok_ne_nil (tok : FTok) : renderTok tok ≠ [] := by
  cases tok <;> simp [renderTok]

theorem matchFoot_length {cs : List Char} {tok : FTok} {r2 : List Char}
    (h : matchFoot cs = some (tok, r2)) : r2.length < cs.length := by
  have h1 := (matchFoot_some h).1
  have h2 := renderTok_ne_nil tok
  have : cs.length = (renderTok tok).length + r2.length := by
    rw [← h1, List.length_append]
  cases hr : renderTok tok with
  | nil => exact absurd hr h2
  | cons a t => rw [hr] at this; simp at this; omega

theorem scanFootF_succ (fuel : Nat) (cs : List Char) :
    scanFootF (fuel + 1) cs =
      match cs with
      | [] => []
      | c :: rest =>
        match matchFoot (c :: rest) with
        | some (tok, r2) => tok :: scanFootF fuel r2
        | none => .lit c :: scanFootF fuel rest := rfl

theorem scanFootF_irrel :
    ∀ (f₁ : Nat), ∀ (f₂ : Nat) (cs : List Char), cs.length < f₁ → cs.length < f₂ →
      scanFootF f₁ cs = scanFootF f₂ cs := by
  intro f₁
  induction f₁ with
  | zero => intro f₂ cs h1 _; omega
  | succ f₁ ih =>
    intro f₂ cs h1 h2
    cases f₂ with
    | zero => omega
    | succ f₂ =>
      rw [scanFootF_succ f₁ cs, scanFootF_succ f₂ cs]
      cases cs with
      | nil => rfl
      | cons c rest =>
        simp only [List.length_cons] at h1 h2
        cases hm : matchFoot (c :: rest) with
        | some pr =>
          obtain ⟨tok, r2⟩ := pr
          have hlen := matchFoot_length hm
          simp only [List.length_cons] at hlen
          simp only [hm]
          rw [ih f₂ r2 (by omega) (by omega)]
        | none =>
          simp only [hm]
          rw [ih f₂ rest (by omega) (by omega)]

/-- One-step unfolding of `scanFoot`. -/
theorem scanFoot_eq (cs : List Char) :
    scanFoot cs =
      match cs with
      | [] => []
      | c :: rest =>
        match matchFoot (c :: rest) with
        | some (tok, r2) => tok :: scanFoot r2
        | none => .lit c :: scanFoot rest := by
  show scanFootF (cs.length + 1) cs = _
  rw [scanFootF_succ]
  cases cs with
  | nil => rfl
  | cons c rest =>
    cases hm : matchFoot (c :: rest) with
    | some pr =>
      obtain ⟨tok, r2⟩ := pr
      have hlen := matchFoot_length hm
      simp only [List.length_cons] at hlen
      simp only [hm]
      congr 1
      exact scanFootF_irrel (c :: rest).length (r2.length + 1) r2
        (by simp only [List.length_cons]; omega) (by omega)
    | none =>
      simp only [hm]
      congr 1

theorem scanFoot_nil : scanFoot [] = [] := rfl

theorem scanFoot_some {cs : List Char} {tok : FTok} {r2 : List Char}
    (hm : matchFoot cs = some (tok, r2)) :
    scanFoot cs = tok :: scanFoot r2 := by
  have hne : cs ≠ [] := by
    intro h; subst h; simp [matchFoot] at hm
  obtain ⟨c, rest, rfl⟩ := List.exists_cons_of_ne_nil hne
  rw [scanFoot_eq]
  simp only [hm]

theorem scanFoot_none {c : Char} {rest : List Char}
    (hm : matchFoot (c :: rest) = none) :
    scanFoot (c :: rest) = .lit c :: scanFoot rest := by
  rw [scanFoot_eq]
  simp only [hm]

theorem matchFoot_none_head {c : Char} (h : c ≠ '[') (t : List Char) :
    matchFoot (c :: t) = none := by
  unfold matchFoot
  split
  · rename_i heq
    injection heq with hc _
    exact absurd hc h
  · rfl

theorem matchFoot_none_snd {c2 : Char} (h : c2 ≠ '^') (t : List Char) :
    matchFoot ('[' :: c2 :: t) = none := by
  unfold matchFoot
  split
  · rename_i heq
    injection heq with _ h2
    injection h2 with hc2 _
    exact absurd hc2 h
  · rfl

theorem matchFoot_single (c : Char) : matchFoot [c] = none := by
  unfold matchFoot
  split
  · rename_i heq
    injection heq with _ h2
    simp at h2
  · rfl

/-- Definitional computation of `matchFoot` after the literal prefix. -/
theorem matchFoot_lb (rest : List Char) :
    matchFoot ('[' :: '^' :: rest) =
      (if rest.takeWhile isDigitJs = [] then none
       else
         match rest.dropWhile isDigitJs with
         | ']' :: rtail =>
           if rtail.head? = some ':' then some (.defh (rest.takeWhile isDigitJs), rtail.tail)
           else some (.mark (rest.takeWhile isDigitJs), rtail)
         | _ => none) := rfl

/-- `render (scanFoot cs)` rebuilds `cs` exactly. -/
theorem render_scanFoot (cs : List Char) : render (scanFoot cs) = cs := by
  have main : ∀ (fuel : Nat) (u : List Char), u.length < fuel → render (scanFoot u) = u := by
    intro fuel
    induction fuel with
    | zero => intro u h; omega
    | succ fuel ih =>
      intro u hu
      cases u with
      | nil => rfl
      | cons c rest =>
        simp only [List.length_cons] at hu
        cases hm : matchFoot (c :: rest) with
        | some pr =>
          obtain ⟨tok, r2⟩ := pr
          have hlen := matchFoot_length hm
          simp only [List.length_cons] at hlen
          rw [scanFoot_some hm]
          show (renderTok tok :: (scanFoot r2).map renderTok).flatten = c :: rest
          rw [List.flatten_cons]
          show renderTok tok ++ render (scanFoot r2) = c :: rest
          rw [ih r2 (by omega), (matchFoot_some hm).1]
        | none =>
          rw [scanFoot_none hm]
          show ([c] :: (scanFoot rest).map renderTok).flatten = c :: rest
          rw [List.flatten_cons]
          show [c] ++ render (scanFoot rest) = c :: rest
          rw [ih rest (by omega)]
          rfl
  exact main (cs.length + 1) cs (by omega)

/-! Identifier occurrence lists and identifier mapping. -/

def tokId : FTok → Option (List Char)
  | .lit _ => none
  | .mark ds => some ds
  | .defh ds => some ds

def occIds (ts : List FTok) : List (List Char) := ts.filterMap tokId

def mapTok (f : List Char → List Char) : FTok → FTok
  | .lit c => .lit c
  | .mark ds => .mark (f ds)
  | .defh ds => .defh (f ds)

def mapIds (f : List Char → List Char) (ts : List FTok) : List FTok := ts.map (mapTok f)

theorem occIds_mapIds (f : List Char → List Char) (ts : List FTok) :
    occIds (mapIds f ts) = (occIds ts).map f := by
  induction ts with
  | nil => rfl
  | cons t ts ih =>
    cases t <;> simp [occIds, mapIds, mapTok, tokId, List.filterMap_cons] at ih ⊢ <;>
      exact ih

theorem render_cons (t : FTok) (ts : List FTok) :
    render (t :: ts) = renderTok t ++ render ts := by
  show ((t :: ts).map renderTok).flatten = _
  rw [List.map_cons, List.flatten_cons]
  rfl

theorem render_append (ts us : List FTok) :
    render (ts ++ us) = render ts ++ render us := by
  unfold render
  rw [List.map_append, List.flatten_append]

/-- The first character of the re-rendering of the mapped scan of `u` is
the first character of `u` itself. -/
theorem renderR_head (f : List Char → List Char) (u : List Char) :
    (render (mapIds f (scanFoot u))).head? = u.head? := by
  cases u with
  | nil => rfl
  | cons c rest =>
    cases hm : matchFoot (c :: rest) with
    | some pr =>
      obtain ⟨tok, r2⟩ := pr
      rw [scanFoot_some hm]
      obtain ⟨ds, htok, _⟩ := (matchFoot_some hm).2.1
      have hrend := (matchFoot_some hm).1
      have hc : c = '[' := by
        rcases htok with rfl | rfl <;>
          exact ((by simpa [renderTok] using congrArg List.head? hrend : ('[' : Char) = c)).symm
      subst hc
      show (render (mapTok f tok :: mapIds f (scanFoot r2))).head? = _
      rw [render_cons]
      rcases htok with rfl | rfl <;> simp [mapTok, renderTok]
    | none =>
      rw [scanFoot_none hm]
      show (render (FTok.lit c :: mapIds f (scanFoot rest))).head? = _
      rw [render_cons]
      simp [renderTok]

/-- Scanning past a run of characters that cannot begin a footnote match. -/
theorem scanFoot_append_lits :
    ∀ (l r : List Char), (∀ c ∈ l, c ≠ '[') →
      scanFoot (l ++ r) = l.map .lit ++ scanFoot r := by
  intro l
  induction l with
  | nil => intro r _; rfl
  | cons c l ih =>
    intro r hl
    have hc : c ≠ '[' := hl c (by simp)
    rw [List.cons_append, scanFoot_none (matchFoot_none_head hc _),
      ih r (fun x hx => hl x (by simp [hx]))]
    rfl

theorem render_mapIds_lits (f : List Char → List Char) (l : List Char) (ts : List FTok) :
    render (mapIds f (l.map .lit ++ ts)) = l ++ render (mapIds f ts) := by
  induction l with
  | nil => rfl
  | cons c l ih =>
    show render (mapTok f (.lit c) :: mapIds f (l.map .lit ++ ts)) = _
    rw [render_cons, ih]
    rfl

/-! Helpers for takeWhile/dropWhile over decomposed lists. -/

theorem takeWhile_append_not {p : Char → Bool} :
    ∀ (l : List Char) (c : Char) (r : List Char), (∀ x ∈ l, p x = true) → p c = false →
      (l ++ c :: r).takeWhile p = l ∧ (l ++ c :: r).dropWhile p = c :: r := by
  intro l
  induction l with
  | nil =>
    intro c r _ hc
    simp [List.takeWhile_cons, List.dropWhile_cons, hc]
  | cons x l ih =>
    intro c r hl hc
    have hx : p x = true := hl x (by simp)
    have := ih c r (fun y hy => hl y (by simp [hy])) hc
    simp [List.takeWhile_cons, List.dropWhile_cons, hx, this.1, this.2]

theorem takeWhile_all {p : Char → Bool} :
    ∀ (l : List Char), (∀ x ∈ l, p x = true) →
      l.takeWhile p = l ∧ l.dropWhile p = [] := by
  intro l
  induction l with
  | nil => intro _; simp
  | cons x l ih =>
    intro hl
    have hx : p x = true := hl x (by simp)
    have := ih (fun y hy => hl y (by simp [hy]))
    simp [List.takeWhile_cons, List.dropWhile_cons, hx, this.1, this.2]

theorem dropWhile_head_false {p : Char → Bool} :
    ∀ {l : List Char} {c : Char} {r : List Char}, l.dropWhile p = c :: r → p c = false := by
  intro l
  induction l with
  | nil => intro c r h; simp at h
  | cons x l ih =>
    intro c r h
    rw [List.dropWhile_cons] at h
    by_cases hx : p x = true
    · rw [if_pos hx] at h
      exact ih h
    · rw [if_neg hx] at h
      injection h with h1 _
      subst h1
      simpa using hx

theorem head?_eq_some_cons {l : List Char} {c : Char} (h : l.head? = some c) :
    ∃ t, l = c :: t := by
  cases l with
  | nil => simp at h
  | cons a t =>
    simp at h
    exact ⟨t, by rw [h]⟩

theorem digit_ne_lb {c : Char} (h : isDigitJs c = true) : c ≠ '[' := by
  intro hc
  subst hc
  simp [isDigitJs] at h

/-! The central re-scan lemma: re-tokenizing the re-rendering of the
identifier-mapped token list recovers exactly the mapped token list, as
long as every mapped identifier is again a nonempty digit string. -/

theorem occIds_cons_subset {tok : FTok} {ts : List FTok} :
    ∀ ds ∈ occIds ts, ds ∈ occIds (tok :: ts) := by
  intro ds hds
  cases tok <;> simp [occIds, List.filterMap_cons, tokId] at hds ⊢ <;> simp [hds]

theorem matchFoot_at_marker (ds R : List Char)
    (hne : ds ≠ []) (hdig : ∀ x ∈ ds, isDigitJs x = true) :
    matchFoot ('[' :: '^' :: (ds ++ ']' :: R)) =
      if R.head? = some ':' then some (.defh ds, R.tail) else some (.mark ds, R) := by
  rw [matchFoot_lb]
  have htd := takeWhile_append_not ds ']' R hdig (by decide)
  rw [htd.1, htd.2, if_neg hne]
  rfl

/-- A literal prefix of digits followed by the re-rendering of a scan can
never complete a `[^…]` match that the original text did not have. -/
theorem scanmark_none (f : List Char → List Char) (ds0 r3 : List Char)
    (hdig : ∀ x ∈ ds0, isDigitJs x = true)
    (hhead : ∀ c3, r3.head? = some c3 → isDigitJs c3 = false)
    (hnotrb : ds0 ≠ [] → ∀ c3, r3.head? = some c3 → c3 ≠ ']') :
    matchFoot ('[' :: '^' :: (ds0 ++ render (mapIds f (scanFoot r3)))) = none := by
  have hR3head := renderR_head f r3
  by_cases hds0 : ds0 = []
  · subst hds0
    rw [List.nil_append]
    cases r3 with
    | nil => rfl
    | cons c3 r4 =>
      have hc3 : isDigitJs c3 = false := hhead c3 rfl
      obtain ⟨R4, hR4⟩ := head?_eq_some_cons
        (show (render (mapIds f (scanFoot (c3 :: r4)))).head? = some c3 by
          rw [hR3head]; rfl)
      rw [hR4, matchFoot_lb]
      rw [show (c3 :: R4).takeWhile isDigitJs = [] from by
        simp [List.takeWhile_cons, hc3]]
      rw [if_pos rfl]
  · cases r3 with
    | nil =>
      rw [show render (mapIds f (scanFoot ([] : List Char))) = [] from rfl,
        List.append_nil, matchFoot_lb]
      have hta := takeWhile_all ds0 hdig
      rw [hta.1, hta.2, if_neg hds0]
    | cons c3 r4 =>
      have hc3 : isDigitJs c3 = false := hhead c3 rfl
      have hc3b : c3 ≠ ']' := hnotrb hds0 c3 rfl
      obtain ⟨R4, hR4⟩ := head?_eq_some_cons
        (show (render (mapIds f (scanFoot (c3 :: r4)))).head? = some c3 by
          rw [hR3head]; rfl)
      rw [hR4, matchFoot_lb]
      have htd := takeWhile_append_not ds0 c3 R4 hdig hc3
      rw [htd.1, htd.2, if_neg hds0]
      split
      · rename_i heq
        injection heq with h1 _
        exact absurd h1 hc3b
      · rfl

theorem scanFoot_render_mapIds (f : List Char → List Char) :
    ∀ (u : List Char),
      (∀ ds ∈ occIds (scanFoot u), GoodId (f ds)) →
      scanFoot (render (mapIds f (scanFoot u))) = mapIds f (scanFoot u) := by
  have main : ∀ (fuel : Nat) (u : List Char), u.length < fuel →
      (∀ ds ∈ occIds (scanFoot u), GoodId (f ds)) →
      scanFoot (render (mapIds f (scanFoot u))) = mapIds f (scanFoot u) := by
    intro fuel
    induction fuel with
    | zero => intro u h; omega
    | succ fuel ih =>
      intro u hu hgood
      cases u with
      | nil => rfl
      | cons c rest =>
        simp only [List.length_cons] at hu
        cases hm : matchFoot (c :: rest) with
        | some pr =>
          obtain ⟨tok, r2⟩ := pr
          have hlen := matchFoot_length hm
          simp only [List.length_cons] at hlen
          rw [scanFoot_some hm] at hgood ⊢
          have hgood2 : ∀ ds ∈ occIds (scanFoot r2), GoodId (f ds) :=
            fun ds hds => hgood ds (occIds_cons_subset ds hds)
          have hIH := ih r2 (by omega) hgood2
          obtain ⟨ds, htok, hds_good⟩ := (matchFoot_some hm).2.1
          have hmem : ds ∈ occIds (tok :: scanFoot r2) := by
            rcases htok with rfl | rfl <;> simp [occIds, List.filterMap_cons, tokId]
          have hfds : GoodId (f ds) := hgood ds hmem
          have hRhead := renderR_head f r2
          rcases htok with rfl | rfl
          · -- inline marker
            have hr2h : r2.head? ≠ some ':' := (matchFoot_some hm).2.2 ds rfl
            have hshape : render (mapIds f (FTok.mark ds :: scanFoot r2))
                = '[' :: '^' :: (f ds ++ ']' :: render (mapIds f (scanFoot r2))) := by
              show render (mapTok f (FTok.mark ds) :: mapIds f (scanFoot r2)) = _
              rw [render_cons]
              simp [mapTok, renderTok]
            rw [hshape]
            have hmf : matchFoot
                ('[' :: '^' :: (f ds ++ ']' :: render (mapIds f (scanFoot r2))))
                = some (.mark (f ds), render (mapIds f (scanFoot r2))) := by
              rw [matchFoot_at_marker (f ds) _ hfds.1 hfds.2]
              rw [if_neg (by rw [hRhead]; exact hr2h)]
            rw [scanFoot_some hmf, hIH]
            rfl
          · -- definition head
            have hshape : render (mapIds f (FTok.defh ds :: scanFoot r2))
                = '[' :: '^' :: (f ds ++ ']' :: ':' :: render (mapIds f (scanFoot r2))) := by
              show render (mapTok f (FTok.defh ds) :: mapIds f (scanFoot r2)) = _
              rw [render_cons]
              simp [mapTok, renderTok]
            rw [hshape]
            have hmf : matchFoot
                ('[' :: '^' :: (f ds ++ ']' :: ':' :: render (mapIds f (scanFoot r2))))
                = some (.defh (f ds), render (mapIds f (scanFoot r2))) := by
              rw [matchFoot_at_marker (f ds) _ hfds.1 hfds.2]
              rw [if_pos (by simp)]
              rfl
            rw [scanFoot_some hmf, hIH]
            rfl
        | none =>
          rw [scanFoot_none hm] at hgood ⊢
          have hgood2 : ∀ ds ∈ occIds (scanFoot rest), GoodId (f ds) :=
            fun ds hds => hgood ds (occIds_cons_subset ds hds)
          have hIH := ih rest (by omega) hgood2
          have hshape : render (mapIds f (FTok.lit c :: scanFoot rest))
              = c :: render (mapIds f (scanFoot rest)) := by
            show render (mapTok f (FTok.lit c) :: mapIds f (scanFoot rest)) = _
            rw [render_cons]
            rfl
          rw [hshape]
          have hnone : matchFoot (c :: render (mapIds f (scanFoot rest))) = none := by
            by_cases hc : c = '['
            · subst hc
              cases rest with
              | nil => exact matchFoot_single '['
              | cons r0 rest2 =>
                have hRhead := renderR_head f (r0 :: rest2)
                by_cases hr0 : r0 = '^'
                · subst hr0
                  have hm0 : matchFoot ('^' :: rest2) = none :=
                    matchFoot_none_head (by decide) _
                  have hsplit : rest2.takeWhile isDigitJs ++ rest2.dropWhile isDigitJs
                      = rest2 := @List.takeWhile_append_dropWhile _ isDigitJs rest2
                  have hdig : ∀ x ∈ rest2.takeWhile isDigitJs, isDigitJs x = true :=
                    fun x hx => List.mem_takeWhile_imp hx
                  have hds0lb : ∀ x ∈ rest2.takeWhile isDigitJs, x ≠ '[' :=
                    fun x hx => digit_ne_lb (hdig x hx)
                  have hscan2 : scanFoot rest2
                      = (rest2.takeWhile isDigitJs).map .lit
                        ++ scanFoot (rest2.dropWhile isDigitJs) := by
                    conv_lhs => rw [← hsplit]
                    exact scanFoot_append_lits _ _ hds0lb
                  have hR2 : render (mapIds f (scanFoot ('^' :: rest2)))
                      = '^' :: (rest2.takeWhile isDigitJs
                          ++ render (mapIds f (scanFoot (rest2.dropWhile isDigitJs)))) := by
                    rw [scanFoot_none hm0]
                    show render (mapTok f (FTok.lit '^') :: mapIds f (scanFoot rest2)) = _
                    rw [render_cons, hscan2, render_mapIds_lits]
                    rfl
                  rw [hR2]
                  refine scanmark_none f _ _ hdig ?_ ?_
                  · intro c3 hc3
                    obtain ⟨r4, hr4⟩ := head?_eq_some_cons hc3
                    exact dropWhile_head_false hr4
                  · intro hds0 c3 hc3 hc3b
                    subst hc3b
                    obtain ⟨r4, hr4⟩ := head?_eq_some_cons hc3
                    have hrw : ('[' :: '^' :: rest2 : List Char)
                        = '[' :: '^' :: (rest2.takeWhile isDigitJs ++ ']' :: r4) := by
                      conv_lhs => rw [← hsplit]
                      rw [hr4]
                    rw [hrw, matchFoot_at_marker _ r4 hds0 hdig] at hm
                    split at hm <;> simp at hm
                · obtain ⟨R', hR'⟩ := head?_eq_some_cons
                    (l := render (mapIds f (scanFoot (r0 :: rest2))))
                    (by rw [hRhead]; rfl)
                  rw [hR']
                  exact matchFoot_none_snd hr0 _
            · exact matchFoot_none_head hc _
          rw [scanFoot_none hnone, hIH]
          rfl
  intro u hgood
  exact main (u.length + 1) u (by omega) hgood

/-! First-occurrence ordering of identifiers, fresh decimal identifiers,
and the renumbering function itself. -/

/-- First-occurrence deduplication (the `order` array + `seen` set loop of
`normalizeFootnotesSafe`). -/
def dedupFirst (seen : List (List Char)) : List (List Char) → List (List Char)
  | [] => []
  | x :: xs => if x ∈ seen then dedupFirst seen xs else x :: dedupFirst (x :: seen) xs

theorem dedupFirst_not_seen :
    ∀ (l seen : List (List Char)) (x : List Char), x ∈ dedupFirst seen l → x ∉ seen := by
  intro l
  induction l with
  | nil => intro seen x hx; simp [dedupFirst] at hx
  | cons y ys ih =>
    intro seen x hx
    by_cases hy : y ∈ seen
    · rw [dedupFirst, if_pos hy] at hx
      exact ih seen x hx
    · rw [dedupFirst, if_neg hy] at hx
      rcases List.mem_cons.mp hx with rfl | hx
      · exact hy
      · intro hxs
        exact ih (y :: seen) x hx (by simp [hxs])

theorem dedupFirst_nodup :
    ∀ (l seen : List (List Char)), (dedupFirst seen l).Nodup := by
  intro l
  induction l with
  | nil => intro seen; simp [dedupFirst]
  | cons y ys ih =>
    intro seen
    by_cases hy : y ∈ seen
    · rw [dedupFirst, if_pos hy]
      exact ih seen
    · rw [dedupFirst, if_neg hy]
      rw [List.nodup_cons]
      refine ⟨?_, ih (y :: seen)⟩
      intro hx
      exact dedupFirst_not_seen ys (y :: seen) y hx (by simp)

theorem mem_dedupFirst :
    ∀ (l seen : List (List Char)) (x : List Char),
      x ∈ dedupFirst seen l ↔ (x ∈ l ∧ x ∉ seen) := by
  intro l
  induction l with
  | nil => intro seen x; simp [dedupFirst]
  | cons y ys ih =>
    intro seen x
    by_cases hy : y ∈ seen
    · rw [dedupFirst, if_pos hy, ih]
      constructor
      · rintro ⟨h1, h2⟩; exact ⟨by simp [h1], h2⟩
      · rintro ⟨h1, h2⟩
        rcases List.mem_cons.mp h1 with rfl | h1
        · exact absurd hy h2
        · exact ⟨h1, h2⟩
    · rw [dedupFirst, if_neg hy]
      constructor
      · intro hx
        rcases List.mem_cons.mp hx with rfl | hx
        · exact ⟨by simp, hy⟩
        · have := (ih (y :: seen) x).mp hx
          exact ⟨by simp [this.1], fun hs => this.2 (by simp [hs])⟩
      · rintro ⟨h1, h2⟩
        rcases List.mem_cons.mp h1 with rfl | h1
        · simp
        · by_cases hxy : x = y
          · subst hxy; simp
          · refine List.mem_cons_of_mem _ ((ih (y :: seen) x).mpr ⟨h1, ?_⟩)
            intro hs
            rcases List.mem_cons.mp hs with h | h
            · exact hxy h
            · exact h2 h

theorem dedupFirst_map (f : List Char → List Char) :
    ∀ (l seen : List (List Char)),
      (∀ x ∈ l, ∀ y, (y ∈ l ∨ y ∈ seen) → f x = f y → x = y) →
      dedupFirst (seen.map f) (l.map f) = (dedupFirst seen l).map f := by
  intro l
  induction l with
  | nil => intro seen _; simp [dedupFirst]
  | cons y ys ih =>
    intro seen hinj
    have hmemiff : f y ∈ seen.map f ↔ y ∈ seen := by
      constructor
      · intro h
        obtain ⟨z, hz, hfz⟩ := List.mem_map.mp h
        have : y = z := hinj y (by simp) z (Or.inr hz) hfz.symm
        rw [this]; exact hz
      · intro h; exact List.mem_map.mpr ⟨y, h, rfl⟩
    by_cases hy : y ∈ seen
    · rw [List.map_cons, dedupFirst, if_pos (hmemiff.mpr hy), dedupFirst, if_pos hy]
      exact ih seen (fun x hx z hz => hinj x (by simp [hx]) z
        (by rcases hz with h | h; exact Or.inl (by simp [h]); exact Or.inr h))
    · rw [List.map_cons, dedupFirst, if_neg (fun h => hy (hmemiff.mp h)),
        dedupFirst, if_neg hy, List.map_cons]
      congr 1
      have : (y :: seen).map f = f y :: seen.map f := rfl
      rw [← this]
      exact ih (y :: seen) (fun x hx z hz => hinj x (by simp [hx]) z
        (by rcases hz with h | h
            · exact Or.inl (by simp [h])
            · rcases List.mem_cons.mp h with rfl | h
              · exact Or.inl (by simp)
              · exact Or.inr h))

/-- The decimal digit characters of `String(n)`. -/
def digitChar : Nat → Char
  | 0 => '0' | 1 => '1' | 2 => '2' | 3 => '3' | 4 => '4'
  | 5 => '5' | 6 => '6' | 7 => '7' | 8 => '8' | _ => '9'

def natDigitsGo : Nat → Nat → List Char
  | 0, _ => []
  | fuel + 1, n =>
    if n < 10 then [digitChar n]
    else natDigitsGo fuel (n / 10) ++ [digitChar (n % 10)]

/-- `String(n)` for a natural number: decimal digits, no leading zeros. -/
def natDigits (n : Nat) : List Char := natDigitsGo (n + 1) n

/-- Decimal value of a digit string (used only to prove `natDigits`
injective). -/
def digitsVal (ds : List Char) : Nat := ds.foldl (fun a c => 10 * a + (c.toNat - 48)) 0

theorem digitChar_val {d : Nat} (hd : d < 10) :
    (digitChar d).toNat - 48 = d ∧ isDigitJs (digitChar d) = true := by
  interval_cases d <;> exact ⟨by decide, by decide⟩

theorem digitsVal_append_last (l : List Char) (c : Char) :
    digitsVal (l ++ [c]) = 10 * digitsVal l + (c.toNat - 48) := by
  unfold digitsVal
  rw [List.foldl_append]
  rfl

theorem natDigitsGo_spec :
    ∀ (fuel n : Nat), n < fuel →
      digitsVal (natDigitsGo fuel n) = n ∧ natDigitsGo fuel n ≠ []
      ∧ ∀ c ∈ natDigitsGo fuel n, isDigitJs c = true := by
  intro fuel
  induction fuel with
  | zero => intro n h; omega
  | succ fuel ih =>
    intro n hn
    by_cases h10 : n < 10
    · rw [natDigitsGo, if_pos h10]
      refine ⟨?_, by simp, ?_⟩
      · show digitsVal ([] ++ [digitChar n]) = n
        rw [digitsVal_append_last]
        have := digitChar_val h10
        simp [digitsVal, this.1]
      · intro c hc
        simp at hc
        subst hc
        exact (digitChar_val h10).2
    · rw [natDigitsGo, if_neg h10]
      have hdiv : n / 10 < fuel := by omega
      obtain ⟨hval, hne, hdig⟩ := ih (n / 10) hdiv
      have hmod : n % 10 < 10 := Nat.mod_lt _ (by omega)
      refine ⟨?_, by simp, ?_⟩
      · rw [digitsVal_append_last, hval, (digitChar_val hmod).1]
        omega
      · intro c hc
        rcases List.mem_append.mp hc with hc | hc
        · exact hdig c hc
        · simp at hc
          subst hc
          exact (digitChar_val hmod).2

theorem natDigits_spec (n : Nat) :
    digitsVal (natDigits n) = n ∧ GoodId (natDigits n) := by
  obtain ⟨h1, h2, h3⟩ := natDigitsGo_spec (n + 1) n (by omega)
  exact ⟨h1, h2, h3⟩

theorem natDigits_inj {a b : Nat} (h : natDigits a = natDigits b) : a = b := by
  have ha := (natDigits_spec a).1
  have hb := (natDigits_spec b).1
  rw [← ha, ← hb, h]

/-- Position of the first occurrence of `x` in `l`. -/
def listPos : List (List Char) → List Char → Option Nat
  | [], _ => none
  | y :: ys, x => if y = x then some 0 else (listPos ys x).map (· + 1)

theorem listPos_mem : ∀ {l : List (List Char)} {x : List Char}, x ∈ l →
    ∃ i, listPos l x = some i := by
  intro l
  induction l with
  | nil => intro x hx; simp at hx
  | cons y ys ih =>
    intro x hx
    by_cases hy : y = x
    · exact ⟨0, by simp [listPos, hy]⟩
    · rcases List.mem_cons.mp hx with rfl | hx
      · exact absurd rfl hy
      · obtain ⟨i, hi⟩ := ih hx
        exact ⟨i + 1, by simp [listPos, hy, hi]⟩

theorem listPos_get : ∀ {l : List (List Char)} {x : List Char} {i : Nat},
    listPos l x = some i → l[i]? = some x := by
  intro l
  induction l with
  | nil => intro x i h; simp [listPos] at h
  | cons y ys ih =>
    intro x i h
    by_cases hy : y = x
    · rw [listPos, if_pos hy] at h
      simp at h
      subst h
      simp [hy]
    · rw [listPos, if_neg hy] at h
      cases hpos : listPos ys x with
      | none => rw [hpos] at h; simp at h
      | some j =>
        rw [hpos] at h
        simp at h
        subst h
        simpa using ih hpos

theorem listPos_of_get_nodup : ∀ {l : List (List Char)} {x : List Char} {i : Nat},
    l.Nodup → l[i]? = some x → listPos l x = some i := by
  intro l
  induction l with
  | nil => intro x i _ h; simp at h
  | cons y ys ih =>
    intro x i hnd h
    cases i with
    | zero =>
      simp at h
      subst h
      simp [listPos]
    | succ j =>
      have hx : ys[j]? = some x := by simpa using h
      have hxmem : x ∈ ys := by
        have := List.getElem?_eq_some_iff.mp hx
        obtain ⟨hj, hget⟩ := this
        exact hget ▸ List.getElem_mem hj
      have hy : y ≠ x := by
        intro hyx
        subst hyx
        exact (List.nodup_cons.mp hnd).1 hxmem
      rw [listPos, if_neg hy, ih (List.nodup_cons.mp hnd).2 hx]
      rfl

/-- The identifier mapping `old ↦ String(start + position of old)`.  The
`none` fallback mirrors the dead `if (!newId)` branch of the source (the
mapping is built from every scanned identifier, so an unmapped identifier
never occurs). -/
def mapIdFn (order : List (List Char)) (start : Nat) (old : List Char) : List Char :=
  match listPos order old with
  | some i => natDigits (start + i)
  | none => old

/-- `normalizeFootnotesSafe(text, start)` from annotate.mjs: scan both
footnote regexes, order identifiers by first occurrence, renumber from
`start`, rewrite every occurrence, return the next free identifier. -/
def normalizeFootnotesSafe (text : List Char) (start : Nat) : List Char × Nat :=
  let ts := scanFoot text
  let order := dedupFirst [] (occIds ts)
  (render (mapIds (mapIdFn order start) ts), start + order.length)

theorem mapIds_id_of (g : List Char → List Char) :
    ∀ (ts : List FTok), (∀ ds ∈ occIds ts, g ds = ds) → mapIds g ts = ts := by
  intro ts
  induction ts with
  | nil => intro _; rfl
  | cons t ts ih =>
    intro h
    have htail : mapIds g ts = ts :=
      ih (fun ds hds => h ds (occIds_cons_subset ds hds))
    cases t with
    | lit c =>
      show FTok.lit c :: mapIds g ts = FTok.lit c :: ts
      rw [htail]
    | mark ds =>
      have hds : g ds = ds := h ds (by simp [occIds, List.filterMap_cons, tokId])
      show FTok.mark (g ds) :: mapIds g ts = FTok.mark ds :: ts
      rw [htail, hds]
    | defh ds =>
      have hds : g ds = ds := h ds (by simp [occIds, List.filterMap_cons, tokId])
      show FTok.defh (g ds) :: mapIds g ts = FTok.defh ds :: ts
      rw [htail, hds]

theorem mapIdFn_good (order : List (List Char)) (start : Nat) {ds : List Char}
    (h : ds ∈ order) : GoodId (mapIdFn order start ds) := by
  obtain ⟨i, hi⟩ := listPos_mem h
  unfold mapIdFn
  rw [hi]
  exact (natDigits_spec (start + i)).2

theorem mapIdFn_inj_on (order : List (List Char)) (start : Nat) (hnd : order.Nodup) :
    ∀ x ∈ order, ∀ y ∈ order,
      mapIdFn order start x = mapIdFn order start y → x = y := by
  intro x hx y hy hf
  obtain ⟨i, hi⟩ := listPos_mem hx
  obtain ⟨j, hj⟩ := listPos_mem hy
  unfold mapIdFn at hf
  rw [hi, hj] at hf
  have hij : i = j := by
    have := natDigits_inj hf
    omega
  subst hij
  have h1 := listPos_get hi
  have h2 := listPos_get hj
  rw [h1] at h2
  exact Option.some.inj h2

theorem map_mapIdFn :
    ∀ (l : List (List Char)) (start : Nat), l.Nodup →
      l.map (mapIdFn l start)
        = (List.range l.length).map (fun i => natDigits (start + i)) := by
  intro l
  induction l with
  | nil => intro start _; rfl
  | cons x xs ih =>
    intro start hnd
    have hx0 : mapIdFn (x :: xs) start x = natDigits start := by
      have hp : listPos (x :: xs) x = some 0 := by
        unfold listPos
        rw [if_pos rfl]
      unfold mapIdFn
      rw [hp]
      rfl
    have hxs : ∀ y ∈ xs, mapIdFn (x :: xs) start y = mapIdFn xs (start + 1) y := by
      intro y hy
      have hne : x ≠ y := by
        intro h
        exact (List.nodup_cons.mp hnd).1 (h ▸ hy)
      have hp : listPos (x :: xs) y = (listPos xs y).map (· + 1) := by
        unfold listPos
        rw [if_neg hne]
        cases xs <;> rfl
      unfold mapIdFn
      rw [hp]
      cases hpos : listPos xs y with
      | none => rfl
      | some i =>
        show natDigits (start + (i + 1)) = natDigits (start + 1 + i)
        congr 1
        omega
    have hr : List.map (fun i => natDigits (start + i)) (List.range (x :: xs).length)
        = natDigits start
          :: List.map (fun i => natDigits (start + 1 + i)) (List.range xs.length) := by
      rw [List.length_cons, List.range_succ_eq_map, List.map_cons, List.map_map]
      congr 1
      refine List.map_congr_left ?_
      intro i _
      show natDigits (start + (i + 1)) = natDigits (start + 1 + i)
      congr 1
      omega
    rw [hr, List.map_cons, hx0, List.map_congr_left hxs,
      ih (start + 1) (List.nodup_cons.mp hnd).2]

theorem nfs_parts (text : List Char) (start : Nat) :
    scanFoot (normalizeFootnotesSafe text start).1
        = mapIds (mapIdFn (dedupFirst [] (occIds (scanFoot text))) start) (scanFoot text)
      ∧ dedupFirst [] (occIds (scanFoot (normalizeFootnotesSafe text start).1))
        = (List.range (dedupFirst [] (occIds (scanFoot text))).length).map
            (fun i => natDigits (start + i))
      ∧ (normalizeFootnotesSafe text start).2
        = start + (dedupFirst [] (occIds (scanFoot text))).length := by
  have hnd : (dedupFirst [] (occIds (scanFoot text))).Nodup := dedupFirst_nodup _ _
  have hmemo : ∀ ds ∈ occIds (scanFoot text),
      ds ∈ dedupFirst [] (occIds (scanFoot text)) := by
    intro ds hds
    exact (mem_dedupFirst _ _ _).mpr ⟨hds, by simp⟩
  have hgood : ∀ ds ∈ occIds (scanFoot text),
      GoodId (mapIdFn (dedupFirst [] (occIds (scanFoot text))) start ds) := by
    intro ds hds
    exact mapIdFn_good _ start (hmemo ds hds)
  have h1 : scanFoot (normalizeFootnotesSafe text start).1
      = mapIds (mapIdFn (dedupFirst [] (occIds (scanFoot text))) start) (scanFoot text) :=
    scanFoot_render_mapIds _ text hgood
  refine ⟨h1, ?_, rfl⟩
  rw [h1, occIds_mapIds]
  have hinj : ∀ x ∈ occIds (scanFoot text), ∀ y,
      (y ∈ occIds (scanFoot text) ∨ y ∈ ([] : List (List Char))) →
      mapIdFn (dedupFirst [] (occIds (scanFoot text))) start x
        = mapIdFn (dedupFirst [] (occIds (scanFoot text))) start y → x = y := by
    intro x hx y hy hf
    rcases hy with hy | hy
    · exact mapIdFn_inj_on _ start hnd x (hmemo x hx) y (hmemo y hy) hf
    · simp at hy
  have hmap := dedupFirst_map
    (mapIdFn (dedupFirst [] (occIds (scanFoot text))) start) (occIds (scanFoot text)) [] hinj
  rw [show (([] : List (List Char)).map
      (mapIdFn (dedupFirst [] (occIds (scanFoot text))) start)) = [] from rfl] at hmap
  rw [hmap]
  exact map_mapIdFn _ start hnd

/-- Claim C3: for every text and starting offset, normalizeFootnotesSafe
renumbers the footnotes by first occurrence: (1) the footnote token stream
of the output is exactly the input stream with every identifier occurrence
rewritten through the first-occurrence mapping; (2) the identifiers of the
output, ordered by first occurrence, are exactly start, start+1, … with no
gaps and no duplicates; (3) the returned nextId is start plus the number of
distinct identifiers. -/
theorem normalizeFootnotesSafe_spec (text : List Char) (start : Nat) :
    scanFoot (normalizeFootnotesSafe text start).1
        = mapIds (mapIdFn (dedupFirst [] (occIds (scanFoot text))) start) (scanFoot text)
      ∧ dedupFirst [] (occIds (scanFoot (normalizeFootnotesSafe text start).1))
        = (List.range (dedupFirst [] (occIds (scanFoot text))).length).map
            (fun i => natDigits (start + i))
      ∧ (normalizeFootnotesSafe text start).2
        = start + (dedupFirst [] (occIds (scanFoot text))).length :=
  nfs_parts text start

/-- Claim C4 counterexample: re-running normalizeFootnotesSafe on its own
output with the returned nextId as the new starting offset does NOT leave
the text unchanged: on "x[^1]" the first pass returns ("x[^1]", 2) and the
second pass renumbers from 2, giving ("x[^2]", 3). -/
theorem renumber_idem_cex :
    normalizeFootnotesSafe
        (normalizeFootnotesSafe ("x[^1]").toList 1).1
        (normalizeFootnotesSafe ("x[^1]").toList 1).2
      ≠ normalizeFootnotesSafe ("x[^1]").toList 1 := by
  decide

/-- Claim C4 (amended): renumbering is idempotent when re-run with the SAME
starting offset: for every text and start,
normalizeFootnotesSafe((normalizeFootnotesSafe text start).text, start)
returns the first pass's result unchanged.  (Re-running with the returned
nextId as offset shifts all identifiers, see the counterexample.) -/
theorem renumber_idem (text : List Char) (start : Nat) :
    normalizeFootnotesSafe (normalizeFootnotesSafe text start).1 start
      = normalizeFootnotesSafe text start := by
  obtain ⟨h1, h2, -⟩ := nfs_parts text start
  have hnod2 : (dedupFirst []
      (occIds (scanFoot (normalizeFootnotesSafe text start).1))).Nodup :=
    dedupFirst_nodup _ _
  have hA : mapIds
      (mapIdFn (dedupFirst [] (occIds (scanFoot (normalizeFootnotesSafe text start).1))) start)
      (scanFoot (normalizeFootnotesSafe text start).1)
      = scanFoot (normalizeFootnotesSafe text start).1 := by
    refine mapIds_id_of _ _ ?_
    intro ds hds
    rw [h1, occIds_mapIds] at hds
    obtain ⟨x, hx, rfl⟩ := List.mem_map.mp hds
    have hxo : x ∈ dedupFirst [] (occIds (scanFoot text)) :=
      (mem_dedupFirst _ _ _).mpr ⟨hx, by simp⟩
    obtain ⟨i, hi⟩ := listPos_mem hxo
    have hilt : i < (dedupFirst [] (occIds (scanFoot text))).length :=
      (List.getElem?_eq_some_iff.mp (listPos_get hi)).1
    have hfx : mapIdFn (dedupFirst [] (occIds (scanFoot text))) start x
        = natDigits (start + i) := by
      unfold mapIdFn
      rw [hi]
    have hget2 : (dedupFirst []
        (occIds (scanFoot (normalizeFootnotesSafe text start).1)))[i]?
        = some (natDigits (start + i)) := by
      rw [h2]
      simp [hilt]
    have hpos2 := listPos_of_get_nodup hnod2 hget2
    rw [hfx]
    unfold mapIdFn
    rw [hpos2]
  have hlen : (dedupFirst []
      (occIds (scanFoot (normalizeFootnotesSafe text start).1))).length
      = (dedupFirst [] (occIds (scanFoot text))).length := by
    rw [h2]
    simp
  show (render (mapIds
      (mapIdFn (dedupFirst [] (occIds (scanFoot (normalizeFootnotesSafe text start).1))) start)
      (scanFoot (normalizeFootnotesSafe text start).1)),
      start + (dedupFirst []
        (occIds (scanFoot (normalizeFootnotesSafe text start).1))).length)
    = normalizeFootnotesSafe text start
  rw [hA, hlen, h1]
  rfl

/-! FootnoteMover: `ensureFootnotesAtEnd` (annotate.mjs lines 542-556) and
the definition-block regex `FOOTNOTE_DEF_BLOCK_RE =
/\n\[\^\d+\]:(?:.*(?:\n(?!\[\^\d+\]:).*)*)?/g` shared with the
validator.  A block match starts at a newline followed by a definition
head `[^digits]:`, covers the rest of that line, and extends over the
following lines as long as they do not start another definition head.
The JS dot `.` stops at any line terminator. -/

/-- Characters the JS regex `.` does not match (line terminators). -/
def isDotExcl (c : Char) : Bool :=
  c = '\n' || c = '\r' || c = '\u2028' || c = '\u2029'

/-- The current line: everything up to the first line terminator. -/
def lineOf (cs : List Char) : List Char := cs.takeWhile (fun c => !isDotExcl c)

/-- The remainder from the first line terminator on. -/
def restOf (cs : List Char) : List Char := cs.dropWhile (fun c => !isDotExcl c)

/-- Does the text begin with a definition head `[^digits]:`? -/
def isDefHead (cs : List Char) : Bool :=
  match cs with
  | '[' :: '^' :: rest =>
    match rest.takeWhile isDigitJs, rest.dropWhile isDigitJs with
    | [], _ => false
    | _ :: _, ']' :: ':' :: _ => true
    | _, _ => false
  | _ => false

/-- The continuation lines of a definition block: the loop
`(?:\n(?!\[\^\d+\]:).*)*`, consuming a newline plus a full line while
the line does not start a new definition head.  Returns the consumed part
and the rest. -/
def contLinesF : Nat → List Char → List Char × List Char
  | 0, cs => ([], cs)
  | fuel + 1, cs =>
    match cs with
    | [] => ([], [])
    | c :: r2 =>
      if c = '\n' ∧ isDefHead r2 = false then
        ('\n' :: (lineOf r2 ++ (contLinesF fuel (restOf r2)).1),
          (contLinesF fuel (restOf r2)).2)
      else ([], c :: r2)

/-- One global-replace pass of FOOTNOTE_DEF_BLOCK_RE with replacement
`rep`, also collecting the cleaned (leading newline stripped, trimEnd-ed)
block texts the way the `ensureFootnotesAtEnd` callback pushes them.
`ensureFootnotesAtEnd` uses `rep = "\n"`; `validatePreserveSource` uses
`rep = ""` and discards the collected list. -/
def scanBlocksF (rep : List Char) : Nat → List Char → List Char × List (List Char)
  | 0, cs => (cs, [])
  | fuel + 1, cs =>
    match cs with
    | [] => ([], [])
    | c :: r =>
      if c = '\n' ∧ isDefHead r = true then
        (rep ++ (scanBlocksF rep fuel (contLinesF (r.length + 1) (restOf r)).2).1,
          if trimR (lineOf r ++ (contLinesF (r.length + 1) (restOf r)).1) = []
          then (scanBlocksF rep fuel (contLinesF (r.length + 1) (restOf r)).2).2
          else trimR (lineOf r ++ (contLinesF (r.length + 1) (restOf r)).1)
            :: (scanBlocksF rep fuel (contLinesF (r.length + 1) (restOf r)).2).2)
      else (c :: (scanBlocksF rep fuel r).1, (scanBlocksF rep fuel r).2)

def scanBlocks (rep cs : List Char) : List Char × List (List Char) :=
  scanBlocksF rep (cs.length + 1) cs

/-- `ensureFootnotesAtEnd(text)`: strip every definition block (each
replaced by a single newline), trimEnd the remainder, and append the
cleaned blocks after a blank line, trimEnd-ing the final result. -/
def ensureFootnotesAtEnd (text : List Char) : List Char :=
  let pr := scanBlocks ['\n'] text
  let body := trimR pr.1
  if pr.2 = [] then body
  else trimR (body ++ '\n' :: '\n' :: joinSep ['\n'] pr.2)

/-- Whether a definition-block match starts anywhere in the text. -/
def hasDefOcc : List Char → Bool
  | [] => false
  | c :: r => (decide (c = '\n') && isDefHead r) || hasDefOcc r

theorem takedrop_append_all {p : Char → Bool} :
    ∀ (a z : List Char), (∀ c ∈ a, p c = true) →
      (a ++ z).takeWhile p = a ++ z.takeWhile p
      ∧ (a ++ z).dropWhile p = z.dropWhile p := by
  intro a
  induction a with
  | nil => intro z _; simp
  | cons c a ih =>
    intro z h
    have hc : p c = true := h c (by simp)
    have hz := ih z (fun d hd => h d (by simp [hd]))
    simp [List.takeWhile_cons, List.dropWhile_cons, hc, hz.1, hz.2]

theorem digit_not_excl {c : Char} (h : isDigitJs c = true) : isDotExcl c = false := by
  cases hx : isDotExcl c
  · rfl
  · exfalso
    unfold isDotExcl at hx
    simp only [Bool.or_eq_true, decide_eq_true_eq] at hx
    rcases hx with ((rfl | rfl) | rfl) | rfl <;> exact absurd h (by decide)

theorem isDefHead_head (ds t : List Char) (hne : ds ≠ [])
    (hdig : ∀ c ∈ ds, isDigitJs c = true) :
    isDefHead ('[' :: '^' :: (ds ++ ']' :: ':' :: t)) = true := by
  have h := @takeWhile_append_not isDigitJs ds ']' (':' :: t) hdig (by decide)
  obtain ⟨d, ds', rfl⟩ : ∃ d ds', ds = d :: ds' := by
    cases ds with
    | nil => exact absurd rfl hne
    | cons d ds' => exact ⟨d, ds', rfl⟩
  simp only [isDefHead]
  rw [h.1, h.2]
  rfl

theorem isDefHead_elim {cs : List Char} (h : isDefHead cs = true) :
    ∃ ds t, ds ≠ [] ∧ (∀ c ∈ ds, isDigitJs c = true)
      ∧ cs = '[' :: '^' :: (ds ++ ']' :: ':' :: t) := by
  unfold isDefHead at h
  split at h
  rotate_left
  · simp at h
  rename_i rest
  have hsplit : rest.takeWhile isDigitJs ++ rest.dropWhile isDigitJs = rest :=
    @List.takeWhile_append_dropWhile _ isDigitJs rest
  split at h
  · simp at h
  · rename_i d ds' t' htake hdrop
    refine ⟨d :: ds', t', by simp, ?_, ?_⟩
    · intro c hc
      exact List.mem_takeWhile_imp (htake ▸ hc)
    · rw [htake, hdrop] at hsplit
      rw [← hsplit]
  · simp at h

theorem isDefHead_append {a : List Char} (z : List Char) (h : isDefHead a = true) :
    isDefHead (a ++ z) = true := by
  obtain ⟨ds, t, hne, hdig, rfl⟩ := isDefHead_elim h
  rw [show ('[' :: '^' :: (ds ++ ']' :: ':' :: t)) ++ z
      = '[' :: '^' :: (ds ++ ']' :: ':' :: (t ++ z)) by simp]
  exact isDefHead_head ds (t ++ z) hne hdig

theorem lineRest_append_nl :
    ∀ (a u : List Char), lineOf (a ++ '\n' :: u) = lineOf a
      ∧ restOf (a ++ '\n' :: u) = restOf a ++ '\n' :: u := by
  intro a u
  induction a with
  | nil =>
    constructor
    · show ('\n' :: u).takeWhile _ = [].takeWhile _
      simp [List.takeWhile_cons, isDotExcl]
    · show ('\n' :: u).dropWhile _ = [].dropWhile _ ++ '\n' :: u
      simp [List.dropWhile_cons, isDotExcl]
  | cons c a ih =>
    cases hc : isDotExcl c
    · constructor
      · show ((c :: (a ++ '\n' :: u)).takeWhile _ : List Char) = (c :: a).takeWhile _
        simp [List.takeWhile_cons, hc]
        exact ih.1
      · show ((c :: (a ++ '\n' :: u)).dropWhile _ : List Char)
            = (c :: a).dropWhile _ ++ '\n' :: u
        simp [List.dropWhile_cons, hc]
        exact ih.2
    · constructor
      · show ((c :: (a ++ '\n' :: u)).takeWhile _ : List Char) = (c :: a).takeWhile _
        simp [List.takeWhile_cons, hc]
      · show ((c :: (a ++ '\n' :: u)).dropWhile _ : List Char)
            = (c :: a).dropWhile _ ++ '\n' :: u
        simp [List.dropWhile_cons, hc]

theorem isDefHead_lineOf : ∀ (x : List Char), isDefHead (lineOf x) = isDefHead x := by
  intro x
  cases h : isDefHead x
  · cases h2 : isDefHead (lineOf x)
    · rfl
    · exfalso
      obtain ⟨ds, t, hne, hdig, heq⟩ := isDefHead_elim h2
      have hx : x = lineOf x ++ restOf x :=
        (@List.takeWhile_append_dropWhile _ (fun c => !isDotExcl c) x).symm
      rw [heq, show ('[' :: '^' :: (ds ++ ']' :: ':' :: t)) ++ restOf x
          = '[' :: '^' :: (ds ++ ']' :: ':' :: (t ++ restOf x)) by simp] at hx
      rw [hx, isDefHead_head ds _ hne hdig] at h
      exact Bool.noConfusion h
  · obtain ⟨ds, t, hne, hdig, rfl⟩ := isDefHead_elim h
    have hall : ∀ c ∈ ('[' :: '^' :: ds ++ [']', ':'] : List Char), (!isDotExcl c) = true := by
      intro c hc
      rcases List.mem_cons.mp hc with rfl | hc
      · decide
      rcases List.mem_cons.mp hc with rfl | hc
      · decide
      rcases List.mem_append.mp hc with hc | hc
      · simp [digit_not_excl (hdig c hc)]
      rcases List.mem_cons.mp hc with rfl | hc
      · decide
      rcases List.mem_cons.mp hc with rfl | hc
      · decide
      · simp at hc
    have hsplit : ('[' :: '^' :: (ds ++ ']' :: ':' :: t) : List Char)
        = ('[' :: '^' :: ds ++ [']', ':']) ++ t := by simp
    rw [hsplit]
    show isDefHead ((('[' :: '^' :: ds ++ [']', ':']) ++ t).takeWhile _) = _
    rw [(takedrop_append_all _ t hall).1]
    rw [show ('[' :: '^' :: ds ++ [']', ':'] : List Char) ++ t.takeWhile (fun c => !isDotExcl c)
        = '[' :: '^' :: (ds ++ ']' :: ':' :: t.takeWhile (fun c => !isDotExcl c)) by simp]
    rw [isDefHead_head ds _ hne hdig]

theorem isDefHead_ext_nl (a u : List Char) :
    isDefHead (a ++ '\n' :: u) = isDefHead a := by
  rw [← isDefHead_lineOf (a ++ '\n' :: u), (lineRest_append_nl a u).1, isDefHead_lineOf]

theorem hasDefOcc_append {a : List Char} (z : List Char) (h : hasDefOcc a = true) :
    hasDefOcc (a ++ z) = true := by
  induction a with
  | nil => simp [hasDefOcc] at h
  | cons c a ih =>
    simp only [List.cons_append, hasDefOcc, Bool.or_eq_true, Bool.and_eq_true,
      decide_eq_true_eq] at h ⊢
    rcases h with ⟨rfl, hda⟩ | h
    · exact Or.inl ⟨rfl, isDefHead_append z hda⟩
    · exact Or.inr (ih h)

theorem dropWhile_self {p : Char → Bool} (l : List Char) :
    (l.dropWhile p).dropWhile p = l.dropWhile p := by
  cases h : l.dropWhile p with
  | nil => simp
  | cons c r => simp [List.dropWhile_cons, dropWhile_head_false h]

theorem trimR_apnd (a z : List Char) :
    trimR (a ++ z) = if trimR z = [] then trimR a else a ++ trimR z := by
  show ((a ++ z).reverse.dropWhile isJsWs).reverse = _
  rw [List.reverse_append, List.dropWhile_append]
  by_cases h : z.reverse.dropWhile isJsWs = []
  · rw [if_pos (by rw [h]; rfl),
      if_pos (by show (z.reverse.dropWhile isJsWs).reverse = []; rw [h]; rfl)]
    rfl
  · rw [if_neg (by intro hh; exact h (List.isEmpty_iff.mp hh)),
      if_neg (by show ¬ (z.reverse.dropWhile isJsWs).reverse = []; simp [h]),
      List.reverse_append, List.reverse_reverse]
    rfl

theorem trimR_ws_nil {z : List Char} (h : ∀ c ∈ z, isJsWs c = true) : trimR z = [] := by
  show (z.reverse.dropWhile isJsWs).reverse = []
  rw [(takeWhile_all z.reverse (fun c hc => h c (List.mem_reverse.mp hc))).2]
  rfl

theorem trimR_decomp (x : List Char) :
    ∃ w, x = trimR x ++ w ∧ ∀ c ∈ w, isJsWs c = true := by
  refine ⟨(x.reverse.takeWhile isJsWs).reverse, ?_, ?_⟩
  · show x = (x.reverse.dropWhile isJsWs).reverse ++ (x.reverse.takeWhile isJsWs).reverse
    rw [← List.reverse_append, List.takeWhile_append_dropWhile, List.reverse_reverse]
  · intro c hc
    exact List.mem_takeWhile_imp (List.mem_reverse.mp hc)

theorem trimR_trimR (x : List Char) : trimR (trimR x) = trimR x := by
  show ((x.reverse.dropWhile isJsWs).reverse.reverse.dropWhile isJsWs).reverse = _
  rw [List.reverse_reverse, dropWhile_self]
  rfl

theorem trimR_cons (c : Char) (r : List Char) :
    trimR (c :: r) = if trimR r = [] then trimR [c] else c :: trimR r := by
  have h := trimR_apnd [c] r
  simpa using h

theorem trimR_cons_nl {r : List Char} (h : trimR ('\n' :: r) ≠ []) :
    trimR ('\n' :: r) = '\n' :: trimR r ∧ trimR r ≠ [] := by
  rw [trimR_cons] at h ⊢
  by_cases hr : trimR r = []
  · rw [if_pos hr] at h
    exact absurd (by decide : trimR ['\n'] = []) h
  · rw [if_neg hr]
    exact ⟨rfl, hr⟩

theorem isDefHead_trimR {x : List Char} (h : isDefHead x = true) :
    isDefHead (trimR x) = true := by
  obtain ⟨ds, t, hne, hdig, rfl⟩ := isDefHead_elim h
  rw [show ('[' :: '^' :: (ds ++ ']' :: ':' :: t) : List Char)
      = ('[' :: '^' :: ds ++ [']', ':']) ++ t by simp, trimR_apnd]
  by_cases ht : trimR t = []
  · rw [if_pos ht]
    have hfix : trimR ('[' :: '^' :: ds ++ [']', ':'] : List Char)
        = '[' :: '^' :: ds ++ [']', ':'] := by
      rw [show ('[' :: '^' :: ds ++ [']', ':'] : List Char)
          = ('[' :: '^' :: ds ++ [']']) ++ [':'] by simp, trimR_apnd,
        if_neg (by decide), show trimR [':'] = [':'] from by decide]
    rw [hfix, show ('[' :: '^' :: ds ++ [']', ':'] : List Char)
        = '[' :: '^' :: (ds ++ ']' :: ':' :: ([] : List Char)) by simp]
    exact isDefHead_head ds [] hne hdig
  · rw [if_neg ht, show ('[' :: '^' :: ds ++ [']', ':'] : List Char) ++ trimR t
        = '[' :: '^' :: (ds ++ ']' :: ':' :: trimR t) by simp]
    exact isDefHead_head ds (trimR t) hne hdig

/-- Well-formed continuation-line region of a block: a sequence of
newline-plus-line segments none of which starts a new definition head. -/
inductive TailOk : List Char → Prop where
  | nil : TailOk []
  | cons (r : List Char) : isDefHead r = false → TailOk (restOf r) → TailOk ('\n' :: r)

theorem restOf_all_line {l : List Char} (h : ∀ c ∈ l, isDotExcl c = false) :
    restOf l = [] :=
  (takeWhile_all l (fun c hc => by simp [h c hc])).2

theorem lineRest_append_excl {l : List Char} (z : List Char)
    (h : ∀ c ∈ l, isDotExcl c = false)
    (hz : z = [] ∨ ∃ c r, z = c :: r ∧ isDotExcl c = true) :
    lineOf (l ++ z) = l ∧ restOf (l ++ z) = z := by
  rcases hz with rfl | ⟨c, r, rfl, hc⟩
  · rw [List.append_nil]
    exact ⟨(takeWhile_all l (fun c hc => by simp [h c hc])).1, restOf_all_line h⟩
  · exact @takeWhile_append_not (fun c => !isDotExcl c) l c r
      (fun x hx => by simp [h x hx]) (by simp [hc])

theorem lineOf_excl_free (x : List Char) : ∀ c ∈ lineOf x, isDotExcl c = false := by
  intro c hc
  have h := List.mem_takeWhile_imp hc
  simpa using h

theorem tailOk_trimR : ∀ (C : List Char), TailOk C → TailOk (trimR C) := by
  have main : ∀ (n : Nat) (C : List Char), C.length ≤ n → TailOk C → TailOk (trimR C) := by
    intro n
    induction n with
    | zero =>
      intro C hlen hC
      have hnil : C = [] := List.length_eq_zero.mp (Nat.le_zero.mp hlen)
      subst hnil
      exact TailOk.nil
    | succ n ih =>
      intro C hlen hC
      cases hC with
      | nil => exact TailOk.nil
      | cons r hdef htail =>
        by_cases h0 : trimR ('\n' :: r) = []
        · rw [h0]
          exact TailOk.nil
        · obtain ⟨hr, hrne⟩ := trimR_cons_nl h0
          rw [hr]
          refine TailOk.cons _ ?_ ?_
          · cases hdh : isDefHead (trimR r)
            · rfl
            · exfalso
              obtain ⟨w, hw, -⟩ := trimR_decomp r
              have hh := isDefHead_append w hdh
              rw [← hw, hdef] at hh
              exact Bool.noConfusion hh
          · have hsplit : lineOf r ++ restOf r = r :=
              @List.takeWhile_append_dropWhile _ (fun c => !isDotExcl c) r
            by_cases hro : trimR (restOf r) = []
            · have heq : trimR r = trimR (lineOf r) := by
                conv_lhs => rw [← hsplit]
                rw [trimR_apnd, if_pos hro]
              have hfree : ∀ c ∈ trimR (lineOf r), isDotExcl c = false := by
                intro c hc
                obtain ⟨w2, hw2, -⟩ := trimR_decomp (lineOf r)
                exact lineOf_excl_free r c (by rw [hw2]; exact List.mem_append_left _ hc)
              rw [heq, restOf_all_line hfree]
              exact TailOk.nil
            · have heq : trimR r = lineOf r ++ trimR (restOf r) := by
                conv_lhs => rw [← hsplit]
                rw [trimR_apnd, if_neg hro]
              have hshape : restOf r = [] ∨ ∃ r2, restOf r = '\n' :: r2 := by
                generalize hq : restOf r = q at htail
                cases htail with
                | nil => exact Or.inl rfl
                | cons r2 h1 h2 => exact Or.inr ⟨r2, rfl⟩
              rcases hshape with hsh | ⟨r2, hsh⟩
              · rw [hsh] at hro
                exact absurd (by decide : trimR ([] : List Char) = []) hro
              · rw [hsh] at hro
                obtain ⟨hr2, -⟩ := trimR_cons_nl hro
                have htr : TailOk (trimR (restOf r)) := by
                  refine ih (restOf r) ?_ htail
                  have h1 : (restOf r).length ≤ r.length :=
                    (List.dropWhile_sublist _).length_le
                  simp only [List.length_cons] at hlen
                  omega
                rw [heq, hsh, hr2]
                rw [(lineRest_append_excl ('\n' :: trimR r2) (lineOf_excl_free r)
                  (Or.inr ⟨'\n', trimR r2, rfl, by decide⟩)).2]
                rw [hsh, hr2] at htr
                exact htr
  intro C hC
  exact main C.length C (le_refl _) hC

theorem contLinesF_nil (fuel : Nat) : contLinesF fuel [] = ([], []) := by
  cases fuel <;> rfl

theorem contLinesF_cons (fuel : Nat) (c : Char) (r2 : List Char) :
    contLinesF (fuel + 1) (c :: r2)
      = if c = '\n' ∧ isDefHead r2 = false then
          ('\n' :: (lineOf r2 ++ (contLinesF fuel (restOf r2)).1),
            (contLinesF fuel (restOf r2)).2)
        else ([], c :: r2) := rfl

theorem contLinesF_spec : ∀ (fuel : Nat) (cs : List Char), cs.length < fuel →
    (contLinesF fuel cs).1 ++ (contLinesF fuel cs).2 = cs
    ∧ ((contLinesF fuel cs).1 = [] ∨ ∃ r, (contLinesF fuel cs).1 = '\n' :: r)
    ∧ TailOk (contLinesF fuel cs).1
    ∧ (contLinesF fuel cs).2.length ≤ cs.length
    ∧ ((cs = [] ∨ ∃ c r, cs = c :: r ∧ isDotExcl c = true) →
        ((contLinesF fuel cs).2 = []
          ∨ ∃ c r, (contLinesF fuel cs).2 = c :: r ∧ isDotExcl c = true)) := by
  intro fuel
  induction fuel with
  | zero =>
    intro cs hlen
    omega
  | succ fuel ih =>
    intro cs hlen
    cases cs with
    | nil =>
      rw [contLinesF_nil]
      exact ⟨rfl, Or.inl rfl, TailOk.nil, by simp, fun _ => Or.inl rfl⟩
    | cons c r2 =>
      rw [contLinesF_cons]
      by_cases hcond : c = '\n' ∧ isDefHead r2 = false
      · rw [if_pos hcond]
        obtain ⟨rfl, hdef'⟩ := hcond
        have hfl : (restOf r2).length < fuel := by
          have h1 : (restOf r2).length ≤ r2.length :=
            (List.dropWhile_sublist _).length_le
          simp only [List.length_cons] at hlen
          omega
        obtain ⟨ih1, ih2, ih3, ih4, ih5⟩ := ih (restOf r2) hfl
        have hrsh : restOf r2 = [] ∨ ∃ c r, restOf r2 = c :: r ∧ isDotExcl c = true := by
          cases hd : restOf r2 with
          | nil => exact Or.inl rfl
          | cons c r =>
            refine Or.inr ⟨c, r, rfl, ?_⟩
            have hcc := dropWhile_head_false hd
            simpa using hcc
        refine ⟨?_, Or.inr ⟨_, rfl⟩, ?_, ?_, ?_⟩
        · show '\n' :: (lineOf r2 ++ (contLinesF fuel (restOf r2)).1)
              ++ (contLinesF fuel (restOf r2)).2 = '\n' :: r2
          rw [List.cons_append, List.append_assoc, ih1,
            show lineOf r2 ++ restOf r2 = r2 from
              @List.takeWhile_append_dropWhile _ (fun c => !isDotExcl c) r2]
        · refine TailOk.cons _ ?_ ?_
          · rcases ih2 with h1 | ⟨r', h1⟩
            · rw [h1, List.append_nil, isDefHead_lineOf]
              exact hdef'
            · rw [h1, isDefHead_ext_nl, isDefHead_lineOf]
              exact hdef'
          · rcases ih2 with h1 | ⟨r', h1⟩
            · rw [h1, List.append_nil, restOf_all_line (lineOf_excl_free r2)]
              exact TailOk.nil
            · rw [h1, (lineRest_append_excl ('\n' :: r') (lineOf_excl_free r2)
                (Or.inr ⟨'\n', r', rfl, by decide⟩)).2, ← h1]
              exact ih3
        · show (contLinesF fuel (restOf r2)).2.length ≤ ('\n' :: r2).length
          have h1 : (restOf r2).length ≤ r2.length :=
            (List.dropWhile_sublist _).length_le
          simp only [List.length_cons]
          omega
        · intro _
          exact ih5 hrsh
      · rw [if_neg hcond]
        exact ⟨rfl, Or.inl rfl, TailOk.nil, le_refl _, fun h => h⟩

theorem contLines_stop : ∀ (t : List Char), TailOk t → ∀ (fuel : Nat) (u : List Char),
    (t ++ '\n' :: u).length < fuel → isDefHead u = true →
    contLinesF fuel (t ++ '\n' :: u) = (t, '\n' :: u) := by
  intro t ht
  induction ht with
  | nil =>
    intro fuel u hlen hdef
    cases fuel with
    | zero => simp at hlen
    | succ fuel =>
      show contLinesF (fuel + 1) ('\n' :: u) = ([], '\n' :: u)
      rw [contLinesF_cons, if_neg (by rw [hdef]; simp)]
  | cons r hdef0 htail ih =>
    intro fuel u hlen hdefu
    cases fuel with
    | zero => simp at hlen
    | succ fuel =>
      show contLinesF (fuel + 1) ('\n' :: (r ++ '\n' :: u)) = ('\n' :: r, '\n' :: u)
      rw [contLinesF_cons,
        if_pos ⟨rfl, by rw [isDefHead_ext_nl]; exact hdef0⟩,
        (lineRest_append_nl r u).1, (lineRest_append_nl r u).2,
        ih fuel u (by
          have h1 : (restOf r).length ≤ r.length :=
            (List.dropWhile_sublist _).length_le
          simp only [List.length_cons, List.length_append] at hlen ⊢
          omega) hdefu]
      show ('\n' :: (lineOf r ++ restOf r), '\n' :: u) = ('\n' :: r, '\n' :: u)
      rw [show lineOf r ++ restOf r = r from
        @List.takeWhile_append_dropWhile _ (fun c => !isDotExcl c) r]

theorem contLines_last : ∀ (t : List Char), TailOk t → ∀ (fuel : Nat),
    t.length < fuel → contLinesF fuel t = (t, []) := by
  intro t ht
  induction ht with
  | nil =>
    intro fuel hlen
    cases fuel with
    | zero => simp at hlen
    | succ fuel => exact contLinesF_nil _
  | cons r hdef0 htail ih =>
    intro fuel hlen
    cases fuel with
    | zero => simp at hlen
    | succ fuel =>
      show contLinesF (fuel + 1) ('\n' :: r) = ('\n' :: r, [])
      rw [contLinesF_cons, if_pos ⟨rfl, hdef0⟩,
        ih fuel (by
          have h1 : (restOf r).length ≤ r.length :=
            (List.dropWhile_sublist _).length_le
          simp only [List.length_cons] at hlen
          omega)]
      show ('\n' :: (lineOf r ++ restOf r), ([] : List Char)) = ('\n' :: r, [])
      rw [show lineOf r ++ restOf r = r from
        @List.takeWhile_append_dropWhile _ (fun c => !isDotExcl c) r]

theorem restOf_shape (x : List Char) :
    restOf x = [] ∨ ∃ c r, restOf x = c :: r ∧ isDotExcl c = true := by
  cases hd : restOf x with
  | nil => exact Or.inl rfl
  | cons c r =>
    refine Or.inr ⟨c, r, rfl, ?_⟩
    have h := dropWhile_head_false hd
    simpa using h

theorem tailOk_restOf_trim (L C : List Char) (hL : ∀ c ∈ L, isDotExcl c = false)
    (hC : TailOk C) (hsh : C = [] ∨ ∃ r, C = '\n' :: r) :
    TailOk (restOf (trimR (L ++ C))) := by
  rw [trimR_apnd]
  by_cases hc : trimR C = []
  · rw [if_pos hc]
    have hfree : ∀ c ∈ trimR L, isDotExcl c = false := by
      intro c hcc
      obtain ⟨w, hw, -⟩ := trimR_decomp L
      exact hL c (by rw [hw]; exact List.mem_append_left _ hcc)
    rw [restOf_all_line hfree]
    exact TailOk.nil
  · rw [if_neg hc]
    rcases hsh with rfl | ⟨r, rfl⟩
    · exact absurd (by decide : trimR ([] : List Char) = []) hc
    · obtain ⟨hr, -⟩ := trimR_cons_nl hc
      rw [hr, (lineRest_append_excl ('\n' :: trimR r) hL
        (Or.inr ⟨'\n', trimR r, rfl, by decide⟩)).2, ← hr]
      exact tailOk_trimR _ hC

theorem scanBlocksF_cons (rep : List Char) (fuel : Nat) (c : Char) (r : List Char) :
    scanBlocksF rep (fuel + 1) (c :: r)
      = if c = '\n' ∧ isDefHead r = true then
          (rep ++ (scanBlocksF rep fuel (contLinesF (r.length + 1) (restOf r)).2).1,
            if trimR (lineOf r ++ (contLinesF (r.length + 1) (restOf r)).1) = []
            then (scanBlocksF rep fuel (contLinesF (r.length + 1) (restOf r)).2).2
            else trimR (lineOf r ++ (contLinesF (r.length + 1) (restOf r)).1)
              :: (scanBlocksF rep fuel (contLinesF (r.length + 1) (restOf r)).2).2)
        else (c :: (scanBlocksF rep fuel r).1, (scanBlocksF rep fuel r).2) := rfl

theorem contLinesF_snd_le (fuel : Nat) (cs : List Char) (h : cs.length < fuel) :
    (contLinesF fuel cs).2.length ≤ cs.length :=
  (contLinesF_spec fuel cs h).2.2.2.1

theorem scanBlocksF_irrel (rep : List Char) : ∀ (f1 f2 : Nat) (cs : List Char),
    cs.length < f1 → cs.length < f2 →
    scanBlocksF rep f1 cs = scanBlocksF rep f2 cs := by
  intro f1
  induction f1 with
  | zero =>
    intro f2 cs h1 h2
    omega
  | succ f1 ih =>
    intro f2 cs h1 h2
    cases f2 with
    | zero => omega
    | succ f2 =>
      cases cs with
      | nil => rfl
      | cons c r =>
        rw [scanBlocksF_cons, scanBlocksF_cons]
        simp only [List.length_cons] at h1 h2
        by_cases hcond : c = '\n' ∧ isDefHead r = true
        · rw [if_pos hcond, if_pos hcond]
          have hrl : (restOf r).length ≤ r.length :=
            (List.dropWhile_sublist _).length_le
          have hc2 : (contLinesF (r.length + 1) (restOf r)).2.length ≤ (restOf r).length :=
            contLinesF_snd_le _ _ (by omega)
          rw [ih f2 _ (by omega) (by omega)]
        · rw [if_neg hcond, if_neg hcond, ih f2 r (by omega) (by omega)]

theorem scanBlocks_cons_pass (rep : List Char) (c : Char) (r : List Char)
    (h : ¬ (c = '\n' ∧ isDefHead r = true)) :
    scanBlocks rep (c :: r) = (c :: (scanBlocks rep r).1, (scanBlocks rep r).2) := by
  show scanBlocksF rep (r.length + 1 + 1) (c :: r) = _
  rw [scanBlocksF_cons, if_neg h]
  rfl

theorem scanBlocks_cons_block (rep : List Char) (r : List Char)
    (h : isDefHead r = true) :
    scanBlocks rep ('\n' :: r)
      = (rep ++ (scanBlocks rep (contLinesF (r.length + 1) (restOf r)).2).1,
          if trimR (lineOf r ++ (contLinesF (r.length + 1) (restOf r)).1) = []
          then (scanBlocks rep (contLinesF (r.length + 1) (restOf r)).2).2
          else trimR (lineOf r ++ (contLinesF (r.length + 1) (restOf r)).1)
            :: (scanBlocks rep (contLinesF (r.length + 1) (restOf r)).2).2) := by
  show scanBlocksF rep (r.length + 1 + 1) ('\n' :: r) = _
  rw [scanBlocksF_cons, if_pos ⟨rfl, h⟩]
  have hrl : (restOf r).length ≤ r.length :=
    (List.dropWhile_sublist _).length_le
  have hc2 : (contLinesF (r.length + 1) (restOf r)).2.length ≤ (restOf r).length :=
    contLinesF_snd_le _ _ (by omega)
  rw [scanBlocksF_irrel rep (r.length + 1)
    ((contLinesF (r.length + 1) (restOf r)).2.length + 1) _ (by omega) (by omega)]
  rfl

theorem scan_no_occ (rep : List Char) : ∀ (cs : List Char), hasDefOcc cs = false →
    scanBlocks rep cs = (cs, []) := by
  intro cs
  induction cs with
  | nil => intro _; rfl
  | cons c r ih =>
    intro h
    have hr : hasDefOcc r = false := by
      cases hh : hasDefOcc r
      · rfl
      · rw [hasDefOcc, hh] at h
        simp at h
    have hcond : ¬ (c = '\n' ∧ isDefHead r = true) := by
      rintro ⟨rfl, hd⟩
      rw [hasDefOcc, hd] at h
      simp at h
    rw [scanBlocks_cons_pass rep c r hcond, ih hr]

theorem scan_pass_pre (rep : List Char) : ∀ (B w : List Char), hasDefOcc B = false →
    scanBlocks rep (B ++ '\n' :: w)
      = (B ++ (scanBlocks rep ('\n' :: w)).1, (scanBlocks rep ('\n' :: w)).2) := by
  intro B
  induction B with
  | nil => intro w _; rfl
  | cons c B' ih =>
    intro w h
    have hr : hasDefOcc B' = false := by
      cases hh : hasDefOcc B'
      · rfl
      · rw [hasDefOcc, hh] at h
        simp at h
    have hcond : ¬ (c = '\n' ∧ isDefHead (B' ++ '\n' :: w) = true) := by
      rintro ⟨rfl, hd⟩
      rw [isDefHead_ext_nl] at hd
      rw [hasDefOcc, hd] at h
      simp at h
    rw [show ((c :: B') ++ '\n' :: w : List Char) = c :: (B' ++ '\n' :: w) from rfl,
      scanBlocks_cons_pass rep c _ hcond, ih w hr]
    rfl

theorem joinSep_defHead : ∀ (b : List Char) (bs : List (List Char)),
    isDefHead b = true → isDefHead (joinSep ['\n'] (b :: bs)) = true := by
  intro b bs hb
  cases bs with
  | nil => exact hb
  | cons b2 bs' =>
    show isDefHead (b ++ ['\n'] ++ joinSep ['\n'] (b2 :: bs')) = true
    rw [show (b ++ ['\n'] ++ joinSep ['\n'] (b2 :: bs') : List Char)
        = b ++ '\n' :: joinSep ['\n'] (b2 :: bs') by simp, isDefHead_ext_nl]
    exact hb

theorem scan_blocks_run (rep : List Char) : ∀ (bs : List (List Char)), bs ≠ [] →
    (∀ b ∈ bs, isDefHead b = true ∧ trimR b = b ∧ TailOk (restOf b)) →
    scanBlocks rep ('\n' :: joinSep ['\n'] bs)
      = ((List.replicate bs.length rep).flatten, bs) := by
  intro bs
  induction bs with
  | nil =>
    intro h _
    exact absurd rfl h
  | cons b bs' ih =>
    intro _ hwf
    obtain ⟨hb, htr, hto⟩ := hwf b (by simp)
    have hbne : b ≠ [] := by
      obtain ⟨ds, t, -, -, rfl⟩ := isDefHead_elim hb
      simp
    have hrl : (restOf b).length ≤ b.length :=
      (List.dropWhile_sublist _).length_le
    cases bs' with
    | nil =>
      rw [show joinSep ['\n'] [b] = b from rfl, scanBlocks_cons_block rep b hb,
        contLines_last (restOf b) hto (b.length + 1) (by omega)]
      rw [show lineOf b ++ restOf b = b from
        @List.takeWhile_append_dropWhile _ (fun c => !isDotExcl c) b, htr,
        if_neg hbne]
      simp
      exact ⟨rfl, rfl⟩
    | cons b2 bs'' =>
      obtain ⟨hb2, -, -⟩ := hwf b2 (by simp)
      have hJ : isDefHead (joinSep ['\n'] (b2 :: bs'')) = true :=
        joinSep_defHead b2 bs'' hb2
      have hjoin : joinSep ['\n'] (b :: b2 :: bs'')
          = b ++ '\n' :: joinSep ['\n'] (b2 :: bs'') := by
        show b ++ ['\n'] ++ joinSep ['\n'] (b2 :: bs'') = _
        simp
      rw [hjoin, scanBlocks_cons_block rep _ (by rw [isDefHead_ext_nl]; exact hb),
        (lineRest_append_nl b (joinSep ['\n'] (b2 :: bs''))).1,
        (lineRest_append_nl b (joinSep ['\n'] (b2 :: bs''))).2,
        contLines_stop (restOf b) hto _ (joinSep ['\n'] (b2 :: bs'')) (by
          simp only [List.length_cons, List.length_append]
          omega) hJ]
      rw [show lineOf b ++ restOf b = b from
        @List.takeWhile_append_dropWhile _ (fun c => !isDotExcl c) b, htr,
        if_neg hbne]
      rw [ih (by simp) (fun x hx => hwf x (by simp [hx]))]
      simp [List.replicate_succ]

theorem scan_inv (rep : List Char) (hrep : rep = [] ∨ rep = ['\n']) :
    ∀ (fuel : Nat) (cs : List Char), cs.length < fuel →
      hasDefOcc (scanBlocksF rep fuel cs).1 = false
      ∧ lineOf (scanBlocksF rep fuel cs).1 = lineOf cs
      ∧ ∀ b ∈ (scanBlocksF rep fuel cs).2,
          isDefHead b = true ∧ trimR b = b ∧ TailOk (restOf b) := by
  intro fuel
  induction fuel with
  | zero =>
    intro cs h
    omega
  | succ fuel ih =>
    intro cs hlen
    cases cs with
    | nil =>
      rw [show scanBlocksF rep (fuel + 1) [] = ([], []) from rfl]
      exact ⟨rfl, rfl, by simp⟩
    | cons c r =>
      rw [scanBlocksF_cons]
      simp only [List.length_cons] at hlen
      by_cases hcond : c = '\n' ∧ isDefHead r = true
      · rw [if_pos hcond]
        obtain ⟨rfl, hdh⟩ := hcond
        have hrl : (restOf r).length ≤ r.length :=
          (List.dropWhile_sublist _).length_le
        obtain ⟨c1, c2, c3, c4, c5⟩ := contLinesF_spec (r.length + 1) (restOf r) (by omega)
        have hc2sh := c5 (restOf_shape r)
        have hlen2 : (contLinesF (r.length + 1) (restOf r)).2.length < fuel := by omega
        obtain ⟨ihA, ihB, ihC⟩ := ih _ hlen2
        have hline2 : lineOf (contLinesF (r.length + 1) (restOf r)).2 = [] := by
          rcases hc2sh with h' | ⟨c', r', h', hex⟩
          · rw [h']
            rfl
          · rw [h']
            show List.takeWhile _ (c' :: r') = []
            simp [List.takeWhile_cons, hex]
        have hpr1 : isDefHead (scanBlocksF rep fuel
            (contLinesF (r.length + 1) (restOf r)).2).1 = false := by
          rw [← isDefHead_lineOf, ihB, hline2]
          rfl
        have hnl : lineOf ('\n' :: r) = [] := by
          show List.takeWhile _ ('\n' :: r) = []
          simp [List.takeWhile_cons, isDotExcl]
        refine ⟨?_, ?_, ?_⟩
        · rcases hrep with rfl | rfl
          · rw [List.nil_append]
            exact ihA
          · rw [List.singleton_append, hasDefOcc, hpr1, ihA]
            rfl
        · rcases hrep with rfl | rfl
          · rw [List.nil_append, ihB, hline2, hnl]
          · rw [List.singleton_append, hnl]
            show List.takeWhile _ ('\n' :: _) = ([] : List Char)
            simp [List.takeWhile_cons, isDotExcl]
        · intro b hb
          by_cases hcl : trimR (lineOf r ++ (contLinesF (r.length + 1) (restOf r)).1) = []
          · rw [if_pos hcl] at hb
            exact ihC b hb
          · rw [if_neg hcl] at hb
            rcases List.mem_cons.mp hb with rfl | hb
            · have hdl : isDefHead (lineOf r
                  ++ (contLinesF (r.length + 1) (restOf r)).1) = true := by
                rcases c2 with h' | ⟨r', h'⟩
                · rw [h', List.append_nil, isDefHead_lineOf]
                  exact hdh
                · rw [h', isDefHead_ext_nl, isDefHead_lineOf]
                  exact hdh
              refine ⟨isDefHead_trimR hdl, trimR_trimR _, ?_⟩
              exact tailOk_restOf_trim _ _ (lineOf_excl_free r) c3 c2
            · exact ihC b hb
      · rw [if_neg hcond]
        have hlr : r.length < fuel := by omega
        obtain ⟨ihA, ihB, ihC⟩ := ih r hlr
        refine ⟨?_, ?_, ihC⟩
        · have h1 : (decide (c = '\n') && isDefHead (scanBlocksF rep fuel r).1) = false := by
            by_cases hc : c = '\n'
            · subst hc
              have heq : isDefHead (scanBlocksF rep fuel r).1 = isDefHead r := by
                rw [← isDefHead_lineOf, ihB, isDefHead_lineOf]
              rw [heq]
              have hdr : isDefHead r = false := by
                cases hd : isDefHead r
                · rfl
                · exact absurd ⟨rfl, hd⟩ hcond
              simp [hdr]
            · simp [hc]
          show hasDefOcc (c :: _) = false
          rw [hasDefOcc, h1, ihA]
          rfl
        · cases hc : isDotExcl c
          · show List.takeWhile _ (c :: _) = List.takeWhile _ (c :: r)
            simp [List.takeWhile_cons, hc]
            exact ihB
          · show List.takeWhile _ (c :: _) = List.takeWhile _ (c :: r)
            simp [List.takeWhile_cons, hc]

theorem trimR_joinSep_blocks : ∀ (bs : List (List Char)), bs ≠ [] →
    (∀ b ∈ bs, trimR b = b ∧ b ≠ []) →
    trimR (joinSep ['\n'] bs) = joinSep ['\n'] bs ∧ joinSep ['\n'] bs ≠ [] := by
  intro bs
  induction bs with
  | nil =>
    intro h _
    exact absurd rfl h
  | cons b bs' ih =>
    intro _ h
    obtain ⟨htr, hne⟩ := h b (by simp)
    cases bs' with
    | nil => exact ⟨htr, hne⟩
    | cons b2 bs'' =>
      obtain ⟨ih1, ih2⟩ := ih (by simp) (fun x hx => h x (by simp [hx]))
      have hjoin : joinSep ['\n'] (b :: b2 :: bs'')
          = b ++ '\n' :: joinSep ['\n'] (b2 :: bs'') := by
        show b ++ ['\n'] ++ joinSep ['\n'] (b2 :: bs'') = _
        simp
      rw [hjoin]
      have hcons : trimR ('\n' :: joinSep ['\n'] (b2 :: bs''))
          = '\n' :: joinSep ['\n'] (b2 :: bs'') := by
        rw [trimR_cons, ih1, if_neg ih2]
      constructor
      · rw [trimR_apnd, hcons, if_neg (by simp)]
      · simp

theorem ensure_of_scan {text w : List Char} {bs : List (List Char)}
    (h : scanBlocks ['\n'] text = (w, bs)) :
    ensureFootnotesAtEnd text
      = if bs = [] then trimR w
        else trimR (trimR w ++ '\n' :: '\n' :: joinSep ['\n'] bs) := by
  show (if (scanBlocks ['\n'] text).2 = []
      then trimR (scanBlocks ['\n'] text).1
      else trimR (trimR (scanBlocks ['\n'] text).1
        ++ '\n' :: '\n' :: joinSep ['\n'] (scanBlocks ['\n'] text).2)) = _
  rw [h]

/-- Claim C10: ensureFootnotesAtEnd is idempotent: applying it to its own
output changes nothing, so the Orchestrator's second defensive application
at combination time never alters an already-sanitized chunk. -/
theorem ensureFootnotesAtEnd_idem (text : List Char) :
    ensureFootnotesAtEnd (ensureFootnotesAtEnd text) = ensureFootnotesAtEnd text := by
  obtain ⟨hA0, hB0, hC0⟩ := scan_inv ['\n'] (Or.inr rfl) (text.length + 1) text (by omega)
  have hA : hasDefOcc (scanBlocks ['\n'] text).1 = false := hA0
  have hC : ∀ b ∈ (scanBlocks ['\n'] text).2,
      isDefHead b = true ∧ trimR b = b ∧ TailOk (restOf b) := hC0
  have hBocc : hasDefOcc (trimR (scanBlocks ['\n'] text).1) = false := by
    cases hx : hasDefOcc (trimR (scanBlocks ['\n'] text).1)
    · rfl
    · exfalso
      obtain ⟨w, hw, -⟩ := trimR_decomp (scanBlocks ['\n'] text).1
      have h2 := hasDefOcc_append w hx
      rw [← hw, hA] at h2
      exact Bool.noConfusion h2
  have hens : ensureFootnotesAtEnd text
      = if (scanBlocks ['\n'] text).2 = [] then trimR (scanBlocks ['\n'] text).1
        else trimR (trimR (scanBlocks ['\n'] text).1
          ++ '\n' :: '\n' :: joinSep ['\n'] (scanBlocks ['\n'] text).2) :=
    ensure_of_scan rfl
  by_cases hbs : (scanBlocks ['\n'] text).2 = []
  · rw [hens, if_pos hbs,
      ensure_of_scan (scan_no_occ ['\n'] _ hBocc), if_pos rfl, trimR_trimR]
  · have hblk : ∀ b ∈ (scanBlocks ['\n'] text).2, trimR b = b ∧ b ≠ [] := by
      intro b hb
      obtain ⟨h1, h2, -⟩ := hC b hb
      refine ⟨h2, ?_⟩
      obtain ⟨ds, t, -, -, rfl⟩ := isDefHead_elim h1
      simp
    obtain ⟨hJtr, hJne⟩ := trimR_joinSep_blocks _ hbs hblk
    have hO : trimR (trimR (scanBlocks ['\n'] text).1
          ++ '\n' :: '\n' :: joinSep ['\n'] (scanBlocks ['\n'] text).2)
        = trimR (scanBlocks ['\n'] text).1
          ++ '\n' :: '\n' :: joinSep ['\n'] (scanBlocks ['\n'] text).2 := by
      have h1 : trimR ('\n' :: joinSep ['\n'] (scanBlocks ['\n'] text).2)
          = '\n' :: joinSep ['\n'] (scanBlocks ['\n'] text).2 := by
        rw [trimR_cons, hJtr, if_neg hJne]
      have h2 : trimR ('\n' :: '\n' :: joinSep ['\n'] (scanBlocks ['\n'] text).2)
          = '\n' :: '\n' :: joinSep ['\n'] (scanBlocks ['\n'] text).2 := by
        rw [trimR_cons, h1, if_neg (by simp)]
      rw [trimR_apnd, h2, if_neg (by simp)]
    have hscanO : scanBlocks ['\n'] (trimR (scanBlocks ['\n'] text).1
          ++ '\n' :: '\n' :: joinSep ['\n'] (scanBlocks ['\n'] text).2)
        = (trimR (scanBlocks ['\n'] text).1
            ++ '\n' :: (List.replicate (scanBlocks ['\n'] text).2.length ['\n']).flatten,
           (scanBlocks ['\n'] text).2) := by
      rw [scan_pass_pre ['\n'] _ ('\n' :: joinSep ['\n'] (scanBlocks ['\n'] text).2) hBocc,
        scanBlocks_cons_pass ['\n'] '\n' _ (by
          rintro ⟨-, hd⟩
          obtain ⟨ds, t, hne, hdig, heq⟩ := isDefHead_elim hd
          simp at heq),
        scan_blocks_run ['\n'] _ hbs hC]
    have hflat : ∀ c ∈ ('\n'
        :: (List.replicate (scanBlocks ['\n'] text).2.length ['\n']).flatten : List Char),
        isJsWs c = true := by
      intro c hc
      rcases List.mem_cons.mp hc with rfl | hc
      · decide
      · obtain ⟨l, hl, hcl⟩ := List.mem_flatten.mp hc
        rw [List.eq_of_mem_replicate hl] at hcl
        rcases List.mem_singleton.mp hcl with rfl
        decide
    have htrB : trimR (trimR (scanBlocks ['\n'] text).1
          ++ '\n' :: (List.replicate (scanBlocks ['\n'] text).2.length ['\n']).flatten)
        = trimR (scanBlocks ['\n'] text).1 := by
      rw [trimR_apnd, if_pos (trimR_ws_nil hflat), trimR_trimR]
    rw [hens, if_neg hbs, hO, ensure_of_scan hscanO, if_neg hbs, htrB, hO]

/-! Validator: `normalizeWhitespace`, `normalizeDashSpacing`,
`validatePreserveSource` (annotate.mjs lines 166-172 and 218-234) and
`validateFootnoteEmojis` (lines 236-248). -/

/-- The collapse pass of `text.replace(/\s+/g, ' ')`: every maximal run of
whitespace becomes a single space.  The flag records whether the scanner is
inside a whitespace run. -/
def collWsGo : Bool → List Char → List Char
  | _, [] => []
  | inWs, c :: r =>
    if isJsWs c then
      if inWs then collWsGo true r else ' ' :: collWsGo true r
    else c :: collWsGo false r

/-- `normalizeWhitespace(text)` = collapse whitespace runs, then trim. -/
def normalizeWhitespace (cs : List Char) : List Char := trimJs (collWsGo false cs)

/-- The dashes `—` (U+2014) and `–` (U+2013) of `normalizeDashSpacing`. -/
def isDash (c : Char) : Bool := c = '—' || c = '–'

/-- `text.replace(/\s*([—–])\s*/g, ' $1 ')`: each dash together with the
whitespace around it becomes space-dash-space.  A whitespace run not
followed by a dash matches nowhere (the character class cannot match a
whitespace character), so it is copied unchanged. -/
def dashNormF : Nat → List Char → List Char
  | 0, cs => cs
  | fuel + 1, cs =>
    match cs with
    | [] => []
    | c :: r =>
      if isDash c then ' ' :: c :: ' ' :: dashNormF fuel (r.dropWhile isJsWs)
      else if isJsWs c then
        match (c :: r).dropWhile isJsWs with
        | d :: r2 =>
          if isDash d then ' ' :: d :: ' ' :: dashNormF fuel (r2.dropWhile isJsWs)
          else (c :: r).takeWhile isJsWs ++ dashNormF fuel (d :: r2)
        | [] => (c :: r).takeWhile isJsWs
      else c :: dashNormF fuel r

def normalizeDashSpacing (cs : List Char) : List Char := dashNormF (cs.length + 1) cs

/-- Match of `FOOTNOTE_REF_RE = /\[\^\d+\]/` (no colon lookahead) at the
head of the text; returns the rest after the match. -/
def matchRef (cs : List Char) : Option (List Char) :=
  match cs with
  | '[' :: '^' :: rest =>
    match rest.takeWhile isDigitJs, rest.dropWhile isDigitJs with
    | [], _ => none
    | _ :: _, ']' :: r2 => some r2
    | _, _ => none
  | _ => none

/-- `body.replace(FOOTNOTE_REF_RE, '')`. -/
def stripRefsF : Nat → List Char → List Char
  | 0, cs => cs
  | fuel + 1, cs =>
    match cs with
    | [] => []
    | c :: r =>
      match matchRef (c :: r) with
      | some r2 => stripRefsF fuel r2
      | none => c :: stripRefsF fuel r

def stripRefs (cs : List Char) : List Char := stripRefsF (cs.length + 1) cs

/-- `annotated.replace(FOOTNOTE_DEF_BLOCK_RE, '')`: the same block scan as
`ensureFootnotesAtEnd` with the empty replacement. -/
def stripDefs (cs : List Char) : List Char := (scanBlocks [] cs).1

/-- `s.split(/\s+/)`: segments between maximal whitespace runs, with the
JS quirks (leading run yields a leading empty segment, trailing run a
trailing one). -/
def splitWsF : Nat → List Char → List (List Char)
  | 0, cs => [cs]
  | fuel + 1, cs =>
    match cs with
    | [] => [[]]
    | c :: r =>
      if isJsWs c then [] :: splitWsF fuel (r.dropWhile isJsWs)
      else (splitWsF fuel r).modifyHead (c :: ·)

def splitWs (cs : List Char) : List (List Char) := splitWsF (cs.length + 1) cs

/-- `firstWords(s, 8)`. -/
def firstWords (cs : List Char) : List Char := joinSep [' '] ((splitWs cs).take 8)

/-- `lastWords(s, 8)` (`slice(-8)` from a list of length L keeps the last
`min 8 L` segments). -/
def lastWords (cs : List Char) : List Char :=
  joinSep [' '] ((splitWs cs).drop ((splitWs cs).length - 8))

/-- `String.prototype.lastIndexOf` for a substring pattern. -/
def lastSubIdxAux (pat : List Char) : List Char → Nat → Option Nat → Option Nat
  | hay, i, best =>
    let best2 := if leadsWith pat hay then some i else best
    match hay with
    | [] => best2
    | _ :: t => lastSubIdxAux pat t (i + 1) best2

def lastSubIdx (hay pat : List Char) : Option Nat := lastSubIdxAux pat hay 0 none

/-- `String.prototype.slice(a, b)` for `0 ≤ a ≤ b`. -/
def sliceJs (l : List Char) (a b : Nat) : List Char := (l.drop a).take (b - a)

/-- `String.prototype.includes`. -/
def listIncl (hay pat : List Char) : Bool := (subIdx hay pat).isSome

/-- `validatePreserveSource(src, annotated)` (annotate.mjs lines 218-234). -/
def validatePreserveSource (src annotated : List Char) : Bool :=
  let srcNorm := normalizeWhitespace (normalizeDashSpacing (trimJs src))
  let bodyNorm := normalizeWhitespace (normalizeDashSpacing (stripRefs (stripDefs annotated)))
  if srcNorm = [] then true
  else if listIncl bodyNorm srcNorm then true
  else
    match subIdx bodyNorm (firstWords srcNorm), lastSubIdx bodyNorm (lastWords srcNorm) with
    | some s, some e =>
      if s < e then listIncl (sliceJs bodyNorm s (e + (lastWords srcNorm).length)) srcNorm
      else false
    | some _, none => false
    | none, _ => false

/-- `validateFootnoteEmojis(text)` (annotate.mjs lines 236-248): every line
matching `FOOTNOTE_DEF_RE` must have content whose trimStart is nonempty and
starts with an allowed emoji.  (The `foundAny` flag of the source is set but
never read.) -/
def validateFootnoteEmojis (text : List Char) : Bool :=
  (splitLines text).all (fun l =>
    match matchDefLine l with
    | some content =>
      decide (trimL content ≠ []) && allowedEmojis.any (fun e => leadsWith e (trimL content))
    | none => true)

theorem leadsWith_self : ∀ (pat post : List Char), leadsWith pat (pat ++ post) = true := by
  intro pat
  induction pat with
  | nil => intro post; rfl
  | cons p ps ih =>
    intro post
    show (decide (p = p) && leadsWith ps (ps ++ post)) = true
    simp [ih post]

theorem leadsWith_iff : ∀ (pat hay : List Char),
    leadsWith pat hay = true ↔ ∃ post, hay = pat ++ post := by
  intro pat
  induction pat with
  | nil =>
    intro hay
    exact ⟨fun _ => ⟨hay, rfl⟩, fun _ => rfl⟩
  | cons p ps ih =>
    intro hay
    cases hay with
    | nil =>
      constructor
      · intro h
        exact absurd h (by simp [leadsWith])
      · rintro ⟨post, hpost⟩
        exact absurd hpost (by simp)
    | cons c cs =>
      constructor
      · intro h
        simp only [leadsWith, Bool.and_eq_true, decide_eq_true_eq] at h
        obtain ⟨rfl, h2⟩ := h
        obtain ⟨post, rfl⟩ := (ih cs).mp h2
        exact ⟨post, rfl⟩
      · rintro ⟨post, hpost⟩
        rw [hpost]
        exact leadsWith_self (p :: ps) post

theorem subIdxAux_isSome : ∀ (hay pat : List Char) (i : Nat),
    (subIdxAux pat hay i).isSome = true ↔ ∃ pre post, hay = pre ++ pat ++ post := by
  intro hay
  induction hay with
  | nil =>
    intro pat i
    show (if leadsWith pat [] then some i else none).isSome = true ↔ _
    by_cases h : leadsWith pat [] = true
    · rw [if_pos h]
      obtain ⟨post, hpost⟩ := (leadsWith_iff pat []).mp h
      constructor
      · intro _
        exact ⟨[], post, by simpa using hpost⟩
      · intro _
        rfl
    · rw [if_neg h]
      constructor
      · intro hh
        simp at hh
      · rintro ⟨pre, post, hsplit⟩
        exfalso
        apply h
        have hpat : pat = [] := by
          have hh := hsplit.symm
          rcases List.append_eq_nil.mp hh with ⟨h1, h2⟩
          exact (List.append_eq_nil.mp h1).2
        rw [hpat]
        rfl
  | cons c t ih =>
    intro pat i
    show (if leadsWith pat (c :: t) then some i else subIdxAux pat t (i + 1)).isSome
        = true ↔ _
    by_cases h : leadsWith pat (c :: t) = true
    · rw [if_pos h]
      obtain ⟨post, hpost⟩ := (leadsWith_iff _ _).mp h
      exact ⟨fun _ => ⟨[], post, by simpa using hpost⟩, fun _ => rfl⟩
    · rw [if_neg h, ih pat (i + 1)]
      constructor
      · rintro ⟨pre, post, rfl⟩
        exact ⟨c :: pre, post, rfl⟩
      · rintro ⟨pre, post, hsplit⟩
        cases pre with
        | nil =>
          exfalso
          apply h
          exact (leadsWith_iff _ _).mpr ⟨post, by simpa using hsplit⟩
        | cons c' pre' =>
          simp only [List.cons_append, List.cons.injEq] at hsplit
          exact ⟨pre', post, hsplit.2⟩

theorem listIncl_iff (hay pat : List Char) :
    listIncl hay pat = true ↔ ∃ pre post, hay = pre ++ pat ++ post :=
  subIdxAux_isSome hay pat 0

theorem sliceJs_infix (l : List Char) (a b : Nat) :
    ∃ pre post, l = pre ++ sliceJs l a b ++ post := by
  refine ⟨l.take a, (l.drop a).drop (b - a), ?_⟩
  have h1 : sliceJs l a b ++ (l.drop a).drop (b - a) = l.drop a :=
    List.take_append_drop _ _
  rw [List.append_assoc, h1, List.take_append_drop]

theorem validate_iff (src annotated : List Char) :
    validatePreserveSource src annotated = true
      ↔ (normalizeWhitespace (normalizeDashSpacing (trimJs src)) = []
          ∨ ∃ pre post,
              normalizeWhitespace (normalizeDashSpacing (stripRefs (stripDefs annotated)))
                = pre ++ normalizeWhitespace (normalizeDashSpacing (trimJs src)) ++ post) := by
  constructor
  · intro h
    by_cases h1 : normalizeWhitespace (normalizeDashSpacing (trimJs src)) = []
    · exact Or.inl h1
    · right
      by_cases h2 : listIncl
          (normalizeWhitespace (normalizeDashSpacing (stripRefs (stripDefs annotated))))
          (normalizeWhitespace (normalizeDashSpacing (trimJs src))) = true
      · exact (listIncl_iff _ _).mp h2
      · have hm : (match
            subIdx (normalizeWhitespace (normalizeDashSpacing (stripRefs (stripDefs annotated))))
              (firstWords (normalizeWhitespace (normalizeDashSpacing (trimJs src)))),
            lastSubIdx (normalizeWhitespace (normalizeDashSpacing (stripRefs (stripDefs annotated))))
              (lastWords (normalizeWhitespace (normalizeDashSpacing (trimJs src)))) with
            | some s, some e =>
              if s < e then
                listIncl (sliceJs
                  (normalizeWhitespace (normalizeDashSpacing (stripRefs (stripDefs annotated))))
                  s (e + (lastWords (normalizeWhitespace (normalizeDashSpacing (trimJs src)))).length))
                  (normalizeWhitespace (normalizeDashSpacing (trimJs src)))
              else false
            | some _, none => false
            | none, _ => false) = true := by
          have hv : validatePreserveSource src annotated
              = (if normalizeWhitespace (normalizeDashSpacing (trimJs src)) = [] then true
                 else if listIncl
                    (normalizeWhitespace (normalizeDashSpacing (stripRefs (stripDefs annotated))))
                    (normalizeWhitespace (normalizeDashSpacing (trimJs src))) then true
                 else match
                    subIdx (normalizeWhitespace (normalizeDashSpacing (stripRefs (stripDefs annotated))))
                      (firstWords (normalizeWhitespace (normalizeDashSpacing (trimJs src)))),
                    lastSubIdx (normalizeWhitespace (normalizeDashSpacing (stripRefs (stripDefs annotated))))
                      (lastWords (normalizeWhitespace (normalizeDashSpacing (trimJs src)))) with
                    | some s, some e =>
                      if s < e then
                        listIncl (sliceJs
                          (normalizeWhitespace (normalizeDashSpacing (stripRefs (stripDefs annotated))))
                          s (e + (lastWords (normalizeWhitespace (normalizeDashSpacing (trimJs src)))).length))
                          (normalizeWhitespace (normalizeDashSpacing (trimJs src)))
                      else false
                    | some _, none => false
                    | none, _ => false) := rfl
          rw [hv, if_neg h1, if_neg h2] at h
          exact h
        cases hs : subIdx (normalizeWhitespace (normalizeDashSpacing (stripRefs (stripDefs annotated))))
            (firstWords (normalizeWhitespace (normalizeDashSpacing (trimJs src)))) with
        | none =>
          rw [hs] at hm
          exact absurd hm (by simp)
        | some st =>
          cases he : lastSubIdx
              (normalizeWhitespace (normalizeDashSpacing (stripRefs (stripDefs annotated))))
              (lastWords (normalizeWhitespace (normalizeDashSpacing (trimJs src)))) with
          | none =>
            rw [hs, he] at hm
            exact absurd hm (by simp)
          | some en =>
            rw [hs, he] at hm
            have hm' : (if st < en then
                listIncl (sliceJs
                  (normalizeWhitespace (normalizeDashSpacing (stripRefs (stripDefs annotated))))
                  st (en + (lastWords (normalizeWhitespace (normalizeDashSpacing (trimJs src)))).length))
                  (normalizeWhitespace (normalizeDashSpacing (trimJs src)))
              else false) = true := hm
            by_cases hlt : st < en
            · rw [if_pos hlt] at hm'
              obtain ⟨p1, s1, hw⟩ := (listIncl_iff _ _).mp hm'
              obtain ⟨p2, s2, hb⟩ := sliceJs_infix
                (normalizeWhitespace (normalizeDashSpacing (stripRefs (stripDefs annotated))))
                st (en + (lastWords (normalizeWhitespace (normalizeDashSpacing (trimJs src)))).length)
              refine ⟨p2 ++ p1, s1 ++ s2, ?_⟩
              rw [hb, hw]
              simp [List.append_assoc]
            · rw [if_neg hlt] at hm'
              exact absurd hm' (by simp)
  · intro h
    rcases h with h1 | h2
    · show (if normalizeWhitespace (normalizeDashSpacing (trimJs src)) = [] then true
        else _) = true
      rw [if_pos h1]
    · by_cases h1 : normalizeWhitespace (normalizeDashSpacing (trimJs src)) = []
      · show (if normalizeWhitespace (normalizeDashSpacing (trimJs src)) = [] then true
          else _) = true
        rw [if_pos h1]
      · show (if normalizeWhitespace (normalizeDashSpacing (trimJs src)) = [] then true
          else if listIncl
            (normalizeWhitespace (normalizeDashSpacing (stripRefs (stripDefs annotated))))
            (normalizeWhitespace (normalizeDashSpacing (trimJs src))) then true
          else _) = true
        rw [if_neg h1, if_pos ((listIncl_iff _ _).mpr h2)]

/-- Claim C9: validatePreserveSource returns true exactly when the
normalized source is empty or occurs as a contiguous substring of the
normalized, marker-and-definition-stripped candidate body; the windowed
first/last-words fallback adds nothing, because the window it tests is
itself a contiguous substring of the normalized body. -/
theorem validatePreserveSource_spec (src annotated : List Char) :
    validatePreserveSource src annotated = true
      ↔ (normalizeWhitespace (normalizeDashSpacing (trimJs src)) = []
          ∨ ∃ pre post,
              normalizeWhitespace (normalizeDashSpacing (stripRefs (stripDefs annotated)))
                = pre ++ normalizeWhitespace (normalizeDashSpacing (trimJs src)) ++ post) :=
  validate_iff src annotated

/-! Non-whitespace character count: the validator's normalization steps
preserve it and the stripping steps can only lower it, which yields the
rejection half of the validator claim. -/

def countNonWs (cs : List Char) : Nat := (cs.filter (fun c => !isJsWs c)).length

theorem cnws_append (a b : List Char) :
    countNonWs (a ++ b) = countNonWs a + countNonWs b := by
  unfold countNonWs
  rw [List.filter_append, List.length_append]

theorem cnws_ws_zero {w : List Char} (h : ∀ c ∈ w, isJsWs c = true) :
    countNonWs w = 0 := by
  unfold countNonWs
  rw [List.filter_eq_nil_iff.mpr (fun c hc => by simp [h c hc])]
  rfl

theorem cnws_cons (c : Char) (r : List Char) :
    countNonWs (c :: r) = (if isJsWs c then 0 else 1) + countNonWs r := by
  unfold countNonWs
  rw [List.filter_cons]
  cases hc : isJsWs c
  · simp [hc]
    omega
  · simp [hc]

theorem cnws_trimR (x : List Char) : countNonWs (trimR x) = countNonWs x := by
  obtain ⟨w, hw, hws⟩ := trimR_decomp x
  conv_rhs => rw [hw]
  rw [cnws_append, cnws_ws_zero hws]
  omega

theorem cnws_trimL (x : List Char) : countNonWs (trimL x) = countNonWs x := by
  have hx : x.takeWhile isJsWs ++ x.dropWhile isJsWs = x :=
    @List.takeWhile_append_dropWhile _ isJsWs x
  conv_rhs => rw [← hx]
  rw [cnws_append, cnws_ws_zero (fun c hc => List.mem_takeWhile_imp hc)]
  show countNonWs (x.dropWhile isJsWs) = 0 + countNonWs (x.dropWhile isJsWs)
  omega

theorem cnws_trimJs (x : List Char) : countNonWs (trimJs x) = countNonWs x := by
  unfold trimJs
  rw [cnws_trimR, cnws_trimL]

theorem cnws_dropWhileWs (x : List Char) :
    countNonWs (x.dropWhile isJsWs) = countNonWs x := cnws_trimL x

theorem cnws_collWs : ∀ (x : List Char) (b : Bool),
    countNonWs (collWsGo b x) = countNonWs x := by
  intro x
  induction x with
  | nil => intro b; rfl
  | cons c r ih =>
    intro b
    show countNonWs (if isJsWs c then
        (if b then collWsGo true r else ' ' :: collWsGo true r)
      else c :: collWsGo false r) = _
    by_cases hc : isJsWs c = true
    · rw [if_pos hc]
      have hrhs : countNonWs (c :: r) = countNonWs r := by
        rw [cnws_cons, hc]
        simp
      cases b
      · show countNonWs (' ' :: collWsGo true r) = _
        rw [cnws_cons, show isJsWs ' ' = true from by decide, hrhs, ih true]
        simp
      · show countNonWs (collWsGo true r) = _
        rw [hrhs, ih true]
    · rw [if_neg hc]
      have hc' : isJsWs c = false := by
        cases h : isJsWs c
        · rfl
        · exact absurd h hc
      rw [cnws_cons, cnws_cons, hc', ih false]

theorem cnws_normWs (x : List Char) :
    countNonWs (normalizeWhitespace x) = countNonWs x := by
  unfold normalizeWhitespace
  rw [cnws_trimJs, cnws_collWs]

theorem dash_not_ws {c : Char} (h : isDash c = true) : isJsWs c = false := by
  unfold isDash at h
  simp only [Bool.or_eq_true, decide_eq_true_eq] at h
  rcases h with rfl | rfl <;> decide

theorem dashNormF_cons (fuel : Nat) (c : Char) (r : List Char) :
    dashNormF (fuel + 1) (c :: r)
      = if isDash c then ' ' :: c :: ' ' :: dashNormF fuel (r.dropWhile isJsWs)
        else if isJsWs c then
          (match (c :: r).dropWhile isJsWs with
           | d :: r2 =>
             if isDash d then ' ' :: d :: ' ' :: dashNormF fuel (r2.dropWhile isJsWs)
             else (c :: r).takeWhile isJsWs ++ dashNormF fuel (d :: r2)
           | [] => (c :: r).takeWhile isJsWs)
        else c :: dashNormF fuel r := rfl

theorem cnws_dashNormF : ∀ (fuel : Nat) (x : List Char),
    countNonWs (dashNormF fuel x) = countNonWs x := by
  intro fuel
  induction fuel with
  | zero => intro x; rfl
  | succ fuel ih =>
    intro x
    cases x with
    | nil => rfl
    | cons c r =>
      rw [dashNormF_cons]
      by_cases hd : isDash c = true
      · rw [if_pos hd, cnws_cons, cnws_cons, cnws_cons, cnws_cons, ih, cnws_dropWhileWs,
          dash_not_ws hd]
        simp [isJsWs]
      · rw [if_neg hd]
        by_cases hw : isJsWs c = true
        · rw [if_pos hw]
          have hsplit : (c :: r).takeWhile isJsWs ++ (c :: r).dropWhile isJsWs = c :: r :=
            @List.takeWhile_append_dropWhile _ isJsWs (c :: r)
          have htws : countNonWs ((c :: r).takeWhile isJsWs) = 0 :=
            cnws_ws_zero (fun y hy => List.mem_takeWhile_imp hy)
          cases hdrop : (c :: r).dropWhile isJsWs with
          | nil =>
            show countNonWs ((c :: r).takeWhile isJsWs) = _
            conv_rhs => rw [← hsplit]
            rw [hdrop, List.append_nil, htws]
          | cons d r2 =>
            by_cases hdd : isDash d = true
            · show countNonWs (if isDash d then _ else _) = _
              rw [if_pos hdd, cnws_cons, cnws_cons, cnws_cons, ih, cnws_dropWhileWs,
                dash_not_ws hdd]
              conv_rhs => rw [← hsplit]
              rw [hdrop, cnws_append, htws, cnws_cons, dash_not_ws hdd]
              simp [isJsWs]
            · show countNonWs (if isDash d then _ else _) = _
              rw [if_neg hdd, cnws_append, htws, ih]
              conv_rhs => rw [← hsplit]
              rw [hdrop, cnws_append, htws]
        · rw [if_neg hw, cnws_cons, cnws_cons, ih]

theorem cnws_dashNorm (x : List Char) :
    countNonWs (normalizeDashSpacing x) = countNonWs x := cnws_dashNormF _ x

theorem matchRef_elim {cs r2 : List Char} (h : matchRef cs = some r2) :
    ∃ ds, GoodId ds ∧ cs = '[' :: '^' :: (ds ++ ']' :: r2) := by
  unfold matchRef at h
  split at h
  rotate_left
  · simp at h
  rename_i rest
  have hsplit : rest.takeWhile isDigitJs ++ rest.dropWhile isDigitJs = rest :=
    @List.takeWhile_append_dropWhile _ isDigitJs rest
  split at h
  · simp at h
  · rename_i d ds' r2' htake hdrop
    simp only [Option.some.injEq] at h
    subst h
    refine ⟨d :: ds', ⟨by simp, ?_⟩, ?_⟩
    · intro c hc
      exact List.mem_takeWhile_imp (htake ▸ hc)
    · rw [htake, hdrop] at hsplit
      rw [← hsplit]
  · simp at h

theorem cnws_stripRefsF : ∀ (fuel : Nat) (cs : List Char),
    countNonWs (stripRefsF fuel cs) ≤ countNonWs cs := by
  intro fuel
  induction fuel with
  | zero => intro cs; exact le_refl _
  | succ fuel ih =>
    intro cs
    cases cs with
    | nil => exact le_refl _
    | cons c r =>
      show countNonWs (match matchRef (c :: r) with
        | some r2 => stripRefsF fuel r2
        | none => c :: stripRefsF fuel r) ≤ _
      cases hm : matchRef (c :: r) with
      | some r2 =>
        obtain ⟨ds, hds, heq⟩ := matchRef_elim hm
        have hle : countNonWs r2 ≤ countNonWs (c :: r) := by
          rw [heq, cnws_cons, cnws_cons, cnws_append, cnws_cons]
          omega
        exact le_trans (ih r2) hle
      | none =>
        rw [cnws_cons, cnws_cons]
        have := ih r
        omega

theorem cnws_stripRefs (cs : List Char) :
    countNonWs (stripRefs cs) ≤ countNonWs cs := cnws_stripRefsF _ cs

theorem cnws_scanDefs : ∀ (fuel : Nat) (cs : List Char),
    countNonWs (scanBlocksF [] fuel cs).1 ≤ countNonWs cs := by
  intro fuel
  induction fuel with
  | zero => intro cs; exact le_refl _
  | succ fuel ih =>
    intro cs
    cases cs with
    | nil => exact le_refl _
    | cons c r =>
      rw [scanBlocksF_cons]
      by_cases hcond : c = '\n' ∧ isDefHead r = true
      · rw [if_pos hcond]
        obtain ⟨rfl, -⟩ := hcond
        have hrl : (restOf r).length ≤ r.length :=
          (List.dropWhile_sublist _).length_le
        obtain ⟨c1, -, -, -, -⟩ := contLinesF_spec (r.length + 1) (restOf r) (by omega)
        have h2 : countNonWs (contLinesF (r.length + 1) (restOf r)).2
            ≤ countNonWs r := by
          have hr : countNonWs (contLinesF (r.length + 1) (restOf r)).1
              + countNonWs (contLinesF (r.length + 1) (restOf r)).2
              = countNonWs (restOf r) := by
            rw [← cnws_append, c1]
          have hrest : countNonWs (restOf r) ≤ countNonWs r := by
            have hsp : r.takeWhile (fun c => !isDotExcl c)
                ++ r.dropWhile (fun c => !isDotExcl c) = r :=
              @List.takeWhile_append_dropWhile _ (fun c => !isDotExcl c) r
            have h2 : countNonWs (r.takeWhile (fun c => !isDotExcl c))
                + countNonWs (r.dropWhile (fun c => !isDotExcl c)) = countNonWs r := by
              rw [← cnws_append, hsp]
            show countNonWs (r.dropWhile (fun c => !isDotExcl c)) ≤ countNonWs r
            omega
          omega
        show countNonWs ([] ++ (scanBlocksF [] fuel (contLinesF (r.length + 1) (restOf r)).2).1) ≤ _
        rw [List.nil_append, cnws_cons]
        have := ih (contLinesF (r.length + 1) (restOf r)).2
        omega
      · rw [if_neg hcond, cnws_cons, cnws_cons]
        have := ih r
        omega

theorem cnws_stripDefs (cs : List Char) :
    countNonWs (stripDefs cs) ≤ countNonWs cs := cnws_scanDefs _ cs

/-- The rejection half of the validator: any candidate with strictly fewer
non-whitespace characters than the source (in particular one with a word
deleted) is rejected by validatePreserveSource. -/
theorem validate_reject_count {src cand : List Char}
    (h : countNonWs cand < countNonWs src) :
    validatePreserveSource src cand = false := by
  cases hv : validatePreserveSource src cand
  · rfl
  · exfalso
    have hsrc : countNonWs (normalizeWhitespace (normalizeDashSpacing (trimJs src)))
        = countNonWs src := by
      rw [cnws_normWs, cnws_dashNorm, cnws_trimJs]
    have hbody : countNonWs (normalizeWhitespace (normalizeDashSpacing
        (stripRefs (stripDefs cand)))) ≤ countNonWs cand := by
      rw [cnws_normWs, cnws_dashNorm]
      exact le_trans (cnws_stripRefs _) (cnws_stripDefs _)
    rcases (validate_iff src cand).mp hv with h1 | ⟨pre, post, h2⟩
    · rw [h1] at hsrc
      have : countNonWs ([] : List Char) = 0 := rfl
      omega
    · have hle : countNonWs (normalizeWhitespace (normalizeDashSpacing (trimJs src)))
          ≤ countNonWs (normalizeWhitespace (normalizeDashSpacing
            (stripRefs (stripDefs cand)))) := by
        rw [h2, cnws_append, cnws_append]
        omega
      omega

/-! The candidate-construction side of the validator claim: a candidate is
built from the source by inserting inline markers between segments and
appending trailing definition lines. -/

/-- An inline marker `[^ds]`. -/
def markerOf (ds : List Char) : List Char := '[' :: '^' :: ds ++ [']']

/-- A definition line `[^ds]:content`. -/
def defLineOf (p : List Char × List Char) : List Char :=
  '[' :: '^' :: p.1 ++ ']' :: ':' :: p.2

/-- The candidate body: segments with a marker after each. -/
def spliceBody : List (List Char × List Char) → List Char → List Char
  | [], fin => fin
  | (seg, ds) :: ps, fin => seg ++ markerOf ds ++ spliceBody ps fin

/-- The source the body was built from: the segments alone. -/
def spliceSrc : List (List Char × List Char) → List Char → List Char
  | [], fin => fin
  | (seg, _) :: ps, fin => seg ++ spliceSrc ps fin

/-- Append the definition lines after a blank line (no-op without
definitions). -/
def withDefs (body : List Char) (defs : List (List Char × List Char)) : List Char :=
  if defs = [] then body
  else body ++ '\n' :: '\n' :: joinSep ['\n'] (defs.map defLineOf)

theorem isDefHead_not_lb {x : List Char} (h : x.head? ≠ some '[') :
    isDefHead x = false := by
  cases hx : isDefHead x
  · rfl
  · exfalso
    obtain ⟨ds, t, -, -, rfl⟩ := isDefHead_elim hx
    exact h rfl

theorem hasDefOcc_no_lb : ∀ {x : List Char}, '[' ∉ x → hasDefOcc x = false := by
  intro x
  induction x with
  | nil => intro _; rfl
  | cons c r ih =>
    intro h
    have h1 : isDefHead r = false := by
      refine isDefHead_not_lb ?_
      cases r with
      | nil => simp
      | cons c2 r2 =>
        intro hc2
        have hc2' : c2 = '[' := by simpa using hc2
        subst hc2'
        exact h (by simp)
    show ((decide (c = '\n') && isDefHead r) || hasDefOcc r) = false
    rw [h1, ih (fun hm => h (List.mem_cons_of_mem _ hm))]
    simp

theorem isDefHead_marker {ds rest : List Char} (hds : GoodId ds)
    (h : rest.head? ≠ some ':') :
    isDefHead (markerOf ds ++ rest) = false := by
  cases hx : isDefHead (markerOf ds ++ rest)
  · rfl
  · exfalso
    obtain ⟨ds', t, hne', hdig', heq⟩ := isDefHead_elim hx
    have hmk : markerOf ds ++ rest = '[' :: '^' :: (ds ++ ']' :: rest) := by
      unfold markerOf
      simp
    rw [hmk] at heq
    have heq2 : ds ++ ']' :: rest = ds' ++ ']' :: ':' :: t := by
      simpa using heq
    have h1 := @takeWhile_append_not isDigitJs ds ']' rest hds.2 (by decide)
    have h2 := @takeWhile_append_not isDigitJs ds' (']') (':' :: t) hdig' (by decide)
    have hdrop : (']' :: rest : List Char) = ']' :: ':' :: t := by
      rw [← h1.2, ← h2.2, heq2]
    simp only [List.cons.injEq] at hdrop
    exact h (by rw [hdrop.2]; rfl)

theorem hasDefOcc_no_nl_append {m : List Char} (x : List Char) (h : '\n' ∉ m) :
    hasDefOcc (m ++ x) = hasDefOcc x := by
  induction m with
  | nil => rfl
  | cons c m' ih =>
    show ((decide (c = '\n') && isDefHead (m' ++ x)) || hasDefOcc (m' ++ x)) = _
    have hc : decide (c = '\n') = false := by
      simp only [decide_eq_false_iff_not]
      intro hcc
      exact h (by simp [hcc])
    rw [ih (fun hm => h (List.mem_cons_of_mem _ hm)), hc]
    simp

theorem no_defhead_lbfree : ∀ (seg x : List Char), '[' ∉ seg →
    hasDefOcc x = false → isDefHead x = false →
    isDefHead (seg ++ x) = false ∧ hasDefOcc (seg ++ x) = false := by
  intro seg
  induction seg with
  | nil => intro x _ hx hh; exact ⟨hh, hx⟩
  | cons c seg' ih =>
    intro x h hx hh
    obtain ⟨ih1, ih2⟩ := ih x (fun hm => h (List.mem_cons_of_mem _ hm)) hx hh
    constructor
    · refine isDefHead_not_lb ?_
      simp only [List.cons_append, List.head?_cons]
      intro hc
      have hc' : c = '[' := by simpa using hc
      subst hc'
      exact h (by simp)
    · show ((decide (c = '\n') && isDefHead (seg' ++ x)) || hasDefOcc (seg' ++ x)) = false
      rw [ih1, ih2]
      simp

theorem spliceBody_head_ne : ∀ (pieces : List (List Char × List Char)) (fin : List Char),
    (∀ p ∈ pieces, p.1.head? ≠ some ':') → fin.head? ≠ some ':' →
    (spliceBody pieces fin).head? ≠ some ':' := by
  intro pieces fin hp hf
  cases pieces with
  | nil => exact hf
  | cons p ps =>
    obtain ⟨seg, ds⟩ := p
    show (seg ++ markerOf ds ++ spliceBody ps fin).head? ≠ some ':'
    cases seg with
    | nil =>
      show (([] : List Char) ++ markerOf ds ++ spliceBody ps fin).head? ≠ some ':'
      unfold markerOf
      intro hc
      simp at hc
    | cons c seg' =>
      have hc := hp (c :: seg', ds) (by simp)
      simpa using hc

theorem spliceBody_no_occ : ∀ (pieces : List (List Char × List Char)) (fin : List Char),
    (∀ p ∈ pieces, '[' ∉ p.1 ∧ GoodId p.2) →
    (∀ p ∈ pieces.tail, p.1.head? ≠ some ':') →
    '[' ∉ fin → (pieces ≠ [] → fin.head? ≠ some ':') →
    isDefHead (spliceBody pieces fin) = false
      ∧ hasDefOcc (spliceBody pieces fin) = false := by
  intro pieces
  induction pieces with
  | nil =>
    intro fin _ _ hfin _
    refine ⟨isDefHead_not_lb ?_, hasDefOcc_no_lb hfin⟩
    show fin.head? ≠ some '['
    cases fin with
    | nil => simp
    | cons c r =>
      intro hc
      have hc' : c = '[' := by simpa using hc
      subst hc'
      exact hfin (by simp)
  | cons p ps ih =>
    intro fin hp hcol hfin hfh
    obtain ⟨seg, ds⟩ := p
    obtain ⟨hseg, hds⟩ := hp (seg, ds) (by simp)
    obtain ⟨ih1, ih2⟩ := ih fin (fun q hq => hp q (by simp [hq]))
      (fun q hq => hcol q (List.mem_of_mem_tail hq))
      hfin (fun _ => hfh (by simp))
    have hrest : (spliceBody ps fin).head? ≠ some ':' :=
      spliceBody_head_ne ps fin (fun q hq => hcol q hq) (hfh (by simp))
    have hm1 : isDefHead (markerOf ds ++ spliceBody ps fin) = false :=
      isDefHead_marker hds hrest
    have hnl : '\n' ∉ markerOf ds := by
      intro hm
      unfold markerOf at hm
      rcases List.mem_cons.mp hm with h1 | hm
      · exact absurd h1 (by decide)
      rcases List.mem_cons.mp hm with h1 | hm
      · exact absurd h1 (by decide)
      rcases List.mem_append.mp hm with hm | hm
      · have := hds.2 _ hm
        exact absurd this (by decide)
      · rcases List.mem_singleton.mp hm with h1
        exact absurd h1 (by decide)
    have hm2 : hasDefOcc (markerOf ds ++ spliceBody ps fin) = false := by
      rw [hasDefOcc_no_nl_append _ hnl]
      exact ih2
    have hfinal := no_defhead_lbfree seg _ hseg hm2 hm1
    constructor
    · show isDefHead (seg ++ markerOf ds ++ spliceBody ps fin) = false
      rw [List.append_assoc]
      exact hfinal.1
    · show hasDefOcc (seg ++ markerOf ds ++ spliceBody ps fin) = false
      rw [List.append_assoc]
      exact hfinal.2

theorem splitLines_ne_nil : ∀ (cs : List Char), splitLines cs ≠ [] := by
  intro cs
  cases cs with
  | nil => simp [splitLines]
  | cons c r =>
    show (if c = '\n' then [] :: splitLines r
      else (splitLines r).modifyHead (c :: ·)) ≠ []
    by_cases hc : c = '\n'
    · rw [if_pos hc]
      simp
    · rw [if_neg hc]
      cases h : splitLines r with
      | nil => exact absurd h (splitLines_ne_nil r)
      | cons l ls => simp [List.modifyHead]

theorem splitLines_append_nl : ∀ (a b : List Char),
    splitLines (a ++ '\n' :: b) = splitLines a ++ splitLines b := by
  intro a b
  induction a with
  | nil =>
    show splitLines ('\n' :: b) = [[]] ++ splitLines b
    show (if ('\n' : Char) = '\n' then [] :: splitLines b
      else (splitLines b).modifyHead ((('\n' : Char)) :: ·)) = [[]] ++ splitLines b
    rw [if_pos rfl]
    rfl
  | cons c a' ih =>
    show (if c = '\n' then [] :: splitLines (a' ++ '\n' :: b)
      else (splitLines (a' ++ '\n' :: b)).modifyHead (c :: ·))
      = (if c = '\n' then [] :: splitLines a'
        else (splitLines a').modifyHead (c :: ·)) ++ splitLines b
    by_cases hc : c = '\n'
    · rw [if_pos hc, if_pos hc, ih]
      rfl
    · rw [if_neg hc, if_neg hc, ih]
      cases h : splitLines a' with
      | nil => exact absurd h (splitLines_ne_nil a')
      | cons l ls => simp [List.modifyHead]

theorem splitLines_head : ∀ (cs : List Char),
    ∃ t, splitLines cs = cs.takeWhile (fun c => !(c = '\n' : Bool)) :: t := by
  intro cs
  induction cs with
  | nil => exact ⟨[], rfl⟩
  | cons c r ih =>
    obtain ⟨t, ht⟩ := ih
    by_cases hc : c = '\n'
    · subst hc
      refine ⟨splitLines r, ?_⟩
      show (if ('\n' : Char) = '\n' then [] :: splitLines r
        else (splitLines r).modifyHead ((('\n' : Char)) :: ·)) = _
      rw [if_pos rfl]
      simp [List.takeWhile_cons]
    · refine ⟨t, ?_⟩
      show (if c = '\n' then [] :: splitLines r
        else (splitLines r).modifyHead (c :: ·)) = _
      rw [if_neg hc, ht]
      simp [List.takeWhile_cons, List.modifyHead, hc]

theorem takeWhile_nest {p q : Char → Bool} (himp : ∀ c, q c = true → p c = true) :
    ∀ (l : List Char), (l.takeWhile p).takeWhile q = l.takeWhile q := by
  intro l
  induction l with
  | nil => rfl
  | cons c r ih =>
    by_cases hq : q c = true
    · have hp : p c = true := himp c hq
      rw [List.takeWhile_cons, if_pos hp, List.takeWhile_cons, if_pos hq,
        List.takeWhile_cons, if_pos hq, ih]
    · have hq' : ¬ (q c = true) := hq
      rw [List.takeWhile_cons]
      by_cases hp : p c = true
      · rw [if_pos hp, List.takeWhile_cons, if_neg hq', List.takeWhile_cons, if_neg hq']
      · rw [if_neg hp, List.takeWhile_cons, if_neg hq']
        rfl

theorem isDefHead_headline (cs : List Char) :
    isDefHead (cs.takeWhile (fun c => !(c = '\n' : Bool))) = isDefHead cs := by
  rw [← isDefHead_lineOf (cs.takeWhile (fun c => !(c = '\n' : Bool))),
    ← isDefHead_lineOf cs]
  congr 1
  show (cs.takeWhile _).takeWhile (fun c => !isDotExcl c) = cs.takeWhile (fun c => !isDotExcl c)
  refine takeWhile_nest ?_ cs
  intro c hc
  simp only [Bool.not_eq_true'] at hc ⊢
  simp only [decide_eq_false_iff_not]
  intro hcn
  rw [hcn] at hc
  simp [isDotExcl] at hc

theorem lines_tail_no_defhead : ∀ (cs : List Char), hasDefOcc cs = false →
    ∀ l ∈ (splitLines cs).tail, isDefHead l = false := by
  intro cs
  induction cs with
  | nil =>
    intro _ l hl
    simp [splitLines] at hl
  | cons c r ih =>
    intro h l hl
    have hr : hasDefOcc r = false := by
      cases hh : hasDefOcc r
      · rfl
      · rw [hasDefOcc, hh] at h
        simp at h
    by_cases hc : c = '\n'
    · subst hc
      have hdr : isDefHead r = false := by
        cases hh : isDefHead r
        · rfl
        · rw [hasDefOcc, hh] at h
          simp at h
      rw [show splitLines ('\n' :: r) = [] :: splitLines r from by
        show (if ('\n' : Char) = '\n' then _ else _) = _
        rw [if_pos rfl]] at hl
      simp only [List.tail_cons] at hl
      obtain ⟨t, ht⟩ := splitLines_head r
      rw [ht] at hl
      rcases List.mem_cons.mp hl with rfl | hl
      · rw [isDefHead_headline]
        exact hdr
      · exact ih hr l (by rw [ht]; simpa using hl)
    · rw [show splitLines (c :: r) = (splitLines r).modifyHead (c :: ·) from by
        show (if c = '\n' then _ else _) = _
        rw [if_neg hc]] at hl
      cases hsp : splitLines r with
      | nil => exact absurd hsp (splitLines_ne_nil r)
      | cons l0 ls =>
        rw [hsp] at hl
        simp only [List.modifyHead, List.tail_cons] at hl
        exact ih hr l (by rw [hsp]; simpa using hl)

theorem matchDefLine_none {l : List Char} (h : isDefHead l = false) :
    matchDefLine l = none := by
  cases hm : matchDefLine l with
  | none => rfl
  | some content =>
    exfalso
    unfold matchDefLine at hm
    split at hm
    rotate_left
    · simp at hm
    rename_i rest
    by_cases hds : rest.takeWhile isDigitJs = []
    · rw [if_pos hds] at hm
      simp at hm
    · rw [if_neg hds] at hm
      split at hm
      rotate_left
      · simp at hm
      rename_i content' hdrop
      have hsplit : rest.takeWhile isDigitJs ++ rest.dropWhile isDigitJs = rest :=
        @List.takeWhile_append_dropWhile _ isDigitJs rest
      rw [hdrop] at hsplit
      have : isDefHead ('[' :: '^' :: rest) = true := by
        rw [← hsplit, show (rest.takeWhile isDigitJs ++ ']' :: ':' :: content' : List Char)
            = rest.takeWhile isDigitJs ++ (']' :: ':' :: content') from rfl]
        exact isDefHead_head _ _ hds (fun c hc => List.mem_takeWhile_imp hc)
      rw [this] at h
      exact Bool.noConfusion h

theorem matchDefLine_defLine (ds content : List Char) (hds : GoodId ds) :
    matchDefLine ('[' :: '^' :: (ds ++ ']' :: ':' :: content)) = some content := by
  have h := @takeWhile_append_not isDigitJs ds ']' (':' :: content) hds.2 (by decide)
  unfold matchDefLine
  simp only
  rw [h.1, h.2, if_neg hds.1]
  rfl

/-- The bad-definition rejection half of validateFootnoteEmojis: a line
matching FOOTNOTE_DEF_RE whose content is blank or does not start with an
allowed emoji makes the check fail. -/
theorem emoji_reject {cand l content : List Char}
    (hl : l ∈ splitLines cand) (hm : matchDefLine l = some content)
    (hbad : trimL content = []
      ∨ ∀ e ∈ allowedEmojis, leadsWith e (trimL content) = false) :
    validateFootnoteEmojis cand = false := by
  cases hv : validateFootnoteEmojis cand
  · rfl
  · exfalso
    have hall := List.all_eq_true.mp hv l hl
    have hall2 : (match matchDefLine l with
      | some content =>
        decide (trimL content ≠ []) && allowedEmojis.any (fun e => leadsWith e (trimL content))
      | none => true) = true := hall
    rw [hm] at hall2
    have hall3 : (decide (trimL content ≠ [])
        && allowedEmojis.any (fun e => leadsWith e (trimL content))) = true := hall2
    simp only [Bool.and_eq_true, decide_eq_true_eq, List.any_eq_true] at hall3
    obtain ⟨hne, e, he, hlw⟩ := hall3
    rcases hbad with h1 | h2
    · exact hne h1
    · rw [h2 e he] at hlw
      exact Bool.noConfusion hlw

theorem matchRef_marker (ds rest : List Char) (hds : GoodId ds) :
    matchRef (markerOf ds ++ rest) = some rest := by
  have h := @takeWhile_append_not isDigitJs ds ']' rest hds.2 (by decide)
  obtain ⟨d, ds', rfl⟩ : ∃ d ds', ds = d :: ds' := by
    cases ds with
    | nil => exact absurd rfl hds.1
    | cons d ds' => exact ⟨d, ds', rfl⟩
  have hmk : markerOf (d :: ds') ++ rest = '[' :: '^' :: ((d :: ds') ++ ']' :: rest) := by
    unfold markerOf
    simp
  rw [hmk]
  unfold matchRef
  simp only
  rw [h.1, h.2]
  rfl

theorem matchRef_none_not_lb {cs : List Char} (h : cs.head? ≠ some '[') :
    matchRef cs = none := by
  cases hm : matchRef cs with
  | none => rfl
  | some r2 =>
    exfalso
    obtain ⟨ds, -, rfl⟩ := matchRef_elim hm
    exact h rfl

theorem matchRef_len {cs r2 : List Char} (h : matchRef cs = some r2) :
    r2.length + 4 ≤ cs.length := by
  obtain ⟨ds, hds, rfl⟩ := matchRef_elim h
  obtain ⟨d, ds', rfl⟩ : ∃ d ds', ds = d :: ds' := by
    cases ds with
    | nil => exact absurd rfl hds.1
    | cons d ds' => exact ⟨d, ds', rfl⟩
  simp [List.length_append]

theorem stripRefsF_irrel : ∀ (f1 f2 : Nat) (cs : List Char),
    cs.length < f1 → cs.length < f2 → stripRefsF f1 cs = stripRefsF f2 cs := by
  intro f1
  induction f1 with
  | zero => intro f2 cs h1 h2; omega
  | succ f1 ih =>
    intro f2 cs h1 h2
    cases f2 with
    | zero => omega
    | succ f2 =>
      cases cs with
      | nil => rfl
      | cons c r =>
        show (match matchRef (c :: r) with
          | some r2 => stripRefsF f1 r2
          | none => c :: stripRefsF f1 r)
          = (match matchRef (c :: r) with
          | some r2 => stripRefsF f2 r2
          | none => c :: stripRefsF f2 r)
        cases hm : matchRef (c :: r) with
        | some r2 =>
          have hl := matchRef_len hm
          simp only [List.length_cons] at h1 h2 hl
          show stripRefsF f1 r2 = stripRefsF f2 r2
          exact ih f2 r2 (by omega) (by omega)
        | none =>
          simp only [List.length_cons] at h1 h2
          show c :: stripRefsF f1 r = c :: stripRefsF f2 r
          rw [ih f2 r (by omega) (by omega)]

theorem stripRefs_cons_none {c : Char} {r : List Char} (h : matchRef (c :: r) = none) :
    stripRefs (c :: r) = c :: stripRefs r := by
  show (match matchRef (c :: r) with
    | some r2 => stripRefsF (r.length + 1) r2
    | none => c :: stripRefsF (r.length + 1) r) = c :: stripRefs r
  rw [h]
  rfl

theorem stripRefs_cons_some {c : Char} {r r2 : List Char}
    (h : matchRef (c :: r) = some r2) :
    stripRefs (c :: r) = stripRefs r2 := by
  show (match matchRef (c :: r) with
    | some r2 => stripRefsF (r.length + 1) r2
    | none => c :: stripRefsF (r.length + 1) r) = stripRefs r2
  rw [h]
  have hl := matchRef_len h
  simp only [List.length_cons] at hl
  exact stripRefsF_irrel (r.length + 1) (r2.length + 1) r2 (by omega) (by omega)

theorem stripRefs_lbfree_append : ∀ (seg x : List Char), '[' ∉ seg →
    stripRefs (seg ++ x) = seg ++ stripRefs x := by
  intro seg
  induction seg with
  | nil => intro x _; rfl
  | cons c seg' ih =>
    intro x h
    have hnone : matchRef (c :: (seg' ++ x)) = none := by
      refine matchRef_none_not_lb ?_
      intro hc
      have hc' : c = '[' := by simpa using hc
      subst hc'
      exact h (by simp)
    show stripRefs (c :: (seg' ++ x)) = c :: (seg' ++ stripRefs x)
    rw [stripRefs_cons_none hnone, ih x (fun hm => h (List.mem_cons_of_mem _ hm))]

theorem stripRefs_no_lb {x : List Char} (h : '[' ∉ x) : stripRefs x = x := by
  have hh := stripRefs_lbfree_append x [] h
  rw [List.append_nil] at hh
  rw [hh, show stripRefs [] = [] from rfl, List.append_nil]

theorem stripRefs_spliceBody : ∀ (pieces : List (List Char × List Char))
    (fin w : List Char),
    (∀ p ∈ pieces, '[' ∉ p.1 ∧ GoodId p.2) → '[' ∉ fin → '[' ∉ w →
    stripRefs (spliceBody pieces fin ++ w) = spliceSrc pieces fin ++ w := by
  intro pieces
  induction pieces with
  | nil =>
    intro fin w _ hfin hw
    show stripRefs (fin ++ w) = fin ++ w
    refine stripRefs_no_lb ?_
    intro hm
    rcases List.mem_append.mp hm with hm | hm
    · exact hfin hm
    · exact hw hm
  | cons p ps ih =>
    intro fin w hp hfin hw
    obtain ⟨seg, ds⟩ := p
    obtain ⟨hseg, hds⟩ := hp (seg, ds) (by simp)
    show stripRefs (seg ++ markerOf ds ++ spliceBody ps fin ++ w)
      = seg ++ spliceSrc ps fin ++ w
    rw [List.append_assoc, List.append_assoc,
      stripRefs_lbfree_append seg _ hseg]
    have hmarker : stripRefs (markerOf ds ++ (spliceBody ps fin ++ w))
        = stripRefs (spliceBody ps fin ++ w) := by
      have hcons : markerOf ds ++ (spliceBody ps fin ++ w)
          = '[' :: ('^' :: ds ++ ']' :: (spliceBody ps fin ++ w)) := by
        unfold markerOf
        simp
      rw [hcons]
      refine stripRefs_cons_some ?_
      rw [← hcons]
      exact matchRef_marker ds _ hds
    rw [hmarker, ih fin w (fun q hq => hp q (by simp [hq])) hfin hw,
      ← List.append_assoc]

theorem ws_not_dash {c : Char} (h : isJsWs c = true) : isDash c = false := by
  unfold isJsWs at h
  simp only [Bool.or_eq_true, decide_eq_true_eq] at h
  rcases h with ((((((rfl | rfl) | rfl) | rfl) | rfl) | rfl) | rfl) <;> decide

theorem dashNormF_irrel : ∀ (f1 f2 : Nat) (x : List Char),
    x.length < f1 → x.length < f2 → dashNormF f1 x = dashNormF f2 x := by
  intro f1
  induction f1 with
  | zero =>
    intro f2 x h1 h2
    omega
  | succ f1 ih =>
    intro f2 x h1 h2
    cases f2 with
    | zero => omega
    | succ f2 =>
      cases x with
      | nil => rfl
      | cons c r =>
        rw [dashNormF_cons, dashNormF_cons]
        simp only [List.length_cons] at h1 h2
        have hdw : (r.dropWhile isJsWs).length ≤ r.length :=
          (List.dropWhile_sublist _).length_le
        by_cases hd : isDash c = true
        · rw [if_pos hd, if_pos hd, ih f2 _ (by omega) (by omega)]
        · rw [if_neg hd, if_neg hd]
          by_cases hw : isJsWs c = true
          · rw [if_pos hw, if_pos hw]
            cases hdrop : (c :: r).dropWhile isJsWs with
            | nil => rfl
            | cons d r2 =>
              have hlen : (d :: r2).length ≤ r.length := by
                have hstep : (c :: r).dropWhile isJsWs = r.dropWhile isJsWs := by
                  rw [List.dropWhile_cons, if_pos hw]
                rw [hstep] at hdrop
                rw [← hdrop]
                exact hdw
              simp only [List.length_cons] at hlen
              have hr2d : (r2.dropWhile isJsWs).length ≤ r2.length :=
                (List.dropWhile_sublist _).length_le
              by_cases hdd : isDash d = true
              · show (if isDash d = true
                    then ' ' :: d :: ' ' :: dashNormF f1 (r2.dropWhile isJsWs)
                    else (c :: r).takeWhile isJsWs ++ dashNormF f1 (d :: r2))
                  = (if isDash d = true
                    then ' ' :: d :: ' ' :: dashNormF f2 (r2.dropWhile isJsWs)
                    else (c :: r).takeWhile isJsWs ++ dashNormF f2 (d :: r2))
                rw [if_pos hdd, if_pos hdd, ih f2 _ (by omega) (by omega)]
              · show (if isDash d = true
                    then ' ' :: d :: ' ' :: dashNormF f1 (r2.dropWhile isJsWs)
                    else (c :: r).takeWhile isJsWs ++ dashNormF f1 (d :: r2))
                  = (if isDash d = true
                    then ' ' :: d :: ' ' :: dashNormF f2 (r2.dropWhile isJsWs)
                    else (c :: r).takeWhile isJsWs ++ dashNormF f2 (d :: r2))
                rw [if_neg hdd, if_neg hdd,
                  ih f2 (d :: r2) (by simp; omega) (by simp; omega)]
          · rw [if_neg hw, if_neg hw, ih f2 r (by omega) (by omega)]

theorem dn_dash {c : Char} (r : List Char) (h : isDash c = true) :
    normalizeDashSpacing (c :: r)
      = ' ' :: c :: ' ' :: normalizeDashSpacing (r.dropWhile isJsWs) := by
  have hdw : (r.dropWhile isJsWs).length ≤ r.length :=
    (List.dropWhile_sublist _).length_le
  show dashNormF (r.length + 1 + 1) (c :: r) = _
  rw [dashNormF_cons, if_pos h,
    dashNormF_irrel (r.length + 1) ((r.dropWhile isJsWs).length + 1) _
      (by omega) (by omega)]
  rfl

theorem dn_plain {c : Char} (r : List Char) (hd : isDash c = false)
    (hw : isJsWs c = false) :
    normalizeDashSpacing (c :: r) = c :: normalizeDashSpacing r := by
  show dashNormF (r.length + 1 + 1) (c :: r) = _
  rw [dashNormF_cons, if_neg (by simp [hd]), if_neg (by simp [hw]),
    dashNormF_irrel (r.length + 1) (r.length + 1) _ (by omega) (by omega)]
  rfl

theorem dn_ws_nil {c : Char} (r : List Char) (hd : isDash c = false)
    (hw : isJsWs c = true) (hdrop : (c :: r).dropWhile isJsWs = []) :
    normalizeDashSpacing (c :: r) = (c :: r).takeWhile isJsWs := by
  show dashNormF (r.length + 1 + 1) (c :: r) = _
  rw [dashNormF_cons, if_neg (by simp [hd]), if_pos hw, hdrop]

theorem dn_ws_dash {c d : Char} (r r2 : List Char) (hd : isDash c = false)
    (hw : isJsWs c = true) (hdrop : (c :: r).dropWhile isJsWs = d :: r2)
    (hdd : isDash d = true) :
    normalizeDashSpacing (c :: r)
      = ' ' :: d :: ' ' :: normalizeDashSpacing (r2.dropWhile isJsWs) := by
  have hlen : (d :: r2).length ≤ r.length := by
    have hstep : (c :: r).dropWhile isJsWs = r.dropWhile isJsWs := by
      rw [List.dropWhile_cons, if_pos hw]
    rw [hstep] at hdrop
    rw [← hdrop]
    exact (List.dropWhile_sublist _).length_le
  have hr2d : (r2.dropWhile isJsWs).length ≤ r2.length :=
    (List.dropWhile_sublist _).length_le
  simp only [List.length_cons] at hlen
  show dashNormF (r.length + 1 + 1) (c :: r) = _
  rw [dashNormF_cons, if_neg (by simp [hd]), if_pos hw, hdrop]
  show (if isDash d = true
      then ' ' :: d :: ' ' :: dashNormF (r.length + 1) (r2.dropWhile isJsWs)
      else (c :: r).takeWhile isJsWs ++ dashNormF (r.length + 1) (d :: r2)) = _
  rw [if_pos hdd,
    dashNormF_irrel (r.length + 1) ((r2.dropWhile isJsWs).length + 1) _
      (by omega) (by omega)]
  rfl

theorem dn_ws_plain {c d : Char} (r r2 : List Char) (hd : isDash c = false)
    (hw : isJsWs c = true) (hdrop : (c :: r).dropWhile isJsWs = d :: r2)
    (hdd : isDash d = false) :
    normalizeDashSpacing (c :: r)
      = (c :: r).takeWhile isJsWs ++ normalizeDashSpacing (d :: r2) := by
  have hlen : (d :: r2).length ≤ r.length := by
    have hstep : (c :: r).dropWhile isJsWs = r.dropWhile isJsWs := by
      rw [List.dropWhile_cons, if_pos hw]
    rw [hstep] at hdrop
    rw [← hdrop]
    exact (List.dropWhile_sublist _).length_le
  show dashNormF (r.length + 1 + 1) (c :: r) = _
  rw [dashNormF_cons, if_neg (by simp [hd]), if_pos hw, hdrop]
  show (if isDash d = true
      then ' ' :: d :: ' ' :: dashNormF (r.length + 1) (r2.dropWhile isJsWs)
      else (c :: r).takeWhile isJsWs ++ dashNormF (r.length + 1) (d :: r2)) = _
  rw [if_neg (by simp [hdd]),
    dashNormF_irrel (r.length + 1) ((d :: r2).length + 1) (d :: r2)
      (by simp at hlen ⊢; omega) (by omega)]
  rfl

theorem dn_allws : ∀ {w : List Char}, (∀ c ∈ w, isJsWs c = true) →
    normalizeDashSpacing w = w := by
  intro w h
  cases w with
  | nil => rfl
  | cons c r =>
    have hwc := h c (by simp)
    have hdrop : (c :: r).dropWhile isJsWs = [] := (takeWhile_all _ h).2
    rw [dn_ws_nil r (ws_not_dash hwc) hwc hdrop]
    exact (takeWhile_all _ h).1

theorem dn_append_ws : ∀ (n : Nat) (x w : List Char), x.length ≤ n →
    (∀ c ∈ w, isJsWs c = true) →
    normalizeDashSpacing (x ++ w) = normalizeDashSpacing x ++ w
    ∨ normalizeDashSpacing (x ++ w) = normalizeDashSpacing x := by
  intro n
  induction n with
  | zero =>
    intro x w hlen hw
    have hx : x = [] := List.length_eq_zero.mp (Nat.le_zero.mp hlen)
    subst hx
    left
    rw [List.nil_append, dn_allws hw]
    rfl
  | succ n ihn =>
    intro x w hlen hw
    cases x with
    | nil =>
      left
      rw [List.nil_append, dn_allws hw]
      rfl
    | cons c r =>
      simp only [List.length_cons] at hlen
      rw [show ((c :: r) ++ w : List Char) = c :: (r ++ w) from rfl]
      by_cases hd : isDash c = true
      · rw [dn_dash _ hd, dn_dash r hd]
        by_cases hrd : r.dropWhile isJsWs = []
        · right
          have h1 : (r ++ w).dropWhile isJsWs = [] := by
            rw [List.dropWhile_append, if_pos (by rw [hrd]; rfl), (takeWhile_all w hw).2]
          rw [hrd, h1]
        · have h1 : (r ++ w).dropWhile isJsWs = r.dropWhile isJsWs ++ w := by
            rw [List.dropWhile_append,
              if_neg (fun hh => hrd (List.isEmpty_iff.mp hh))]
          rw [h1]
          rcases ihn (r.dropWhile isJsWs) w
            (le_trans (List.dropWhile_sublist _).length_le (by omega)) hw with h2 | h2
          · left
            rw [h2]
            rfl
          · right
            rw [h2]
      · have hd' : isDash c = false := by
          cases hh : isDash c
          · rfl
          · exact absurd hh hd
        by_cases hwc : isJsWs c = true
        · cases hdrop : (c :: r).dropWhile isJsWs with
          | nil =>
            left
            have hall : ∀ y ∈ c :: r, isJsWs y = true := by
              have hsp := @List.takeWhile_append_dropWhile _ isJsWs (c :: r)
              rw [hdrop, List.append_nil] at hsp
              intro y hy
              exact List.mem_takeWhile_imp (hsp ▸ hy)
            have hall2 : ∀ y ∈ c :: (r ++ w), isJsWs y = true := by
              intro y hy
              rcases List.mem_cons.mp hy with rfl | hy
              · exact hall y (by simp)
              · rcases List.mem_append.mp hy with hy | hy
                · exact hall y (by simp [hy])
                · exact hw y hy
            rw [dn_allws hall2, dn_allws hall]
            rfl
          | cons d r2 =>
            have h1 : (c :: (r ++ w)).dropWhile isJsWs = d :: (r2 ++ w) := by
              have hsp : ((c :: r) ++ w).dropWhile isJsWs
                  = (c :: r).dropWhile isJsWs ++ w := by
                rw [List.dropWhile_append,
                  if_neg (by rw [hdrop]; simp)]
              rw [show (c :: (r ++ w) : List Char) = (c :: r) ++ w from rfl, hsp, hdrop]
              rfl
            have hlend : (d :: r2).length ≤ r.length := by
              have hstep : (c :: r).dropWhile isJsWs = r.dropWhile isJsWs := by
                rw [List.dropWhile_cons, if_pos hwc]
              rw [hstep] at hdrop
              rw [← hdrop]
              exact (List.dropWhile_sublist _).length_le
            by_cases hdd : isDash d = true
            · rw [dn_ws_dash (r ++ w) (r2 ++ w) hd' hwc h1 hdd,
                dn_ws_dash r r2 hd' hwc hdrop hdd]
              by_cases hr2 : r2.dropWhile isJsWs = []
              · right
                have h2 : (r2 ++ w).dropWhile isJsWs = [] := by
                  rw [List.dropWhile_append, if_pos (by rw [hr2]; rfl),
                    (takeWhile_all w hw).2]
                rw [hr2, h2]
              · have h2 : (r2 ++ w).dropWhile isJsWs = r2.dropWhile isJsWs ++ w := by
                  rw [List.dropWhile_append,
                    if_neg (fun hh => hr2 (List.isEmpty_iff.mp hh))]
                rw [h2]
                have hlen2 : (r2.dropWhile isJsWs).length ≤ n := by
                  simp only [List.length_cons] at hlend
                  have h3 : (r2.dropWhile isJsWs).length ≤ r2.length :=
                    (List.dropWhile_sublist _).length_le
                  omega
                rcases ihn (r2.dropWhile isJsWs) w hlen2 hw with h3 | h3
                · left
                  rw [h3]
                  rfl
                · right
                  rw [h3]
            · have hdd' : isDash d = false := by
                cases hh : isDash d
                · rfl
                · exact absurd hh hdd
              rw [dn_ws_plain (r ++ w) (r2 ++ w) hd' hwc h1 hdd',
                dn_ws_plain r r2 hd' hwc hdrop hdd']
              have htake : (c :: (r ++ w)).takeWhile isJsWs
                  = (c :: r).takeWhile isJsWs := by
                have hsp := @List.takeWhile_append_dropWhile _ isJsWs (c :: r)
                rw [hdrop] at hsp
                have hdig : ∀ y ∈ (c :: r).takeWhile isJsWs, isJsWs y = true :=
                  fun y hy => List.mem_takeWhile_imp hy
                have hdf : isJsWs d = false := dropWhile_head_false hdrop
                have := @takeWhile_append_not isJsWs ((c :: r).takeWhile isJsWs)
                  d (r2 ++ w) hdig hdf
                have heq : ((c :: r).takeWhile isJsWs) ++ d :: (r2 ++ w)
                    = c :: (r ++ w) := by
                  calc ((c :: r).takeWhile isJsWs) ++ d :: (r2 ++ w)
                      = ((c :: r).takeWhile isJsWs ++ (d :: r2)) ++ w := by
                        simp
                    _ = (c :: r) ++ w := by rw [hsp]
                    _ = c :: (r ++ w) := rfl
                rw [← heq]
                exact this.1
              rw [htake]
              have hlen3 : (d :: r2).length ≤ n := by
                simp only [List.length_cons] at hlend ⊢
                omega
              rcases ihn (d :: r2) w hlen3 hw with h3 | h3
              · left
                have h3' : normalizeDashSpacing (d :: (r2 ++ w))
                    = normalizeDashSpacing (d :: r2) ++ w := h3
                rw [h3', List.append_assoc]
              · right
                have h3' : normalizeDashSpacing (d :: (r2 ++ w))
                    = normalizeDashSpacing (d :: r2) := h3
                rw [h3']
        · have hwc' : isJsWs c = false := by
            cases hh : isJsWs c
            · rfl
            · exact absurd hh hwc
          rw [dn_plain (r ++ w) hd' hwc', dn_plain r hd' hwc']
          rcases ihn r w (by omega) hw with h2 | h2
          · left
            rw [h2]
            rfl
          · right
            rw [h2]

theorem collWs_allws_true : ∀ {w : List Char}, (∀ c ∈ w, isJsWs c = true) →
    collWsGo true w = [] := by
  intro w
  induction w with
  | nil => intro _; rfl
  | cons c r ih =>
    intro h
    show (if isJsWs c then (if (true : Bool) then collWsGo true r else _)
      else c :: collWsGo false r) = []
    rw [if_pos (h c (by simp)), if_pos rfl]
    exact ih (fun y hy => h y (by simp [hy]))

theorem collWs_cons_ws_t {c : Char} (r : List Char) (h : isJsWs c = true) :
    collWsGo true (c :: r) = collWsGo true r := by
  show (if isJsWs c then (if (true : Bool) then collWsGo true r else _) else _) = _
  rw [if_pos h, if_pos rfl]

theorem collWs_cons_ws_f {c : Char} (r : List Char) (h : isJsWs c = true) :
    collWsGo false (c :: r) = ' ' :: collWsGo true r := by
  show (if isJsWs c then (if (false : Bool) then _ else ' ' :: collWsGo true r) else _) = _
  rw [if_pos h, if_neg (by simp)]

theorem collWs_cons_nws {c : Char} (b : Bool) (r : List Char) (h : isJsWs c = false) :
    collWsGo b (c :: r) = c :: collWsGo false r := by
  show (if isJsWs c then _ else c :: collWsGo false r) = _
  rw [if_neg (by simp [h])]

theorem collWs_append_ws : ∀ (x : List Char) (b : Bool) (w : List Char),
    (∀ c ∈ w, isJsWs c = true) →
    collWsGo b (x ++ w) = collWsGo b x
    ∨ collWsGo b (x ++ w) = collWsGo b x ++ [' '] := by
  intro x
  induction x with
  | nil =>
    intro b w hw
    cases w with
    | nil =>
      left
      rfl
    | cons c r =>
      cases b
      · right
        rw [List.nil_append, collWs_cons_ws_f r (hw c (by simp)),
          collWs_allws_true (fun y hy => hw y (by simp [hy]))]
        rfl
      · left
        rw [List.nil_append]
        exact collWs_allws_true hw
  | cons c x' ih =>
    intro b w hw
    by_cases hc : isJsWs c = true
    · cases b
      · rw [show ((c :: x') ++ w : List Char) = c :: (x' ++ w) from rfl,
          collWs_cons_ws_f _ hc, collWs_cons_ws_f x' hc]
        rcases ih true w hw with h1 | h1
        · left
          rw [h1]
        · right
          rw [h1]
          rfl
      · rw [show ((c :: x') ++ w : List Char) = c :: (x' ++ w) from rfl,
          collWs_cons_ws_t _ hc, collWs_cons_ws_t x' hc]
        exact ih true w hw
    · have hc' : isJsWs c = false := by
        cases hh : isJsWs c
        · rfl
        · exact absurd hh hc
      rw [show ((c :: x') ++ w : List Char) = c :: (x' ++ w) from rfl,
        collWs_cons_nws _ _ hc', collWs_cons_nws b x' hc']
      rcases ih false w hw with h1 | h1
      · left
        rw [h1]
      · right
        rw [h1]
        rfl

theorem trimJs_append_ws {z w : List Char} (h : ∀ c ∈ w, isJsWs c = true) :
    trimJs (z ++ w) = trimJs z := by
  unfold trimJs trimL
  rw [List.dropWhile_append]
  by_cases hz : (z.dropWhile isJsWs).isEmpty = true
  · rw [if_pos hz, (takeWhile_all w h).2, List.isEmpty_iff.mp hz]
  · rw [if_neg hz, trimR_apnd, if_pos (trimR_ws_nil h)]

theorem normWs_append_ws {z w : List Char} (h : ∀ c ∈ w, isJsWs c = true) :
    normalizeWhitespace (z ++ w) = normalizeWhitespace z := by
  unfold normalizeWhitespace
  rcases collWs_append_ws z false w h with h1 | h1
  · rw [h1]
  · rw [h1, trimJs_append_ws (by intro y hy; rcases List.mem_singleton.mp hy with rfl; decide)]

theorem normdash_append_ws {x w : List Char} (h : ∀ c ∈ w, isJsWs c = true) :
    normalizeWhitespace (normalizeDashSpacing (x ++ w))
      = normalizeWhitespace (normalizeDashSpacing x) := by
  rcases dn_append_ws x.length x w (le_refl _) h with h1 | h1
  · rw [h1, normWs_append_ws h]
  · rw [h1]

theorem collWs_true_pre_ws : ∀ {w : List Char}, (∀ c ∈ w, isJsWs c = true) →
    ∀ (y : List Char), collWsGo true (w ++ y) = collWsGo true y := by
  intro w
  induction w with
  | nil => intro _ y; rfl
  | cons c r ih =>
    intro h y
    rw [show ((c :: r) ++ y : List Char) = c :: (r ++ y) from rfl,
      collWs_cons_ws_t _ (h c (by simp))]
    exact ih (fun x hx => h x (by simp [hx])) y

theorem trimL_collWs_tf : ∀ (y : List Char),
    trimL (collWsGo true y) = trimL (collWsGo false y) := by
  intro y
  cases y with
  | nil => rfl
  | cons d y2 =>
    by_cases hd : isJsWs d = true
    · rw [collWs_cons_ws_t _ hd, collWs_cons_ws_f _ hd]
      show trimL (collWsGo true y2) = (' ' :: collWsGo true y2).dropWhile isJsWs
      rw [List.dropWhile_cons, if_pos (by decide)]
      rfl
    · have hd2 : isJsWs d = false := by
        cases hh : isJsWs d
        · rfl
        · exact absurd hh hd
      rw [collWs_cons_nws true y2 hd2, collWs_cons_nws false y2 hd2]

theorem normWs_pre_ws {w : List Char} (h : ∀ c ∈ w, isJsWs c = true) (y : List Char) :
    normalizeWhitespace (w ++ y) = normalizeWhitespace y := by
  cases w with
  | nil => rfl
  | cons c r =>
    unfold normalizeWhitespace trimJs
    rw [show ((c :: r) ++ y : List Char) = c :: (r ++ y) from rfl,
      collWs_cons_ws_f _ (h c (by simp)),
      collWs_true_pre_ws (fun x hx => h x (by simp [hx])) y]
    congr 1
    rw [show trimL (' ' :: collWsGo true y) = trimL (collWsGo true y) from by
      show (' ' :: collWsGo true y).dropWhile isJsWs = _
      rw [List.dropWhile_cons, if_pos (by decide)]
      rfl]
    exact trimL_collWs_tf y

theorem dn_pre_ws {w : List Char} (h : ∀ c ∈ w, isJsWs c = true) (x : List Char) :
    normalizeDashSpacing (w ++ x) = w ++ normalizeDashSpacing x
    ∨ normalizeDashSpacing (w ++ x) = normalizeDashSpacing x := by
  cases w with
  | nil =>
    left
    rfl
  | cons c w2 =>
    have hwc : isJsWs c = true := h c (by simp)
    have hwd : isDash c = false := ws_not_dash hwc
    have hwall : ∀ y ∈ c :: w2, isJsWs y = true := h
    have hdropw : (c :: (w2 ++ x)).dropWhile isJsWs = x.dropWhile isJsWs := by
      rw [show (c :: (w2 ++ x) : List Char) = (c :: w2) ++ x from rfl,
        List.dropWhile_append, if_pos (by rw [(takeWhile_all _ hwall).2]; rfl)]
    cases hdrop : x.dropWhile isJsWs with
    | nil =>
      have hxall : ∀ y ∈ x, isJsWs y = true := by
        have hsp := @List.takeWhile_append_dropWhile _ isJsWs x
        rw [hdrop, List.append_nil] at hsp
        intro y hy
        exact List.mem_takeWhile_imp (hsp ▸ hy)
      have hcomb : ∀ y ∈ (c :: w2) ++ x, isJsWs y = true := by
        intro y hy
        rcases List.mem_append.mp hy with hy | hy
        · exact hwall y hy
        · exact hxall y hy
      left
      rw [dn_allws hcomb, dn_allws hxall]
    | cons d r2 =>
      rw [hdrop] at hdropw
      by_cases hdd : isDash d = true
      · right
        rw [show ((c :: w2) ++ x : List Char) = c :: (w2 ++ x) from rfl,
          dn_ws_dash (w2 ++ x) r2 hwd hwc hdropw hdd]
        cases x with
        | nil => simp at hdrop
        | cons xc xr =>
          by_cases hxc : isJsWs xc = true
          · rw [dn_ws_dash xr r2 (ws_not_dash hxc) hxc hdrop hdd]
          · have hxc2 : isJsWs xc = false := by
              cases hh : isJsWs xc
              · rfl
              · exact absurd hh hxc
            have hx : (xc :: xr : List Char) = d :: r2 := by
              rw [← hdrop, List.dropWhile_cons, if_neg (by simp [hxc2])]
            rw [hx, dn_dash r2 hdd]
      · have hdd2 : isDash d = false := by
          cases hh : isDash d
          · rfl
          · exact absurd hh hdd
        left
        have hx_dec : x.takeWhile isJsWs ++ (d :: r2) = x := by
          rw [← hdrop]
          exact @List.takeWhile_append_dropWhile _ isJsWs x
        have hdf : isJsWs d = false := dropWhile_head_false hdrop
        have hall2 : ∀ y ∈ (c :: w2) ++ x.takeWhile isJsWs, isJsWs y = true := by
          intro y hy
          rcases List.mem_append.mp hy with hy | hy
          · exact hwall y hy
          · exact List.mem_takeWhile_imp hy
        have htk := (@takeWhile_append_not isJsWs ((c :: w2) ++ x.takeWhile isJsWs)
          d r2 hall2 hdf).1
        have heq : ((c :: w2) ++ x.takeWhile isJsWs) ++ d :: r2 = (c :: w2) ++ x := by
          rw [List.append_assoc, hx_dec]
        rw [heq] at htk
        rw [show ((c :: w2) ++ x : List Char) = c :: (w2 ++ x) from rfl,
          dn_ws_plain (w2 ++ x) r2 hwd hwc hdropw hdd2,
          show (c :: (w2 ++ x)).takeWhile isJsWs = (c :: w2) ++ x.takeWhile isJsWs
            from htk]
        cases x with
        | nil => simp at hdrop
        | cons xc xr =>
          by_cases hxc : isJsWs xc = true
          · rw [dn_ws_plain xr r2 (ws_not_dash hxc) hxc hdrop hdd2]
            rw [List.append_assoc]
          · have hxc2 : isJsWs xc = false := by
              cases hh : isJsWs xc
              · rfl
              · exact absurd hh hxc
            have hx : (xc :: xr : List Char) = d :: r2 := by
              rw [← hdrop, List.dropWhile_cons, if_neg (by simp [hxc2])]
            have htx : (xc :: xr).takeWhile isJsWs = [] := by
              rw [List.takeWhile_cons, if_neg (by simp [hxc2])]
            rw [htx, List.append_nil, hx]

theorem normdash_pre_ws {w : List Char} (h : ∀ c ∈ w, isJsWs c = true) (x : List Char) :
    normalizeWhitespace (normalizeDashSpacing (w ++ x))
      = normalizeWhitespace (normalizeDashSpacing x) := by
  rcases dn_pre_ws h x with h1 | h1
  · rw [h1, normWs_pre_ws h]
  · rw [h1]

theorem normdash_trimJs (x : List Char) :
    normalizeWhitespace (normalizeDashSpacing (trimJs x))
      = normalizeWhitespace (normalizeDashSpacing x) := by
  obtain ⟨w2, hdec, hw2⟩ := trimR_decomp (trimL x)
  have h1 : normalizeWhitespace (normalizeDashSpacing (trimL x))
      = normalizeWhitespace (normalizeDashSpacing (trimJs x)) := by
    show normalizeWhitespace (normalizeDashSpacing (trimL x))
      = normalizeWhitespace (normalizeDashSpacing (trimR (trimL x)))
    conv_lhs => rw [hdec]
    exact normdash_append_ws hw2
  have h2 : normalizeWhitespace (normalizeDashSpacing x)
      = normalizeWhitespace (normalizeDashSpacing (trimL x)) := by
    conv_lhs => rw [show x = x.takeWhile isJsWs ++ trimL x from
      (@List.takeWhile_append_dropWhile _ isJsWs x).symm]
    exact normdash_pre_ws (fun y hy => List.mem_takeWhile_imp hy) (trimL x)
  rw [← h1, ← h2]

theorem trimR_defhead (ds : List Char) :
    trimR ('[' :: '^' :: ds ++ [']', ':'] : List Char) = '[' :: '^' :: ds ++ [']', ':'] := by
  rw [show ('[' :: '^' :: ds ++ [']', ':'] : List Char)
      = ('[' :: '^' :: ds ++ [']']) ++ [':'] by simp, trimR_apnd,
    if_neg (by decide), show trimR [':'] = [':'] from by decide]

theorem defLineOf_shape (d : List Char × List Char) :
    defLineOf d = ('[' :: '^' :: d.1 ++ [']', ':']) ++ d.2 := by
  unfold defLineOf
  simp

theorem defLine_wf {d : List Char × List Char} (hgood : GoodId d.1)
    (hexcl : ∀ c ∈ d.2, isDotExcl c = false) (htr : trimR d.2 = d.2) :
    isDefHead (defLineOf d) = true ∧ trimR (defLineOf d) = defLineOf d
      ∧ TailOk (restOf (defLineOf d)) := by
  refine ⟨?_, ?_, ?_⟩
  · show isDefHead ('[' :: '^' :: (d.1 ++ ']' :: ':' :: d.2)) = true
    exact isDefHead_head d.1 d.2 hgood.1 hgood.2
  · rw [defLineOf_shape, trimR_apnd]
    by_cases hc : trimR d.2 = []
    · rw [if_pos hc, trimR_defhead]
      rw [htr] at hc
      rw [hc, List.append_nil]
    · rw [if_neg hc, htr]
  · have hfree : ∀ c ∈ defLineOf d, isDotExcl c = false := by
      intro c hc
      unfold defLineOf at hc
      rcases List.mem_cons.mp hc with rfl | hc
      · decide
      rcases List.mem_cons.mp hc with rfl | hc
      · decide
      rcases List.mem_append.mp hc with hc | hc
      · exact digit_not_excl (hgood.2 c hc)
      rcases List.mem_cons.mp hc with rfl | hc
      · decide
      rcases List.mem_cons.mp hc with rfl | hc
      · decide
      · exact hexcl c hc
    rw [restOf_all_line hfree]
    exact TailOk.nil

theorem stripDefs_withDefs (pieces : List (List Char × List Char)) (fin : List Char)
    (defs : List (List Char × List Char))
    (hp : ∀ p ∈ pieces, '[' ∉ p.1 ∧ GoodId p.2)
    (hcol : ∀ p ∈ pieces.tail, p.1.head? ≠ some ':')
    (hfin : '[' ∉ fin) (hfh : pieces ≠ [] → fin.head? ≠ some ':')
    (hdefs : ∀ d ∈ defs, GoodId d.1 ∧ (∀ c ∈ d.2, isDotExcl c = false)
      ∧ trimR d.2 = d.2) :
    stripDefs (withDefs (spliceBody pieces fin) defs)
      = spliceBody pieces fin ++ (if defs = [] then [] else ['\n']) := by
  obtain ⟨hhd, hocc⟩ := spliceBody_no_occ pieces fin hp hcol hfin hfh
  unfold withDefs
  by_cases hd : defs = []
  · rw [if_pos hd, if_pos hd, List.append_nil]
    show (scanBlocks [] (spliceBody pieces fin)).1 = _
    rw [scan_no_occ [] _ hocc]
  · rw [if_neg hd, if_neg hd]
    have hlines : ∀ b ∈ defs.map defLineOf,
        isDefHead b = true ∧ trimR b = b ∧ TailOk (restOf b) := by
      intro b hb
      obtain ⟨dd, hdd, rfl⟩ := List.mem_map.mp hb
      obtain ⟨h1, h2, h3⟩ := hdefs dd hdd
      exact defLine_wf h1 h2 h3
    have hne : defs.map defLineOf ≠ [] := by
      intro hh
      exact hd (List.map_eq_nil_iff.mp hh)
    have hnb : ¬ (('\n' : Char) = '\n'
        ∧ isDefHead ('\n' :: joinSep ['\n'] (defs.map defLineOf)) = true) := by
      rintro ⟨-, hdh⟩
      rw [isDefHead_not_lb (by simp)] at hdh
      exact Bool.noConfusion hdh
    have hscan : scanBlocks [] (spliceBody pieces fin
          ++ '\n' :: '\n' :: joinSep ['\n'] (defs.map defLineOf))
        = (spliceBody pieces fin
            ++ '\n' :: (List.replicate (defs.map defLineOf).length ([] : List Char)).flatten,
           defs.map defLineOf) := by
      rw [scan_pass_pre [] _ ('\n' :: joinSep ['\n'] (defs.map defLineOf)) hocc,
        scanBlocks_cons_pass [] '\n' _ hnb,
        scan_blocks_run [] _ hne hlines]
    show (scanBlocks [] (spliceBody pieces fin
      ++ '\n' :: '\n' :: joinSep ['\n'] (defs.map defLineOf))).1 = _
    rw [hscan]
    show spliceBody pieces fin
        ++ '\n' :: (List.replicate (defs.map defLineOf).length ([] : List Char)).flatten
      = _
    rw [show (List.replicate (defs.map defLineOf).length ([] : List Char)).flatten
        = [] from by simp]

theorem splitLines_no_nl : ∀ {l : List Char}, '\n' ∉ l → splitLines l = [l] := by
  intro l
  induction l with
  | nil => intro _; rfl
  | cons c r ih =>
    intro h
    have hc : ¬ (c = '\n') := by
      intro hc
      exact h (by simp [hc])
    show (if c = '\n' then [] :: splitLines r else (splitLines r).modifyHead (c :: ·)) = _
    rw [if_neg hc, ih (fun hm => h (List.mem_cons_of_mem _ hm))]
    rfl

theorem splitLines_joinSep : ∀ (ls : List (List Char)), ls ≠ [] →
    (∀ l ∈ ls, '\n' ∉ l) → splitLines (joinSep ['\n'] ls) = ls := by
  intro ls
  induction ls with
  | nil =>
    intro h _
    exact absurd rfl h
  | cons l ls' ih =>
    intro _ h
    cases ls' with
    | nil =>
      show splitLines l = [l]
      exact splitLines_no_nl (h l (by simp))
    | cons l2 ls'' =>
      have hjoin : joinSep ['\n'] (l :: l2 :: ls'')
          = l ++ '\n' :: joinSep ['\n'] (l2 :: ls'') := by
        show l ++ ['\n'] ++ joinSep ['\n'] (l2 :: ls'') = _
        simp
      rw [hjoin, splitLines_append_nl, splitLines_no_nl (h l (by simp)),
        ih (by simp) (fun x hx => h x (by simp [hx]))]
      rfl

theorem lines_no_defhead {cs : List Char} (h1 : isDefHead cs = false)
    (h2 : hasDefOcc cs = false) : ∀ l ∈ splitLines cs, isDefHead l = false := by
  intro l hl
  obtain ⟨t, ht⟩ := splitLines_head cs
  rw [ht] at hl
  rcases List.mem_cons.mp hl with rfl | hl
  · rw [isDefHead_headline]
    exact h1
  · refine lines_tail_no_defhead cs h2 l ?_
    rw [ht]
    simpa using hl

theorem validate_accept (pieces : List (List Char × List Char)) (fin : List Char)
    (defs : List (List Char × List Char))
    (hp : ∀ p ∈ pieces, '[' ∉ p.1 ∧ GoodId p.2)
    (hcol : ∀ p ∈ pieces.tail, p.1.head? ≠ some ':')
    (hfin : '[' ∉ fin) (hfh : pieces ≠ [] → fin.head? ≠ some ':')
    (hdefs : ∀ d ∈ defs, GoodId d.1 ∧ (∀ c ∈ d.2, isDotExcl c = false)
      ∧ trimR d.2 = d.2) :
    validatePreserveSource (spliceSrc pieces fin)
      (withDefs (spliceBody pieces fin) defs) = true := by
  have hsd := stripDefs_withDefs pieces fin defs hp hcol hfin hfh hdefs
  have hsr : stripRefs (stripDefs (withDefs (spliceBody pieces fin) defs))
      = spliceSrc pieces fin ++ (if defs = [] then [] else ['\n']) := by
    rw [hsd]
    refine stripRefs_spliceBody pieces fin _ hp hfin ?_
    by_cases hd : defs = []
    · rw [if_pos hd]
      simp
    · rw [if_neg hd]
      intro hm
      rcases List.mem_singleton.mp hm with h1
      exact absurd h1 (by decide)
  have hbody : normalizeWhitespace (normalizeDashSpacing
      (stripRefs (stripDefs (withDefs (spliceBody pieces fin) defs))))
      = normalizeWhitespace (normalizeDashSpacing (spliceSrc pieces fin)) := by
    rw [hsr]
    refine normdash_append_ws ?_
    intro c hc
    by_cases hd : defs = []
    · rw [if_pos hd] at hc
      simp at hc
    · rw [if_neg hd] at hc
      rcases List.mem_singleton.mp hc with rfl
      decide
  refine (validate_iff _ _).mpr ?_
  by_cases hsn : normalizeWhitespace (normalizeDashSpacing
      (trimJs (spliceSrc pieces fin))) = []
  · exact Or.inl hsn
  · right
    refine ⟨[], [], ?_⟩
    rw [hbody, normdash_trimJs]
    simp

theorem defLine_no_nl {d : List Char × List Char} (hg : GoodId d.1)
    (hx : ∀ c ∈ d.2, isDotExcl c = false) : '\n' ∉ defLineOf d := by
  intro hm
  unfold defLineOf at hm
  rcases List.mem_cons.mp hm with h1 | hm
  · exact absurd h1 (by decide)
  rcases List.mem_cons.mp hm with h1 | hm
  · exact absurd h1 (by decide)
  rcases List.mem_append.mp hm with hm | hm
  · exact absurd (hg.2 _ hm) (by decide)
  rcases List.mem_cons.mp hm with h1 | hm
  · exact absurd h1 (by decide)
  rcases List.mem_cons.mp hm with h1 | hm
  · exact absurd h1 (by decide)
  · exact absurd (hx _ hm) (by decide)

theorem emoji_accept (pieces : List (List Char × List Char)) (fin : List Char)
    (defs : List (List Char × List Char))
    (hp : ∀ p ∈ pieces, '[' ∉ p.1 ∧ GoodId p.2)
    (hcol : ∀ p ∈ pieces.tail, p.1.head? ≠ some ':')
    (hfin : '[' ∉ fin) (hfh : pieces ≠ [] → fin.head? ≠ some ':')
    (hdefs : ∀ d ∈ defs, GoodId d.1 ∧ (∀ c ∈ d.2, isDotExcl c = false)
      ∧ trimR d.2 = d.2)
    (hdefs2 : ∀ d ∈ defs, ∃ e ∈ allowedEmojis, leadsWith e (trimL d.2) = true) :
    validateFootnoteEmojis (withDefs (spliceBody pieces fin) defs) = true := by
  obtain ⟨hhd, hocc⟩ := spliceBody_no_occ pieces fin hp hcol hfin hfh
  have hbodylines := lines_no_defhead hhd hocc
  refine List.all_eq_true.mpr ?_
  intro l hl
  unfold withDefs at hl
  by_cases hd : defs = []
  · rw [if_pos hd] at hl
    show (match matchDefLine l with
      | some content => decide (trimL content ≠ [])
          && allowedEmojis.any (fun e => leadsWith e (trimL content))
      | none => true) = true
    rw [matchDefLine_none (hbodylines l hl)]
  · rw [if_neg hd] at hl
    have hnnl : ∀ x ∈ defs.map defLineOf, '\n' ∉ x := by
      intro x hx
      obtain ⟨dd, hdd, rfl⟩ := List.mem_map.mp hx
      obtain ⟨hg, hex, -⟩ := hdefs dd hdd
      exact defLine_no_nl hg hex
    have hne : defs.map defLineOf ≠ [] := by
      intro hh
      exact hd (List.map_eq_nil_iff.mp hh)
    rw [show splitLines (spliceBody pieces fin
        ++ '\n' :: '\n' :: joinSep ['\n'] (defs.map defLineOf))
        = splitLines (spliceBody pieces fin) ++ ([] :: defs.map defLineOf) from by
      rw [splitLines_append_nl]
      congr 1
      show (if ('\n' : Char) = '\n'
        then [] :: splitLines (joinSep ['\n'] (defs.map defLineOf))
        else (splitLines (joinSep ['\n'] (defs.map defLineOf))).modifyHead
          ((('\n' : Char)) :: ·)) = [] :: defs.map defLineOf
      rw [if_pos rfl, splitLines_joinSep _ hne hnnl]] at hl
    rcases List.mem_append.mp hl with hl | hl
    · show (match matchDefLine l with
        | some content => decide (trimL content ≠ [])
            && allowedEmojis.any (fun e => leadsWith e (trimL content))
        | none => true) = true
      rw [matchDefLine_none (hbodylines l hl)]
    · rcases List.mem_cons.mp hl with rfl | hl
      · rfl
      · obtain ⟨dd, hdd, rfl⟩ := List.mem_map.mp hl
        obtain ⟨hg, -, -⟩ := hdefs dd hdd
        obtain ⟨e, he, hlw⟩ := hdefs2 dd hdd
        have hm : matchDefLine (defLineOf dd) = some dd.2 := by
          show matchDefLine ('[' :: '^' :: (dd.1 ++ ']' :: ':' :: dd.2)) = some dd.2
          exact matchDefLine_defLine dd.1 dd.2 hg
        show (match matchDefLine (defLineOf dd) with
          | some content => decide (trimL content ≠ [])
              && allowedEmojis.any (fun e => leadsWith e (trimL content))
          | none => true) = true
        rw [hm]
        show (decide (trimL dd.2 ≠ [])
            && allowedEmojis.any (fun e => leadsWith e (trimL dd.2))) = true
        have hcne : trimL dd.2 ≠ [] := by
          intro hnil
          rw [hnil] at hlw
          have he0 : e = [] := by
            cases e with
            | nil => rfl
            | cons a b => exact absurd hlw (by simp [leadsWith])
          rw [he0] at he
          exact absurd he (by decide)
        simp only [Bool.and_eq_true, decide_eq_true_eq, List.any_eq_true]
        exact ⟨hcne, e, he, hlw⟩

theorem validate_reject_built (src : List Char)
    (pieces : List (List Char × List Char)) (fin : List Char)
    (defs : List (List Char × List Char))
    (hp : ∀ p ∈ pieces, '[' ∉ p.1 ∧ GoodId p.2)
    (hcol : ∀ p ∈ pieces.tail, p.1.head? ≠ some ':')
    (hfin : '[' ∉ fin) (hfh : pieces ≠ [] → fin.head? ≠ some ':')
    (hdefs : ∀ d ∈ defs, GoodId d.1 ∧ (∀ c ∈ d.2, isDotExcl c = false)
      ∧ trimR d.2 = d.2)
    (hcnt : countNonWs (spliceSrc pieces fin) < countNonWs src) :
    validatePreserveSource src (withDefs (spliceBody pieces fin) defs) = false := by
  have hsd := stripDefs_withDefs pieces fin defs hp hcol hfin hfh hdefs
  have hsr : stripRefs (stripDefs (withDefs (spliceBody pieces fin) defs))
      = spliceSrc pieces fin ++ (if defs = [] then [] else ['\n']) := by
    rw [hsd]
    refine stripRefs_spliceBody pieces fin _ hp hfin ?_
    by_cases hd : defs = []
    · rw [if_pos hd]
      simp
    · rw [if_neg hd]
      intro hm
      rcases List.mem_singleton.mp hm with h1
      exact absurd h1 (by decide)
  have hbcnt : countNonWs (normalizeWhitespace (normalizeDashSpacing
      (stripRefs (stripDefs (withDefs (spliceBody pieces fin) defs)))))
      = countNonWs (spliceSrc pieces fin) := by
    rw [cnws_normWs, cnws_dashNorm, hsr, cnws_append]
    have hwz : countNonWs (if defs = [] then ([] : List Char) else ['\n']) = 0 := by
      by_cases hd : defs = []
      · rw [if_pos hd]
        rfl
      · rw [if_neg hd]
        rfl
    omega
  have hscnt : countNonWs (normalizeWhitespace (normalizeDashSpacing (trimJs src)))
      = countNonWs src := by
    rw [cnws_normWs, cnws_dashNorm, cnws_trimJs]
  cases hv : validatePreserveSource src (withDefs (spliceBody pieces fin) defs)
  · rfl
  · exfalso
    rcases (validate_iff _ _).mp hv with h1 | ⟨pre, post, h2⟩
    · rw [h1] at hscnt
      have hz : countNonWs ([] : List Char) = 0 := rfl
      omega
    · rw [h2, cnws_append, cnws_append] at hbcnt
      omega

/-- Claim C2 counterexample: the validator does NOT accept every candidate
formed from the original only by inserting markers and appending emoji
definitions.  A source that already contains marker-shaped text "[^1]" is
rejected even for the identity candidate (zero insertions, zero appended
definitions), because FOOTNOTE_REF_RE strips "[^1]" from the candidate body
but not from the source. -/
theorem validator_accept_cex :
    validatePreserveSource ("a [^1] b").toList ("a [^1] b").toList = false := by
  decide

/-- Claim C2 (amended): for a source free of the character bracket, a
candidate built from it by inserting well-formed markers (no marker
immediately followed by a colon) and appending right-trimmed definition
lines whose line-terminator-free content starts with an allowed emoji
passes both validatePreserveSource and validateFootnoteEmojis;
validatePreserveSource rejects any candidate whatsoever with strictly
fewer non-whitespace characters than the source (in particular one with a
word deleted), and also rejects the built candidate itself whenever a
nonempty all-non-whitespace word of the source was deleted before the
markers and definitions were added; and validateFootnoteEmojis rejects any
candidate containing a definition line whose content is blank or does not
start with an allowed emoji.  Unconditional acceptance fails: see the
counterexample, a source that itself contains marker-shaped text. -/
theorem validator_spec
    (pieces : List (List Char × List Char)) (fin : List Char)
    (defs : List (List Char × List Char))
    (hp : ∀ p ∈ pieces, '[' ∉ p.1 ∧ GoodId p.2)
    (hcol : ∀ p ∈ pieces.tail, p.1.head? ≠ some ':')
    (hfin : '[' ∉ fin) (hfh : pieces ≠ [] → fin.head? ≠ some ':')
    (hdefs : ∀ d ∈ defs, GoodId d.1 ∧ (∀ c ∈ d.2, isDotExcl c = false)
      ∧ trimR d.2 = d.2 ∧ ∃ e ∈ allowedEmojis, leadsWith e (trimL d.2) = true) :
    (validatePreserveSource (spliceSrc pieces fin)
        (withDefs (spliceBody pieces fin) defs) = true
      ∧ validateFootnoteEmojis (withDefs (spliceBody pieces fin) defs) = true)
    ∧ (∀ (src cand : List Char), countNonWs cand < countNonWs src →
        validatePreserveSource src cand = false)
    ∧ (∀ (a w b : List Char), w ≠ [] → (∀ c ∈ w, isJsWs c = false) →
        spliceSrc pieces fin = a ++ b →
        validatePreserveSource (a ++ w ++ b)
          (withDefs (spliceBody pieces fin) defs) = false)
    ∧ (∀ (cand l content : List Char), l ∈ splitLines cand →
        matchDefLine l = some content →
        (trimL content = []
          ∨ ∀ e ∈ allowedEmojis, leadsWith e (trimL content) = false) →
        validateFootnoteEmojis cand = false) := by
  refine ⟨⟨?_, ?_⟩, ?_, ?_, ?_⟩
  · exact validate_accept pieces fin defs hp hcol hfin hfh
      (fun d hd => ⟨(hdefs d hd).1, (hdefs d hd).2.1, (hdefs d hd).2.2.1⟩)
  · exact emoji_accept pieces fin defs hp hcol hfin hfh
      (fun d hd => ⟨(hdefs d hd).1, (hdefs d hd).2.1, (hdefs d hd).2.2.1⟩)
      (fun d hd => (hdefs d hd).2.2.2)
  · intro src cand h
    exact validate_reject_count h
  · intro a w b hw hnws hsplit
    refine validate_reject_built (a ++ w ++ b) pieces fin defs hp hcol hfin hfh
      (fun d hd => ⟨(hdefs d hd).1, (hdefs d hd).2.1, (hdefs d hd).2.2.1⟩) ?_
    rw [hsplit, cnws_append, cnws_append, cnws_append]
    have hwpos : 1 ≤ countNonWs w := by
      cases w with
      | nil => exact absurd rfl hw
      | cons c r =>
        rw [cnws_cons, hnws c (by simp)]
        simp
    omega
  · intro cand l content h1 h2 h3
    exact emoji_reject h1 h2 h3

/-- Witness for the amended validator claim at concrete inputs: one marker
inserted after "see ", one appended definition line with a book-emoji
content, accepted by both validators; a candidate with "cut" deleted
rejected; the built candidate rejected against the source "see big note"
whose word "big" was deleted before building; a definition line " bad"
without an allowed emoji rejected. -/
theorem validator_spec_witness :
    (validatePreserveSource (spliceSrc [(("see ").toList, ['1'])] ((" note").toList))
        (withDefs (spliceBody [(("see ").toList, ['1'])] ((" note").toList))
          [(['1'], ("📚 X").toList)]) = true
      ∧ validateFootnoteEmojis
          (withDefs (spliceBody [(("see ").toList, ['1'])] ((" note").toList))
            [(['1'], ("📚 X").toList)]) = true)
    ∧ validatePreserveSource
        (("a ").toList ++ ("cut").toList ++ (" b").toList)
        (("a ").toList ++ (" b").toList) = false
    ∧ validatePreserveSource
        (("see ").toList ++ ("big").toList ++ (" note").toList)
        (withDefs (spliceBody [(("see ").toList, ['1'])] ((" note").toList))
          [(['1'], ("📚 X").toList)]) = false
    ∧ validateFootnoteEmojis (("x\n[^1]: bad").toList) = false := by
  have h := validator_spec [(("see ").toList, ['1'])] ((" note").toList)
      [(['1'], ("📚 X").toList)]
      (by
        intro p hp
        rcases List.mem_singleton.mp hp with rfl
        exact ⟨by decide, by decide, by decide⟩)
      (by
        intro p hp
        simp at hp)
      (by decide) (fun _ => by decide)
      (by
        intro d hd
        rcases List.mem_singleton.mp hd with rfl
        exact ⟨⟨by decide, by decide⟩, by decide, by decide, by decide⟩)
  refine ⟨h.1, ?_, ?_, ?_⟩
  · exact h.2.1 (("a ").toList ++ ("cut").toList ++ (" b").toList)
      (("a ").toList ++ (" b").toList) (by decide)
  · exact h.2.2.1 (("see ").toList) (("big").toList) ((" note").toList)
      (by decide) (by decide) (by decide)
  · exact h.2.2.2 (("x\n[^1]: bad").toList) (("[^1]: bad").toList) ((" bad").toList)
      (by decide) (by decide) (Or.inr (by decide))

end Annotate